import Mathlib

/-!
Verification development for the Card-Games blackjack backend.

The Python sources embedded here are:
* `backend/enum.py` — the `Suit` and `Rank` enumerations;
* `backend/logic_game.py` — `Card`, `Player` (hand + score), `Game`
  (deck, dealing, winner evaluation);
* `backend/app/main.py` — `PlayerSeat`, `Room`, `RoomManager` (the room /
  turn state machine exposed over HTTP).

Randomness (`random.shuffle`, `uuid.uuid4`) is modelled by explicit oracle
streams carried in the state: a `shuffler : Nat → List Card` stream stands
for the successive outputs of `random.shuffle`, and a `uuids : Nat → String`
stream for the successive uuid hex strings.  In-place mutation is modelled
by state passing; a raised `HTTPException` is modelled by returning the
state at the raise point together with an `Except.error`.
-/

/-- `Suit` from `enum.py`. -/
inductive Suit where
  | hearts
  | diamonds
  | clubs
  | spades
deriving DecidableEq, Repr

/-- The `.value` string of a `Suit` member. -/
def Suit.value : Suit → String
  | .hearts => "Hearts"
  | .diamonds => "Diamonds"
  | .clubs => "Clubs"
  | .spades => "Spades"

/-- `Rank` from `enum.py`. -/
inductive Rank where
  | two | three | four | five | six | seven | eight | nine | ten
  | jack | queen | king | ace
deriving DecidableEq, Repr

/-- The `.value` string of a `Rank` member. -/
def Rank.value : Rank → String
  | .two => "2"
  | .three => "3"
  | .four => "4"
  | .five => "5"
  | .six => "6"
  | .seven => "7"
  | .eight => "8"
  | .nine => "9"
  | .ten => "10"
  | .jack => "J"
  | .queen => "Q"
  | .king => "K"
  | .ace => "A"

/-- `int(card.rank.value)` for the number ranks ("2".."10"); the scoring code
only reaches this conversion for non-face, non-ace ranks, so the value given
to the other ranks (0) is never used. -/
def Rank.intValue : Rank → Nat
  | .two => 2
  | .three => 3
  | .four => 4
  | .five => 5
  | .six => 6
  | .seven => 7
  | .eight => 8
  | .nine => 9
  | .ten => 10
  | _ => 0

/-- `Card` from `logic_game.py` (the derived `image_path` attribute is asset
presentation only and is omitted). -/
structure Card where
  suit : Suit
  rank : Rank
deriving DecidableEq, Repr

instance : Inhabited Card := ⟨⟨Suit.hearts, Rank.two⟩⟩

/-- All 52 cards, as enumerated by `create_deck`
(`[Card(suit, rank) for suit in Suit for rank in Rank]`). -/
def fullDeck : List Card :=
  [Suit.hearts, Suit.diamonds, Suit.clubs, Suit.spades].flatMap fun s =>
    [Rank.two, Rank.three, Rank.four, Rank.five, Rank.six, Rank.seven,
     Rank.eight, Rank.nine, Rank.ten, Rank.jack, Rank.queen, Rank.king,
     Rank.ace].map fun r => ⟨s, r⟩

/-! ### Scoring (`Player.calculate_score`) -/

/-- The accumulation loop of `calculate_score`: walk the hand once, summing
the non-ace contributions (J/Q/K add 10, number cards their face value) in
the first component and counting aces in the second. -/
def scoreCounts (hand : List Card) : Nat × Nat :=
  hand.foldl
    (fun acc c =>
      if c.rank = Rank.jack ∨ c.rank = Rank.queen ∨ c.rank = Rank.king then
        (acc.1 + 10, acc.2)
      else if c.rank = Rank.ace then
        (acc.1, acc.2 + 1)
      else
        (acc.1 + c.rank.intValue, acc.2))
    (0, 0)

/-- The recursive `generate_scores(current_total, ace_index)` helper: with
`k` aces left to assign, branch over the per-ace values `[1, 10, 11]`. -/
def generate_scores (current_total : Nat) : Nat → List Nat
  | 0 => [current_total]
  | k + 1 => [1, 10, 11].flatMap fun ace_value =>
      generate_scores (current_total + ace_value) k

/-- Python's `max` on a list of naturals (callers only apply it to nonempty
lists; `0` on `[]` is an arbitrary total-function default). -/
def maxList : List Nat → Nat
  | [] => 0
  | x :: xs => xs.foldl max x

/-- Python's `min` on a list of naturals (same caveat as `maxList`). -/
def minList : List Nat → Nat
  | [] => 0
  | x :: xs => xs.foldl min x

/-- `Player.calculate_score` from `logic_game.py`, as a function of the hand
and the `is_dealer` role flag. -/
def calculate_score (hand : List Card) (is_dealer : Bool) : Nat :=
  let counts := scoreCounts hand
  let possible_scores := generate_scores counts.1 counts.2
  let threshold := if is_dealer then 15 else 16
  let valid_scores := possible_scores.filter fun s =>
    decide (threshold ≤ s) && decide (s ≤ 21)
  if valid_scores.isEmpty then
    let fallback_scores := possible_scores.filter fun s => decide (s ≤ 21)
    if fallback_scores.isEmpty then minList possible_scores
    else maxList fallback_scores
  else maxList valid_scores

/-! ### Spec-side reference scoring (§4.2 of the spec, claim C1)

The reference definition follows the spec's words: sum the non-ace cards,
enumerate all `3^k` totals obtained by choosing a value from `{1, 10, 11}`
for each of the `k` aces, and apply the floor / fallback rule. -/

/-- Spec wording: the value a non-ace card contributes to the base sum
(J/Q/K contribute 10, number cards their face value, 10 contributes 10). -/
def specCardValue : Card → Nat
  | ⟨_, Rank.two⟩ => 2
  | ⟨_, Rank.three⟩ => 3
  | ⟨_, Rank.four⟩ => 4
  | ⟨_, Rank.five⟩ => 5
  | ⟨_, Rank.six⟩ => 6
  | ⟨_, Rank.seven⟩ => 7
  | ⟨_, Rank.eight⟩ => 8
  | ⟨_, Rank.nine⟩ => 9
  | ⟨_, Rank.ten⟩ => 10
  | ⟨_, Rank.jack⟩ => 10
  | ⟨_, Rank.queen⟩ => 10
  | ⟨_, Rank.king⟩ => 10
  | ⟨_, Rank.ace⟩ => 0

/-- Spec wording: the face-value sum of the non-ace cards. -/
def specBase (hand : List Card) : Nat :=
  ((hand.filter fun c => c.rank ≠ Rank.ace).map specCardValue).sum

/-- Spec wording: the number of aces in the hand. -/
def countAces (hand : List Card) : Nat :=
  (hand.filter fun c => c.rank = Rank.ace).length

/-- The value `{1, 10, 11}` assigned to one ace by one of the three choices. -/
def aceValue : Fin 3 → Nat
  | 0 => 1
  | 1 => 10
  | 2 => 11

/-- Spec wording: the set of all `3^k` candidate totals — one per assignment
of a value from `{1, 10, 11}` to each of the `k` aces — added to the base. -/
def specTotals (base k : Nat) : Finset Nat :=
  (Finset.univ : Finset (Fin k → Fin 3)).image fun f =>
    base + ∑ i, aceValue (f i)

theorem specTotals_nonempty (base k : Nat) : (specTotals base k).Nonempty :=
  Finset.Nonempty.image ⟨fun _ => 0, Finset.mem_univ _⟩ _

/-- The spec's reference score (§4.2 steps 3–5): among candidates in
`[threshold, 21]` take the maximum; failing that the maximum candidate
`≤ 21`; failing that the minimum candidate. -/
def spec_score (hand : List Card) (is_dealer : Bool) : Nat :=
  let base := specBase hand
  let k := countAces hand
  let T := specTotals base k
  let threshold := if is_dealer then 15 else 16
  let valid := T.filter fun t => threshold ≤ t ∧ t ≤ 21
  if h : valid.Nonempty then valid.max' h
  else
    let fallback := T.filter fun t => t ≤ 21
    if h2 : fallback.Nonempty then fallback.max' h2
    else T.min' (specTotals_nonempty base k)

/-! ### Lemmas: `maxList` / `minList` -/

theorem foldl_max_acc_le (xs : List Nat) (a : Nat) : a ≤ xs.foldl max a := by
  induction xs generalizing a with
  | nil => simp
  | cons x xs ih => exact le_trans (le_max_left a x) (ih _)

theorem le_foldl_max (xs : List Nat) (a x : Nat) (hx : x ∈ xs) :
    x ≤ xs.foldl max a := by
  induction xs generalizing a with
  | nil => cases hx
  | cons y ys ih =>
    rcases List.mem_cons.mp hx with rfl | h
    · exact le_trans (le_max_right a x) (foldl_max_acc_le ys _)
    · exact ih _ h

theorem foldl_max_mem (xs : List Nat) (a : Nat) :
    xs.foldl max a = a ∨ xs.foldl max a ∈ xs := by
  induction xs generalizing a with
  | nil => exact Or.inl rfl
  | cons x xs ih =>
    rcases ih (max a x) with h | h
    · rcases le_total a x with hax | hxa
      · right
        rw [List.foldl_cons, h, max_eq_right hax]
        exact List.mem_cons_self _ _
      · left
        rw [List.foldl_cons, h, max_eq_left hxa]
    · right
      exact List.mem_cons_of_mem _ h

theorem maxList_mem {l : List Nat} (h : l ≠ []) : maxList l ∈ l := by
  cases l with
  | nil => exact absurd rfl h
  | cons x xs =>
    rcases foldl_max_mem xs x with h' | h'
    · rw [maxList, h']; exact List.mem_cons_self _ _
    · exact List.mem_cons_of_mem _ h'

theorem le_maxList {l : List Nat} {x : Nat} (hx : x ∈ l) : x ≤ maxList l := by
  cases l with
  | nil => cases hx
  | cons y ys =>
    rcases List.mem_cons.mp hx with rfl | h
    · exact foldl_max_acc_le ys x
    · exact le_foldl_max ys y x h

theorem foldl_min_le_acc (xs : List Nat) (a : Nat) : xs.foldl min a ≤ a := by
  induction xs generalizing a with
  | nil => simp
  | cons x xs ih => exact le_trans (ih _) (min_le_left a x)

theorem foldl_min_le (xs : List Nat) (a x : Nat) (hx : x ∈ xs) :
    xs.foldl min a ≤ x := by
  induction xs generalizing a with
  | nil => cases hx
  | cons y ys ih =>
    rcases List.mem_cons.mp hx with rfl | h
    · exact le_trans (foldl_min_le_acc ys _) (min_le_right a x)
    · exact ih _ h

theorem foldl_min_mem (xs : List Nat) (a : Nat) :
    xs.foldl min a = a ∨ xs.foldl min a ∈ xs := by
  induction xs generalizing a with
  | nil => exact Or.inl rfl
  | cons x xs ih =>
    rcases ih (min a x) with h | h
    · rcases le_total a x with hax | hxa
      · left
        rw [List.foldl_cons, h, min_eq_left hax]
      · right
        rw [List.foldl_cons, h, min_eq_right hxa]
        exact List.mem_cons_self _ _
    · right
      exact List.mem_cons_of_mem _ h

theorem minList_mem {l : List Nat} (h : l ≠ []) : minList l ∈ l := by
  cases l with
  | nil => exact absurd rfl h
  | cons x xs =>
    rcases foldl_min_mem xs x with h' | h'
    · rw [minList, h']; exact List.mem_cons_self _ _
    · exact List.mem_cons_of_mem _ h'

theorem minList_le {l : List Nat} {x : Nat} (hx : x ∈ l) : minList l ≤ x := by
  cases l with
  | nil => cases hx
  | cons y ys =>
    rcases List.mem_cons.mp hx with rfl | h
    · exact foldl_min_le_acc ys x
    · exact foldl_min_le ys y x h

theorem maxList_eq_max' (l : List Nat) (F : Finset Nat)
    (h : ∀ x, x ∈ l ↔ x ∈ F) (hne : l ≠ []) (hF : F.Nonempty) :
    maxList l = F.max' hF :=
  le_antisymm (F.le_max' _ ((h _).1 (maxList_mem hne)))
    (le_maxList ((h _).2 (F.max'_mem hF)))

theorem minList_eq_min' (l : List Nat) (F : Finset Nat)
    (h : ∀ x, x ∈ l ↔ x ∈ F) (hne : l ≠ []) (hF : F.Nonempty) :
    minList l = F.min' hF :=
  le_antisymm (minList_le ((h _).2 (F.min'_mem hF)))
    (F.min'_le _ ((h _).1 (minList_mem hne)))

theorem isEmpty_iff_not_nonempty (l : List Nat) (F : Finset Nat)
    (h : ∀ x, x ∈ l ↔ x ∈ F) : l.isEmpty = true ↔ ¬ F.Nonempty := by
  rw [List.isEmpty_iff, List.eq_nil_iff_forall_not_mem, Finset.Nonempty]
  push_neg
  exact ⟨fun hl x hx => hl x ((h x).2 hx), fun hf x hx => hf x ((h x).1 hx)⟩

/-! ### Lemmas: enumeration of ace assignments -/

theorem aceValue_cases (j : Fin 3) :
    aceValue j = 1 ∨ aceValue j = 10 ∨ aceValue j = 11 := by
  revert j
  decide

theorem mem_generate_scores (k : Nat) :
    ∀ (base x : Nat),
      x ∈ generate_scores base k ↔
        ∃ f : Fin k → Fin 3, base + ∑ i, aceValue (f i) = x := by
  induction k with
  | zero =>
    intro base x
    simp [generate_scores]
    exact comm
  | succ k ih =>
    intro base x
    rw [generate_scores, List.mem_flatMap]
    constructor
    · rintro ⟨v, hv, hx⟩
      obtain ⟨f, hf⟩ := (ih (base + v) x).1 hx
      have hj : ∃ j : Fin 3, aceValue j = v := by
        simp only [List.mem_cons, List.not_mem_nil, or_false] at hv
        rcases hv with rfl | rfl | rfl
        · exact ⟨0, rfl⟩
        · exact ⟨1, rfl⟩
        · exact ⟨2, rfl⟩
      obtain ⟨j, rfl⟩ := hj
      refine ⟨Fin.cons j f, ?_⟩
      rw [Fin.sum_univ_succ]
      simp only [Fin.cons_zero, Fin.cons_succ]
      omega
    · rintro ⟨g, hg⟩
      refine ⟨aceValue (g 0), ?_, ?_⟩
      · rcases aceValue_cases (g 0) with h | h | h <;> simp [h]
      · refine (ih (base + aceValue (g 0)) x).2 ⟨fun i => g i.succ, ?_⟩
        show base + aceValue (g 0) + ∑ i : Fin k, aceValue (g i.succ) = x
        rw [Fin.sum_univ_succ] at hg
        omega

theorem mem_specTotals (base k x : Nat) :
    x ∈ specTotals base k ↔
      ∃ f : Fin k → Fin 3, base + ∑ i, aceValue (f i) = x := by
  simp [specTotals, Finset.mem_image]

theorem generate_scores_iff_specTotals (base k x : Nat) :
    x ∈ generate_scores base k ↔ x ∈ specTotals base k :=
  (mem_generate_scores k base x).trans (mem_specTotals base k x).symm

/-! ### Lemmas: the accumulation loop -/

theorem scoreStep_eq (acc : Nat × Nat) (c : Card) :
    (if c.rank = Rank.jack ∨ c.rank = Rank.queen ∨ c.rank = Rank.king then
        (acc.1 + 10, acc.2)
      else if c.rank = Rank.ace then
        (acc.1, acc.2 + 1)
      else
        (acc.1 + c.rank.intValue, acc.2))
      = (acc.1 + (if c.rank = Rank.ace then 0 else specCardValue c),
         acc.2 + (if c.rank = Rank.ace then 1 else 0)) := by
  rcases c with ⟨s, r⟩
  cases r <;> rfl

theorem scoreCounts_loop (hand : List Card) :
    ∀ a b : Nat,
      hand.foldl
        (fun acc c =>
          if c.rank = Rank.jack ∨ c.rank = Rank.queen ∨ c.rank = Rank.king then
            (acc.1 + 10, acc.2)
          else if c.rank = Rank.ace then
            (acc.1, acc.2 + 1)
          else
            (acc.1 + c.rank.intValue, acc.2))
        (a, b) = (a + specBase hand, b + countAces hand) := by
  induction hand with
  | nil => intro a b; simp [specBase, countAces]
  | cons c hand ih =>
    intro a b
    rw [List.foldl_cons, scoreStep_eq, ih]
    by_cases h : c.rank = Rank.ace <;>
      simp [specBase, countAces, List.filter_cons, h, Prod.ext_iff] <;>
      omega

theorem scoreCounts_eq (hand : List Card) :
    scoreCounts hand = (specBase hand, countAces hand) := by
  have h := scoreCounts_loop hand 0 0
  simpa [scoreCounts] using h

/-- C1: `calculate_score` agrees with the spec's reference definition
(§4.2): enumerate all `3^k` per-ace assignments from `{1, 10, 11}` over the
non-ace base sum, take the maximum candidate within `[threshold, 21]`
(threshold 15 for the dealer, 16 for a player), else the maximum candidate
`≤ 21`, else the minimum candidate; with zero aces the result is exactly the
face-value sum. -/
theorem calculate_score_correct (hand : List Card) (is_dealer : Bool) :
    calculate_score hand is_dealer = spec_score hand is_dealer ∧
      (countAces hand = 0 → calculate_score hand is_dealer = specBase hand) := by
  constructor
  · have hmem : ∀ x, x ∈ generate_scores (specBase hand) (countAces hand) ↔
        x ∈ specTotals (specBase hand) (countAces hand) := fun x =>
      generate_scores_iff_specTotals _ _ x
    simp only [calculate_score, spec_score, scoreCounts_eq]
    set thr := if is_dealer then (15 : Nat) else 16 with hthr
    set L := generate_scores (specBase hand) (countAces hand) with hL
    set T := specTotals (specBase hand) (countAces hand) with hT
    have hLne : L ≠ [] := by
      obtain ⟨x, hx⟩ := specTotals_nonempty (specBase hand) (countAces hand)
      intro hnil
      have := (hmem x).2 hx
      rw [hnil] at this
      cases this
    have hvalid : ∀ x,
        x ∈ L.filter (fun s => decide (thr ≤ s) && decide (s ≤ 21)) ↔
          x ∈ T.filter (fun t => thr ≤ t ∧ t ≤ 21) := by
      intro x
      simp [List.mem_filter, Finset.mem_filter, hmem x]
    have hfall : ∀ x,
        x ∈ L.filter (fun s => decide (s ≤ 21)) ↔
          x ∈ T.filter (fun t => t ≤ 21) := by
      intro x
      simp [List.mem_filter, Finset.mem_filter, hmem x]
    by_cases hv : (T.filter (fun t => thr ≤ t ∧ t ≤ 21)).Nonempty
    · have he : ¬ ((L.filter (fun s => decide (thr ≤ s) && decide (s ≤ 21))).isEmpty
          = true) := by
        rw [isEmpty_iff_not_nonempty _ _ hvalid]
        exact not_not_intro hv
      rw [if_neg he, dif_pos hv]
      refine maxList_eq_max' _ _ hvalid (fun hnil => he ?_) hv
      rw [hnil]
      rfl
    · have he : (L.filter (fun s => decide (thr ≤ s) && decide (s ≤ 21))).isEmpty
          = true := (isEmpty_iff_not_nonempty _ _ hvalid).2 hv
      rw [if_pos he, dif_neg hv]
      by_cases hf : (T.filter (fun t => t ≤ 21)).Nonempty
      · have hfe : ¬ ((L.filter (fun s => decide (s ≤ 21))).isEmpty = true) := by
          rw [isEmpty_iff_not_nonempty _ _ hfall]
          exact not_not_intro hf
        rw [if_neg hfe, dif_pos hf]
        refine maxList_eq_max' _ _ hfall (fun hnil => hfe ?_) hf
        rw [hnil]
        rfl
      · have hfe : (L.filter (fun s => decide (s ≤ 21))).isEmpty = true :=
          (isEmpty_iff_not_nonempty _ _ hfall).2 hf
        rw [if_pos hfe, dif_neg hf]
        exact minList_eq_min' _ _ hmem hLne (specTotals_nonempty _ _)
  · intro h0
    simp only [calculate_score, scoreCounts_eq, h0]
    set b := specBase hand with hb
    set thr := if is_dealer then (15 : Nat) else 16 with hthr
    show (if ((generate_scores b 0).filter
          (fun s => decide (thr ≤ s) && decide (s ≤ 21))).isEmpty then _ else _) = b
    by_cases hA : thr ≤ b ∧ b ≤ 21
    · simp [generate_scores, List.filter, hA.1, hA.2, maxList]
    · by_cases hB : b ≤ 21
      · have hnthr : ¬ thr ≤ b := fun h => hA ⟨h, hB⟩
        simp [generate_scores, List.filter, hnthr, hB, maxList]
      · simp [generate_scores, List.filter, hB, minList]

/-- Closed witness for C1 at a concrete two-card, zero-ace hand. -/
theorem calculate_score_correct_witness :
    calculate_score [⟨Suit.hearts, Rank.king⟩, ⟨Suit.spades, Rank.seven⟩] false
        = spec_score [⟨Suit.hearts, Rank.king⟩, ⟨Suit.spades, Rank.seven⟩] false ∧
      countAces [⟨Suit.hearts, Rank.king⟩, ⟨Suit.spades, Rank.seven⟩] = 0 ∧
      calculate_score [⟨Suit.hearts, Rank.king⟩, ⟨Suit.spades, Rank.seven⟩] false
        = specBase [⟨Suit.hearts, Rank.king⟩, ⟨Suit.spades, Rank.seven⟩] :=
  ⟨(calculate_score_correct _ _).1, by decide,
    (calculate_score_correct _ _).2 (by decide)⟩

/-! ### `Player` and `Game` (`logic_game.py`) -/

/-- `Player` from `logic_game.py`. -/
structure Player where
  name : String
  hand : List Card
  score : Nat
  is_dealer : Bool
  result : String
deriving Repr

instance : Inhabited Player := ⟨⟨"", [], 0, false, ""⟩⟩

/-- `Player.__init__(name, is_dealer)`. -/
def Player.init (name : String) (is_dealer : Bool) : Player :=
  ⟨name, [], 0, is_dealer, ""⟩

/-- `Player.add_card`: append the card and recompute the score from the
whole hand (`calculate_score` stores into `self.score`). -/
def Player.add_card (p : Player) (card : Card) : Player :=
  { p with hand := p.hand ++ [card],
           score := calculate_score (p.hand ++ [card]) p.is_dealer }

/-- `Game` from `logic_game.py`.  `shuffler`/`shuffleCount` model the stream
of `random.shuffle` outcomes (each entry is the shuffled 52-card deck the
corresponding `create_deck` call would produce). -/
structure Game where
  n_players : Nat
  players : List Player
  dealer : Player
  deck : List Card
  shuffler : Nat → List Card
  shuffleCount : Nat

instance : Inhabited Game :=
  ⟨⟨0, [], Player.init "Dealer" true, [], fun _ => [], 0⟩⟩

/-- `Game.create_deck`: the next oracle output is the freshly shuffled deck. -/
def Game.create_deck (g : Game) : List Card × Game :=
  (g.shuffler g.shuffleCount, { g with shuffleCount := g.shuffleCount + 1 })

/-- `Game.__init__(n_players)`: validate the count, then set up the dealer
and a fresh shuffled deck (the oracle's output at index 0). -/
def Game.init (n_players : Nat) (shuffler : Nat → List Card) :
    Except String Game :=
  if n_players < 1 then .error "Number of players must be at least 1"
  else if n_players > 8 then .error "Number of players cannot exceed 8"
  else .ok { n_players := n_players, players := [],
             dealer := Player.init "Dealer" true,
             deck := shuffler 0, shuffler := shuffler, shuffleCount := 1 }

/-- `Game.draw_card`: reshuffle a fresh deck when empty, then pop the last
card.  (In Python the fresh deck always has 52 cards so the pop succeeds;
if the oracle ever returned `[]` — which no reachable state does — we return
a default card where Python would raise `IndexError`.) -/
def Game.draw_card (g : Game) : Card × Game :=
  let g' := if g.deck.isEmpty then
      let (d, g2) := g.create_deck
      { g2 with deck := d }
    else g
  match g'.deck.getLast? with
  | some c => (c, { g' with deck := g'.deck.dropLast })
  | none => (default, g')

/-- `Game.add_players`: append `n_players` fresh positionally named players. -/
def Game.add_players (g : Game) : Game :=
  { g with players := g.players ++
      (List.range g.n_players).map fun i =>
        Player.init ("Player " ++ toString (i + 1)) false }

/-- The loop `for player in self.players: player.add_card(self.draw_card())`
of `deal_initial_cards`, modelled by threading the game (deck) state through
the player list in order. -/
def dealToPlayers (g : Game) : List Player → List Player × Game
  | [] => ([], g)
  | p :: ps =>
    let (c, g') := g.draw_card
    let (rest, g'') := dealToPlayers g' ps
    (p.add_card c :: rest, g'')

/-- One pass of `deal_initial_cards`: every player draws one card in index
order, then the dealer draws one card. -/
def Game.dealPass (g : Game) : Game :=
  let (ps, g1) := dealToPlayers g g.players
  let g2 := { g1 with players := ps }
  let (c, g3) := g2.draw_card
  { g3 with dealer := g3.dealer.add_card c }

/-- `Game.deal_initial_cards`: two passes (`for _ in range(2)`). -/
def Game.deal_initial_cards (g : Game) : Game :=
  g.dealPass.dealPass

/-- The `is_blackjack` helper of `evaluate_winner`: exactly 2 cards and
score 21. -/
def is_blackjack_p (p : Player) : Bool :=
  decide (p.hand.length = 2) && decide (p.score = 21)

/-- The `is_golden_blackjack` helper of `evaluate_winner`: exactly 2 cards,
all aces. -/
def is_golden_blackjack_p (p : Player) : Bool :=
  decide (p.hand.length = 2) && p.hand.all fun card => decide (card.rank = Rank.ace)

/-- The `is_spirit` helper of `evaluate_winner`: exactly 5 cards with score
at most 21. -/
def is_spirit (p : Player) : Bool :=
  decide (p.hand.length = 5) && decide (p.score ≤ 21)

/-- `Game.evaluate_winner(player_index)`: the priority ladder. -/
def Game.evaluate_winner (g : Game) (player_index : Nat) : String :=
  let dealer := g.dealer
  let player := g.players.getD player_index default
  let player_score := player.score
  let dealer_score := dealer.score
  let player_golden := is_golden_blackjack_p player
  let dealer_golden := is_golden_blackjack_p dealer
  let player_blackjack := is_blackjack_p player
  let dealer_blackjack := is_blackjack_p dealer
  if player_golden && dealer_golden then "Draw (both Golden Blackjack)"
  else if player_golden then "Player wins with Golden Blackjack"
  else if dealer_golden then "Dealer wins with Golden Blackjack"
  else if player_blackjack && dealer_blackjack then "Draw (both Blackjack)"
  else if dealer_blackjack then "Dealer wins with Blackjack"
  else if player_blackjack then "Player wins with Blackjack"
  else if is_spirit player && is_spirit dealer then "Draw (both Di Linh)"
  else if is_spirit player then "Player wins with Di Linh"
  else if is_spirit dealer then "Dealer wins with Di Linh"
  else if 21 < player_score then "Player busted - Dealer wins"
  else if 21 < dealer_score then "Dealer busted - Player wins"
  else if dealer_score < player_score then "Player wins"
  else if player_score < dealer_score then "Dealer wins"
  else "Draw"

/-- `Game.check_player(player_index)`: evaluate and store that player's
result.  (Python raises `ValueError` on an out-of-range index; every call
site in the app passes an in-range index, and out of range we return the
game unchanged.) -/
def Game.check_player (g : Game) (player_index : Nat) : Game :=
  if player_index < g.players.length then
    let player := g.players.getD player_index default
    let player' := { player with result := g.evaluate_winner player_index }
    { g with players := g.players.set player_index player' }
  else g

/-- C2: `evaluate_winner` is the priority ladder, evaluated top to bottom,
first match wins: golden blackjack, then blackjack, then the five-card
spirit ("Di Linh") hand, then busts, then score comparison; in particular a
player holding both golden blackjack and blackjack beats a dealer holding
only blackjack via the golden branch. -/
theorem evaluate_winner_ladder (p d : Player) :
    ∀ r, r = Game.evaluate_winner ⟨1, [p], d, [], fun _ => [], 0⟩ 0 →
      ((is_golden_blackjack_p p && is_golden_blackjack_p d) = true →
        r = "Draw (both Golden Blackjack)") ∧
      (is_golden_blackjack_p p = true → is_golden_blackjack_p d = false →
        r = "Player wins with Golden Blackjack") ∧
      (is_golden_blackjack_p p = false → is_golden_blackjack_p d = true →
        r = "Dealer wins with Golden Blackjack") ∧
      (is_golden_blackjack_p p = false → is_golden_blackjack_p d = false →
        ((is_blackjack_p p && is_blackjack_p d) = true →
          r = "Draw (both Blackjack)") ∧
        (is_blackjack_p p = false → is_blackjack_p d = true →
          r = "Dealer wins with Blackjack") ∧
        (is_blackjack_p p = true → is_blackjack_p d = false →
          r = "Player wins with Blackjack") ∧
        (is_blackjack_p p = false → is_blackjack_p d = false →
          ((is_spirit p && is_spirit d) = true → r = "Draw (both Di Linh)") ∧
          (is_spirit p = true → is_spirit d = false →
            r = "Player wins with Di Linh") ∧
          (is_spirit p = false → is_spirit d = true →
            r = "Dealer wins with Di Linh") ∧
          (is_spirit p = false → is_spirit d = false →
            (21 < p.score → r = "Player busted - Dealer wins") ∧
            (p.score ≤ 21 → 21 < d.score → r = "Dealer busted - Player wins") ∧
            (p.score ≤ 21 → d.score ≤ 21 → d.score < p.score →
              r = "Player wins") ∧
            (p.score ≤ 21 → d.score ≤ 21 → p.score < d.score →
              r = "Dealer wins") ∧
            (p.score ≤ 21 → d.score ≤ 21 → p.score = d.score →
              r = "Draw")))) ∧
      (is_golden_blackjack_p p = true → is_blackjack_p p = true →
        is_blackjack_p d = true → is_golden_blackjack_p d = false →
        r = "Player wins with Golden Blackjack") := by
  rintro r rfl
  simp only [Game.evaluate_winner, List.getD_cons_zero]
  refine ⟨fun h => by simp [*],
    fun h1 h2 => by simp [*],
    fun h1 h2 => by simp [*],
    fun h1 h2 =>
      ⟨fun h => by simp [*],
       fun h3 h4 => by simp [*],
       fun h3 h4 => by simp [*],
       fun h3 h4 =>
        ⟨fun h => by simp [*],
         fun h5 h6 => by simp [*],
         fun h5 h6 => by simp [*],
         fun h5 h6 =>
          ⟨fun h => by simp [*],
           fun ha hb => by
            have k1 : ¬ 21 < p.score := by omega
            simp [*],
           fun ha hb hc => by
            have k1 : ¬ 21 < p.score := by omega
            have k2 : ¬ 21 < d.score := by omega
            simp [*],
           fun ha hb hc => by
            have k1 : ¬ 21 < p.score := by omega
            have k2 : ¬ 21 < d.score := by omega
            have k3 : ¬ d.score < p.score := by omega
            simp [*],
           fun ha hb hc => by
            have k1 : ¬ 21 < p.score := by omega
            have k2 : ¬ 21 < d.score := by omega
            have k3 : ¬ d.score < p.score := by omega
            have k4 : ¬ p.score < d.score := by omega
            simp [*]⟩⟩⟩,
    fun h1 h2 h3 h4 => by simp [*]⟩

/-- A player dealt A♠ A♦: golden blackjack (and, by score, also blackjack). -/
def goldenHandPlayer : Player :=
  { name := "Player 1",
    hand := [⟨Suit.spades, Rank.ace⟩, ⟨Suit.diamonds, Rank.ace⟩],
    score := calculate_score
      [⟨Suit.spades, Rank.ace⟩, ⟨Suit.diamonds, Rank.ace⟩] false,
    is_dealer := false, result := "" }

/-- A dealer dealt A♣ K♦: blackjack (score 21) but not golden. -/
def blackjackDealer : Player :=
  { name := "Dealer",
    hand := [⟨Suit.clubs, Rank.ace⟩, ⟨Suit.diamonds, Rank.king⟩],
    score := calculate_score
      [⟨Suit.clubs, Rank.ace⟩, ⟨Suit.diamonds, Rank.king⟩] true,
    is_dealer := true, result := "" }

/-- Closed witness for C2: golden blackjack beats a blackjack-only dealer. -/
theorem evaluate_winner_ladder_witness :
    Game.evaluate_winner ⟨1, [goldenHandPlayer], blackjackDealer, [],
        fun _ => [], 0⟩ 0 = "Player wins with Golden Blackjack" :=
  (evaluate_winner_ladder goldenHandPlayer blackjackDealer _ rfl).2.2.2.2
    (by decide) (by decide) (by decide) (by decide)

/-! ### Lemmas: drawing and dealing -/

theorem draw_card_frame (g : Game) :
    (g.draw_card).2.players = g.players ∧ (g.draw_card).2.dealer = g.dealer ∧
      (g.draw_card).2.n_players = g.n_players ∧
      (g.draw_card).2.shuffler = g.shuffler := by
  unfold Game.draw_card Game.create_deck
  by_cases h : g.deck.isEmpty = true <;>
    simp only [h, if_true, if_false, Bool.false_eq_true] <;>
      (first
        | (cases hl : (g.shuffler g.shuffleCount).getLast? <;> simp [hl])
        | (cases hl : g.deck.getLast? <;> simp [hl]))

theorem reverse_drop_reverse (l : List Card) (k : Nat) :
    (l.reverse.drop k).reverse = l.take (l.length - k) := by
  have h := List.rdrop_eq_reverse_drop_reverse (l := l) (n := k)
  rw [List.rdrop] at h
  exact h.symm

theorem reverse_take_sub (l : List Card) (k : Nat) :
    (l.take (l.length - k)).reverse = l.reverse.drop k := by
  rw [← reverse_drop_reverse, List.reverse_reverse]

theorem draw_card_cons_rev (g : Game) (c : Card) (rest : List Card)
    (h : g.deck.reverse = c :: rest) :
    g.draw_card = (c, { g with deck := rest.reverse }) := by
  have hne : g.deck ≠ [] := by
    intro h0
    rw [h0] at h
    cases h
  have hemp : g.deck.isEmpty = false := by
    simpa [List.isEmpty_iff] using hne
  have hlast : g.deck.getLast? = some c := by
    rw [List.getLast?_eq_head?_reverse, h]
    rfl
  have hdrop : g.deck.dropLast = rest.reverse := by
    have ht := List.tail_reverse_eq_reverse_dropLast g.deck
    rw [h] at ht
    simp only [List.tail_cons] at ht
    rw [ht, List.reverse_reverse]
  unfold Game.draw_card
  simp only [hemp, Bool.false_eq_true, if_false, hlast, hdrop]

theorem dealToPlayers_spec (ps : List Player) :
    ∀ (g : Game), ps.length ≤ g.deck.length →
      dealToPlayers g ps =
        ((ps.zip (g.deck.reverse.take ps.length)).map
            (fun pc => pc.1.add_card pc.2),
          { g with deck := g.deck.take (g.deck.length - ps.length) }) := by
  induction ps with
  | nil =>
    intro g _
    simp [dealToPlayers]
  | cons p ps ih =>
    intro g hlen
    have hne : g.deck ≠ [] := by
      intro h0
      rw [h0] at hlen
      simp at hlen
    obtain ⟨c, rest, hrev⟩ : ∃ c rest, g.deck.reverse = c :: rest := by
      cases hr : g.deck.reverse with
      | nil => exact absurd (List.reverse_eq_nil_iff.mp hr) hne
      | cons c rest => exact ⟨c, rest, rfl⟩
    have hrestlen : rest.length + 1 = g.deck.length := by
      have := congrArg List.length hrev
      simpa using this.symm
    have hstep : dealToPlayers g (p :: ps) =
        (p.add_card c :: (dealToPlayers { g with deck := rest.reverse } ps).1,
          (dealToPlayers { g with deck := rest.reverse } ps).2) := by
      rw [dealToPlayers, draw_card_cons_rev g c rest hrev]
    have hlen' : ps.length + 1 ≤ g.deck.length := by
      simpa using hlen
    rw [hstep, ih { g with deck := rest.reverse }
      (by simp only [List.length_reverse]; omega)]
    have hrr : rest.reverse.reverse = rest := List.reverse_reverse rest
    have hdeckeq : rest.reverse.take (rest.reverse.length - ps.length)
        = g.deck.take (g.deck.length - (ps.length + 1)) := by
      have h1 : rest.reverse = g.deck.dropLast := by
        have ht := List.tail_reverse_eq_reverse_dropLast g.deck
        rw [hrev] at ht
        simp only [List.tail_cons] at ht
        rw [ht, List.reverse_reverse]
      rw [h1, List.dropLast_eq_take, List.length_take, List.take_take]
      congr 1
      omega
    simp only [List.length_cons, hrev, List.take_succ_cons, List.zip_cons_cons,
      List.map_cons, hrr, Prod.mk.injEq, hdeckeq]

theorem dealPass_spec (g : Game) (h : g.players.length + 1 ≤ g.deck.length) :
    g.dealPass =
      { g with
          players := (g.players.zip (g.deck.reverse.take g.players.length)).map
            (fun pc => pc.1.add_card pc.2),
          dealer := g.dealer.add_card
            (g.deck.reverse.getD g.players.length default),
          deck := g.deck.take (g.deck.length - (g.players.length + 1)) } := by
  have hd := dealToPlayers_spec g.players g (by omega)
  have hlt : g.players.length < g.deck.reverse.length := by
    rw [List.length_reverse]
    omega
  have hrevdeck : (g.deck.take (g.deck.length - g.players.length)).reverse
      = g.deck.reverse[g.players.length] ::
          g.deck.reverse.drop (g.players.length + 1) := by
    rw [reverse_take_sub]
    exact List.drop_eq_getElem_cons hlt
  have hgd : g.deck.reverse.getD g.players.length default
      = g.deck.reverse[g.players.length] := by
    rw [List.getD_eq_getElem?_getD, List.getElem?_eq_getElem hlt]
    rfl
  unfold Game.dealPass
  rw [hd]
  dsimp only
  rw [draw_card_cons_rev _ g.deck.reverse[g.players.length]
    (g.deck.reverse.drop (g.players.length + 1)) hrevdeck]
  dsimp only
  rw [reverse_drop_reverse, hgd]

theorem deal_initial_cards_spec (g : Game)
    (h : 2 * g.players.length + 2 ≤ g.deck.length) :
    g.deal_initial_cards =
      { g with
          players :=
            (((g.players.zip (g.deck.reverse.take g.players.length)).map
                (fun pc => pc.1.add_card pc.2)).zip
              ((g.deck.reverse.drop (g.players.length + 1)).take
                g.players.length)).map
              (fun pc => pc.1.add_card pc.2),
          dealer := (g.dealer.add_card
              (g.deck.reverse.getD g.players.length default)).add_card
            (g.deck.reverse.getD (2 * g.players.length + 1) default),
          deck := g.deck.take
            (g.deck.length - (2 * g.players.length + 2)) } := by
  unfold Game.deal_initial_cards
  rw [dealPass_spec g (by omega)]
  have hplen : ((g.players.zip (g.deck.reverse.take g.players.length)).map
      (fun pc => pc.1.add_card pc.2)).length = g.players.length := by
    simp only [List.length_map, List.length_zip, List.length_take,
      List.length_reverse]
    omega
  have hdlen : (g.deck.take
      (g.deck.length - (g.players.length + 1))).length
        = g.deck.length - (g.players.length + 1) := by
    simp only [List.length_take]
    omega
  have hstep2 := dealPass_spec
    { g with
        players := (g.players.zip (g.deck.reverse.take g.players.length)).map
          (fun pc => pc.1.add_card pc.2),
        dealer := g.dealer.add_card
          (g.deck.reverse.getD g.players.length default),
        deck := g.deck.take (g.deck.length - (g.players.length + 1)) }
    (by simp; omega)
  rw [hstep2]
  dsimp only
  rw [hplen, hdlen]
  have hrev1 : (g.deck.take
      (g.deck.length - (g.players.length + 1))).reverse
        = g.deck.reverse.drop (g.players.length + 1) := reverse_take_sub _ _
  rw [hrev1]
  have hgd2 : (g.deck.reverse.drop (g.players.length + 1)).getD
      g.players.length default
        = g.deck.reverse.getD (2 * g.players.length + 1) default := by
    rw [List.getD_eq_getElem?_getD, List.getD_eq_getElem?_getD,
      List.getElem?_drop]
    have hidx : g.players.length + 1 + g.players.length
        = 2 * g.players.length + 1 := by omega
    rw [hidx]
  rw [hgd2]
  have hdeck2 : (g.deck.take (g.deck.length - (g.players.length + 1))).take
      (g.deck.length - (g.players.length + 1) - (g.players.length + 1))
        = g.deck.take (g.deck.length - (2 * g.players.length + 2)) := by
    rw [List.take_take]
    congr 1
    omega
  rw [hdeck2]

theorem getD_eq_getElem_of_lt {α : Type _} [Inhabited α] (l : List α) (i : Nat)
    (h : i < l.length) : l.getD i default = l[i] := by
  rw [List.getD_eq_getElem?_getD, List.getElem?_eq_getElem h]
  rfl

theorem zip_map_add_getD (xs : List Player) (ys : List Card) (i : Nat)
    (hx : i < xs.length) (hy : i < ys.length) :
    ((xs.zip ys).map fun pc => pc.1.add_card pc.2).getD i default
      = (xs.getD i default).add_card (ys.getD i default) := by
  have hz : i < (xs.zip ys).length := by
    rw [List.length_zip]
    omega
  have hm : i < ((xs.zip ys).map fun pc => pc.1.add_card pc.2).length := by
    rw [List.length_map]
    exact hz
  rw [getD_eq_getElem_of_lt _ _ hm, getD_eq_getElem_of_lt _ _ hx,
    getD_eq_getElem_of_lt _ _ hy, List.getElem_map, List.getElem_zip]

theorem flatten_zip_pair_perm (xs : List Card) :
    ∀ ys : List Card, xs.length = ys.length →
      ((xs.zip ys).map fun ab => [ab.1, ab.2]).flatten.Perm (xs ++ ys) := by
  induction xs with
  | nil =>
    intro ys h
    cases ys with
    | nil => simp
    | cons y ys => cases h
  | cons x xs ih =>
    intro ys h
    cases ys with
    | nil => cases h
    | cons y ys =>
      have hlen : xs.length = ys.length := by
        simpa using h
      have hperm := ih ys hlen
      simp only [List.zip_cons_cons, List.map_cons, List.flatten_cons,
        List.cons_append]
      refine List.Perm.trans (List.Perm.cons x (List.Perm.cons y hperm)) ?_
      exact List.Perm.cons x List.perm_middle.symm

theorem map_hand_zip_add (xs : List Player) :
    ∀ ys : List Card,
      ((xs.zip ys).map fun pc => pc.1.add_card pc.2).map Player.hand
        = (xs.map Player.hand).zipWith (fun h c => h ++ [c]) ys := by
  induction xs with
  | nil => intro ys; simp
  | cons x xs ih =>
    intro ys
    cases ys with
    | nil => simp
    | cons y ys =>
      simp only [List.zip_cons_cons, List.map_cons, List.zipWith_cons_cons]
      rw [ih]
      rfl

theorem zipWith_snoc_single (A : List Card) :
    ∀ B : List Card,
      (A.map fun c => [c]).zipWith (fun h c => h ++ [c]) B
        = (A.zip B).map fun ab => [ab.1, ab.2] := by
  induction A with
  | nil => intro B; simp
  | cons a A ih =>
    intro B
    cases B with
    | nil => simp
    | cons b B => simp [ih]

theorem replicate_zipWith_snoc (n : Nat) :
    ∀ A : List Card,
      (List.replicate n ([] : List Card)).zipWith (fun h c => h ++ [c]) A
        = (A.take n).map fun c => [c] := by
  induction n with
  | zero => intro A; simp
  | succ n ih =>
    intro A
    cases A with
    | nil => simp
    | cons a A => simp [List.replicate_succ, ih]

/-- C6: for every `n` in `[1, 8]`, after `Game(n)`, `add_players()` and
`deal_initial_cards()` on a fresh engine (a freshly shuffled 52-card deck),
every player and the dealer hold exactly 2 cards, the `2n+2` dealt cards are
pairwise distinct, and the deal proceeds in two passes — in each pass every
player in index order receives one drawn card and then the dealer receives
one (player `i` holds drawn cards `i` and `n+1+i`; the dealer holds drawn
cards `n` and `2n+1`, where the `j`-th drawn card is the `j`-th element of
the reversed deck, since drawing pops from the end). -/
theorem deal_initial_cards_correct (n : Nat) (shuffler : Nat → List Card)
    (g0 g2 : Game) (h1 : 1 ≤ n) (h8 : n ≤ 8)
    (hinit : Game.init n shuffler = Except.ok g0)
    (hg2 : g2 = g0.add_players.deal_initial_cards)
    (hlen : (shuffler 0).length = 52) (hnd : (shuffler 0).Nodup) :
    g2.players.length = n ∧
    (∀ i, i < n → (g2.players.getD i default).hand.length = 2) ∧
    g2.dealer.hand.length = 2 ∧
    (∀ i, i < n → (g2.players.getD i default).hand =
      [(shuffler 0).reverse.getD i default,
       (shuffler 0).reverse.getD (n + 1 + i) default]) ∧
    g2.dealer.hand =
      [(shuffler 0).reverse.getD n default,
       (shuffler 0).reverse.getD (2 * n + 1) default] ∧
    ((g2.players.map Player.hand).flatten ++ g2.dealer.hand).Nodup := by
  have hg0 : g0 =
      { n_players := n, players := [],
        dealer := Player.init "Dealer" true, deck := shuffler 0,
        shuffler := shuffler, shuffleCount := 1 } := by
    rw [Game.init, if_neg (by omega), if_neg (by omega)] at hinit
    exact (Except.ok.inj hinit).symm
  subst hg2
  subst hg0
  have hadd : Game.add_players
      { n_players := n, players := [],
        dealer := Player.init "Dealer" true, deck := shuffler 0,
        shuffler := shuffler, shuffleCount := 1 }
      = { n_players := n,
          players := (List.range n).map
            (fun i => Player.init ("Player " ++ toString (i + 1)) false),
          dealer := Player.init "Dealer" true, deck := shuffler 0,
          shuffler := shuffler, shuffleCount := 1 } := by
    simp [Game.add_players]
  rw [hadd]
  set P1 := (List.range n).map
    (fun i => Player.init ("Player " ++ toString (i + 1)) false) with hP1def
  have hP1len : P1.length = n := by
    rw [hP1def, List.length_map, List.length_range]
  have hspec := deal_initial_cards_spec
    { n_players := n, players := P1, dealer := Player.init "Dealer" true,
      deck := shuffler 0, shuffler := shuffler, shuffleCount := 1 }
    (by show 2 * P1.length + 2 ≤ (shuffler 0).length
        rw [hP1len, hlen]
        omega)
  rw [hspec]
  dsimp only
  rw [hP1len]
  set rev := (shuffler 0).reverse with hrevdef
  have hrevlen : rev.length = 52 := by
    rw [hrevdef, List.length_reverse, hlen]
  set A := rev.take n with hAdef
  set B := (rev.drop (n + 1)).take n with hBdef
  have hAlen : A.length = n := by
    rw [hAdef, List.length_take]
    omega
  have hBlen : B.length = n := by
    rw [hBdef, List.length_take, List.length_drop]
    omega
  set P1x := (P1.zip A).map (fun pc => pc.1.add_card pc.2) with hP1xdef
  have hP1xlen : P1x.length = n := by
    rw [hP1xdef, List.length_map, List.length_zip, hP1len, hAlen]
    omega
  set P2 := (P1x.zip B).map (fun pc => pc.1.add_card pc.2) with hP2def
  have hP2len : P2.length = n := by
    rw [hP2def, List.length_map, List.length_zip, hP1xlen, hBlen]
    omega
  have hP1get : ∀ i, i < n →
      P1.getD i default = Player.init ("Player " ++ toString (i + 1)) false := by
    intro i hi
    rw [hP1def, List.getD_eq_getElem?_getD, List.getElem?_map,
      List.getElem?_range hi]
    rfl
  have hAget : ∀ i, i < n → A.getD i default = rev.getD i default := by
    intro i hi
    rw [hAdef, List.getD_eq_getElem?_getD, List.getD_eq_getElem?_getD,
      List.getElem?_take_of_lt hi]
  have hBget : ∀ i, i < n → B.getD i default = rev.getD (n + 1 + i) default := by
    intro i hi
    rw [hBdef, List.getD_eq_getElem?_getD, List.getD_eq_getElem?_getD,
      List.getElem?_take_of_lt hi, List.getElem?_drop]
  have hP2get : ∀ i, i < n → P2.getD i default =
      ((Player.init ("Player " ++ toString (i + 1)) false).add_card
        (rev.getD i default)).add_card (rev.getD (n + 1 + i) default) := by
    intro i hi
    rw [hP2def, zip_map_add_getD _ _ i (by rw [hP1xlen]; exact hi)
        (by rw [hBlen]; exact hi),
      hP1xdef, zip_map_add_getD _ _ i (by rw [hP1len]; exact hi)
        (by rw [hAlen]; exact hi),
      hP1get i hi, hAget i hi, hBget i hi]
  have hhands : P2.map Player.hand = (A.zip B).map fun ab => [ab.1, ab.2] := by
    rw [hP2def, map_hand_zip_add, hP1xdef, map_hand_zip_add, hP1def]
    have hconst : ((List.range n).map
        (fun i => Player.init ("Player " ++ toString (i + 1)) false)).map
          Player.hand = List.replicate n ([] : List Card) := by
      rw [List.map_map]
      have : (Player.hand ∘ fun i =>
          Player.init ("Player " ++ toString (i + 1)) false)
            = fun _ => ([] : List Card) := rfl
      rw [this, List.map_const', List.length_range]
    rw [hconst, replicate_zipWith_snoc]
    have hTA : A.take n = A := by
      rw [← hAlen, List.take_length]
    rw [hTA, zipWith_snoc_single]
  refine ⟨hP2len, ?_, ?_, ?_, ?_, ?_⟩
  · intro i hi
    rw [hP2get i hi]
    rfl
  · rfl
  · intro i hi
    rw [hP2get i hi]
    rfl
  · rfl
  · have hperm1 : (P2.map Player.hand).flatten.Perm (A ++ B) := by
      rw [hhands]
      exact flatten_zip_pair_perm A B (by rw [hAlen, hBlen])
    have hn52 : n < rev.length := by omega
    have h2n52 : 2 * n + 1 < rev.length := by omega
    have htake : rev.take (2 * n + 2)
        = A ++ (rev.getD n default :: (B ++ [rev.getD (2 * n + 1) default])) := by
      have h2n2 : 2 * n + 2 = n + (n + 2) := by omega
      have htail : (rev.drop n).take (n + 2)
          = rev.getD n default :: (B ++ [rev.getD (2 * n + 1) default]) := by
        rw [List.drop_eq_getElem_cons hn52, List.take_succ_cons,
          List.take_add, List.drop_drop]
        have hidx : n + 1 + n = 2 * n + 1 := by omega
        rw [hidx, List.drop_eq_getElem_cons h2n52, List.take_succ_cons,
          List.take_zero, getD_eq_getElem_of_lt _ _ hn52,
          getD_eq_getElem_of_lt _ _ h2n52]
      rw [h2n2, List.take_add, htail]
    have hfinal : ((P2.map Player.hand).flatten ++
        [rev.getD n default, rev.getD (2 * n + 1) default]).Perm
          (rev.take (2 * n + 2)) := by
      rw [htake]
      refine List.Perm.trans (List.Perm.append_right _ hperm1) ?_
      rw [List.append_assoc]
      refine List.Perm.append_left A ?_
      exact List.perm_middle
    have htnodup : (rev.take (2 * n + 2)).Nodup :=
      (List.take_sublist _ _).nodup (by rw [hrevdef]; exact List.nodup_reverse.mpr hnd)
    exact (List.Perm.nodup_iff hfinal).mpr htnodup

/-- A concrete freshly dealt 2-player game over an unshuffled full deck. -/
def witnessDealtGame : Game :=
  ((Game.init 2 (fun _ => fullDeck)).toOption.getD default).add_players.deal_initial_cards

/-- Closed witness for C6 at `n = 2` with the identity shuffle. -/
theorem deal_initial_cards_correct_witness :
    witnessDealtGame.players.length = 2 ∧
      witnessDealtGame.dealer.hand.length = 2 := by
  have h := deal_initial_cards_correct 2 (fun _ => fullDeck)
    ((Game.init 2 (fun _ => fullDeck)).toOption.getD default) witnessDealtGame
    (by decide) (by decide) (by rfl) (by rfl) (by decide) (by decide)
  exact ⟨h.1, h.2.2.1⟩

/-! ### The room manager (`app/main.py`) -/

/-- `fastapi.HTTPException` as raised by the room manager. -/
structure HTTPException where
  status_code : Nat
  detail : String
deriving DecidableEq, Repr

/-- `PlayerSeat` from `app/main.py`. -/
structure PlayerSeat where
  player_id : String
  name : String
  stood : Bool := false
  resolved : Bool := false
  result : String := ""
deriving DecidableEq, Repr

instance : Inhabited PlayerSeat := ⟨⟨"", "", false, false, ""⟩⟩

/-- `Room` from `app/main.py`. -/
structure Room where
  room_id : String
  host_id : String
  seats : List PlayerSeat
  max_players : Nat
  phase : String := "waiting"
  current_player_index : Nat := 0
  game : Option Game := none

instance : Inhabited Room := ⟨⟨"", "", [], 0, "waiting", 0, none⟩⟩

/-- `Room.find_player_index`: index of the seat with this `player_id`, or
`-1` when absent. -/
def Room.find_player_index (room : Room) (player_id : String) : Int :=
  match room.seats.findIdx? (fun seat => seat.player_id = player_id) with
  | some idx => (idx : Int)
  | none => -1

/-- `_is_blackjack` from `app/main.py`. -/
def appIsBlackjack (player : Player) : Bool :=
  decide (player.hand.length = 2) && decide (player.score = 21)

/-- `_is_golden_blackjack` from `app/main.py` (it compares
`card.rank.value == "A"`). -/
def appIsGoldenBlackjack (player : Player) : Bool :=
  decide (player.hand.length = 2) &&
    player.hand.all fun card => decide (card.rank.value = "A")

/-- Python dict read `self.rooms.get(room_id)` over an insertion-ordered
association list. -/
def dictGet (rooms : List (String × Room)) (key : String) : Option Room :=
  (rooms.find? fun p => p.1 = key).map fun p => p.2

/-- Python dict write `self.rooms[key] = room`: replace the entry when the
key is present, append otherwise. -/
def dictSet (rooms : List (String × Room)) (key : String) (room : Room) :
    List (String × Room) :=
  if rooms.any fun p => p.1 = key then
    rooms.map fun p => if p.1 = key then (key, room) else p
  else rooms ++ [(key, room)]

/-- Python `str.upper()` on ASCII data (uuid hex), character by character
(`String.toUpper` itself does not reduce in the kernel). -/
def strUpper (s : String) : String := ⟨s.data.map Char.toUpper⟩

/-- Python `str.lower()`, character by character. -/
def strLower (s : String) : String := ⟨s.data.map Char.toLower⟩

/-- Python `str.strip()`: drop leading and trailing whitespace. -/
def strTrim (s : String) : String :=
  ⟨((s.data.dropWhile fun c => c.isWhitespace).reverse.dropWhile
      fun c => c.isWhitespace).reverse⟩

/-- `RoomManager` from `app/main.py`.  `uuids`/`uuidCount` model the
`uuid.uuid4().hex` stream; `shufflers`/`gameCount` model the
`random.shuffle` streams of the successive `Game` instances (the lock is
immaterial in this sequential model: every operation is atomic). -/
structure RoomManager where
  rooms : List (String × Room)
  uuids : Nat → String
  uuidCount : Nat
  shufflers : Nat → Nat → List Card
  gameCount : Nat

/-- `RoomManager._new_player_id`: `uuid4().hex[:12]`. -/
def RoomManager.new_player_id (m : RoomManager) : String × RoomManager :=
  ((m.uuids m.uuidCount).take 12, { m with uuidCount := m.uuidCount + 1 })

/-- `RoomManager._new_room_id`: `uuid4().hex[:6].upper()`. -/
def RoomManager.new_room_id (m : RoomManager) : String × RoomManager :=
  (strUpper ((m.uuids m.uuidCount).take 6),
    { m with uuidCount := m.uuidCount + 1 })

/-- `RoomManager.create_room`: allocate ids, seat the creator as host, and
store the room under its id. -/
def RoomManager.create_room (m : RoomManager) (player_name : String)
    (max_players : Nat) : RoomManager × (String × String) :=
  let (room_id, m1) := m.new_room_id
  let (player_id, m2) := m1.new_player_id
  let room : Room :=
    { room_id := room_id, host_id := player_id,
      seats := [{ player_id := player_id, name := strTrim player_name }],
      max_players := max_players }
  ({ m2 with rooms := dictSet m2.rooms room_id room }, (room_id, player_id))

/-- `RoomManager.join_room`.  On an error path the returned manager is the
state at the raise point. -/
def RoomManager.join_room (m : RoomManager) (room_id : String)
    (player_name : String) :
    RoomManager × Except HTTPException (String × String) :=
  match dictGet m.rooms room_id with
  | none => (m, .error ⟨404, "Room not found"⟩)
  | some room =>
    if room.phase ≠ "waiting" then
      (m, .error ⟨400, "Game already started"⟩)
    else if room.max_players ≤ room.seats.length then
      (m, .error ⟨400, "Room is full"⟩)
    else
      let (player_id, m1) := m.new_player_id
      let room' := { room with seats :=
        room.seats ++ [{ player_id := player_id, name := strTrim player_name }] }
      ({ m1 with rooms := dictSet m1.rooms room_id room' },
        .ok (room_id, player_id))

/-- `RoomManager._is_finished(room, player_index)` with the active game
passed explicitly: the seat is resolved or stood, or the player is over 21
or holds 5 cards. -/
def seatFinishedWith (room : Room) (g : Game) (player_index : Nat) : Bool :=
  let seat := room.seats.getD player_index default
  let player := g.players.getD player_index default
  seat.resolved || seat.stood || decide (21 < player.score) ||
    decide (5 ≤ player.hand.length)

/-- `_is_finished` reading the game from the room (every Python call site
runs with an active game; `none` cannot occur there). -/
def seatFinished (room : Room) (player_index : Nat) : Bool :=
  match room.game with
  | some g => seatFinishedWith room g player_index
  | none => false

/-- The scan `for idx in range(i, len(room.seats))` used by
`_move_to_next_playable` (from 0) and `_advance_after` (from
`from_index + 1`), written with an explicit iteration bound (the remaining
range length) so it evaluates structurally: the first index at or after `i`
that is not finished. -/
def firstUnfinishedAux (room : Room) (g : Game) : Nat → Nat → Option Nat
  | 0, _ => none
  | fuel + 1, i =>
    if i < room.seats.length then
      if seatFinishedWith room g i then firstUnfinishedAux room g fuel (i + 1)
      else some i
    else none

/-- The scan from `i`: the bound `room.seats.length - i` covers the whole
remaining range, so this is exactly the Python loop. -/
def firstUnfinishedFrom (room : Room) (g : Game) (i : Nat) : Option Nat :=
  firstUnfinishedAux room g (room.seats.length - i) i

/-- `RoomManager._move_to_next_playable`. -/
def move_to_next_playable (room : Room) (g : Game) : Room :=
  match firstUnfinishedFrom room g 0 with
  | some idx =>
    { room with current_player_index := idx, phase := "player_turns" }
  | none => { room with phase := "dealer_turn" }

/-- `RoomManager._advance_after`. -/
def advance_after (room : Room) (g : Game) (from_index : Nat) : Room :=
  match firstUnfinishedFrom room g (from_index + 1) with
  | some idx => { room with current_player_index := idx }
  | none => move_to_next_playable room g

/-- One iteration of the `_resolve_initial_naturals` loop: when the player
at the index holds a natural, evaluate it, snapshot the result onto the seat
and mark the seat resolved. -/
def resolveNaturalStep (acc : Room × Game) (idx : Nat) : Room × Game :=
  let player := acc.2.players.getD idx default
  if appIsBlackjack player || appIsGoldenBlackjack player then
    let g' := acc.2.check_player idx
    let seat := acc.1.seats.getD idx default
    let seat' := { seat with
      result := (g'.players.getD idx default).result, resolved := true }
    ({ acc.1 with seats := acc.1.seats.set idx seat' }, g')
  else acc

/-- `RoomManager._resolve_initial_naturals`: resolve and snapshot every seat
whose player already holds a natural. -/
def resolve_initial_naturals (room : Room) (g : Game) : Room × Game :=
  (List.range room.seats.length).foldl resolveNaturalStep (room, g)

/-- One iteration body of the dealer loop: draw and add a card. -/
def dealerHit (g : Game) : Game :=
  let (c, g') := g.draw_card
  { g' with dealer := g'.dealer.add_card c }

theorem dealerHit_hand_length (g : Game) :
    (dealerHit g).dealer.hand.length = g.dealer.hand.length + 1 := by
  unfold dealerHit
  rcases hdc : g.draw_card with ⟨c, g2⟩
  have hdl : g2.dealer = g.dealer := by
    have h := (draw_card_frame g).2.1
    rw [hdc] at h
    exact h
  simp [hdl, Player.add_card]

/-- The dealer loop of `_run_dealer_and_finalize`
(`while len(dealer.hand) < 5 and dealer.score < 15: draw`), written with an
explicit iteration bound: each draw grows the hand by one card, so
`5 - len(hand)` iterations always reach the loop's exit condition. -/
def dealerPlayAux : Nat → Game → Game
  | 0, g => g
  | fuel + 1, g =>
    if g.dealer.hand.length < 5 ∧ g.dealer.score < 15 then
      dealerPlayAux fuel (dealerHit g)
    else g

/-- The dealer loop from the current hand. -/
def dealerPlay (g : Game) : Game :=
  dealerPlayAux (5 - g.dealer.hand.length) g

/-- The bound in `dealerPlay` is exact: it satisfies the while-loop
unfolding equation. -/
theorem dealerPlay_eq (g : Game) :
    dealerPlay g =
      if g.dealer.hand.length < 5 ∧ g.dealer.score < 15 then
        dealerPlay (dealerHit g)
      else g := by
  unfold dealerPlay
  by_cases h : g.dealer.hand.length < 5 ∧ g.dealer.score < 15
  · rw [if_pos h]
    have h5 : 5 - g.dealer.hand.length = (5 - (dealerHit g).dealer.hand.length) + 1 := by
      rw [dealerHit_hand_length]
      omega
    rw [h5]
    rw [dealerPlayAux, if_pos h]
  · cases hf : 5 - g.dealer.hand.length with
    | zero =>
      rw [if_neg h]
      rfl
    | succ n => rw [if_neg h, dealerPlayAux, if_neg h]

/-- One iteration of the finalization loop of `_run_dealer_and_finalize`:
evaluate the player and snapshot the result onto the (now resolved) seat. -/
def finalizeSeatStep (acc : Room × Game) (idx : Nat) : Room × Game :=
  let g' := acc.2.check_player idx
  let seat := acc.1.seats.getD idx default
  let seat' := { seat with
    result := (g'.players.getD idx default).result, resolved := true }
  ({ acc.1 with seats := acc.1.seats.set idx seat' }, g')

/-- The per-seat finalization loop of `_run_dealer_and_finalize`. -/
def finalizeSeats (room : Room) (g : Game) : Room × Game :=
  (List.range room.seats.length).foldl finalizeSeatStep (room, g)

/-- `RoomManager._run_dealer_and_finalize`: dealer auto-play, then evaluate
and resolve every seat, then the phase becomes results. -/
def run_dealer_and_finalize (room : Room) (g : Game) : Room × Game :=
  let g1 := dealerPlay g
  let (room2, g2) := finalizeSeats room g1
  ({ room2 with phase := "results" }, g2)

/-- The successful body of `start_game` acting on one room: build the
engine, copy seat names, deal, reset seat flags, resolve naturals, then
either run the dealer at once (dealer natural) or move to the first
playable seat (running the dealer at once when nobody can play).  The
`Game(...)` constructor error (`ValueError`, impossible through the HTTP
layer's validation) is propagated.

First, the fresh engine with the positional players added and the seat
names copied onto them. -/
def dealtNamed (room : Room) (g0 : Game) : Game :=
  { g0.add_players with
      players := g0.add_players.players.mapIdx
        fun idx p => { p with name := (room.seats.getD idx default).name } }

/-- The dealt engine built from the fresh `Game`: name the players as
above, then deal the initial cards. -/
def dealtOf (room : Room) (g0 : Game) : Game :=
  (dealtNamed room g0).deal_initial_cards

/-- The round setup itself, on the dealt engine above. -/
def start_round_room (room : Room) (shuffle : Nat → List Card) :
    Except String Room :=
  match Game.init room.seats.length shuffle with
  | .error e => .error e
  | .ok g0 =>
    let g3 := dealtOf room g0
    let clearedSeats := room.seats.map
      fun seat => { seat with stood := false, resolved := false, result := "" }
    let room1 :=
      { room with
          phase := "player_turns",
          current_player_index := 0,
          seats := clearedSeats }
    let rg := resolve_initial_naturals room1 g3
    if appIsBlackjack rg.2.dealer || appIsGoldenBlackjack rg.2.dealer then
      let rg2 := run_dealer_and_finalize rg.1 rg.2
      .ok { rg2.1 with game := some rg2.2 }
    else
      let room3 := move_to_next_playable rg.1 rg.2
      if room3.phase = "dealer_turn" then
        let rg2 := run_dealer_and_finalize room3 rg.2
        .ok { rg2.1 with game := some rg2.2 }
      else .ok { room3 with game := some rg.2 }

/-- `RoomManager.start_game`: not-found / non-host / wrong-phase checks,
then the round setup above.  On an error path the returned manager is the
state at the raise point (all raises precede any mutation). -/
def RoomManager.start_game (m : RoomManager) (room_id : String)
    (player_id : String) : RoomManager × Except HTTPException Unit :=
  match dictGet m.rooms room_id with
  | none => (m, .error ⟨404, "Room not found"⟩)
  | some room =>
    if room.host_id ≠ player_id then
      (m, .error ⟨403, "Only host can start the game"⟩)
    else if room.phase ≠ "waiting" then
      (m, .error ⟨400, "Game already started"⟩)
    else
      match start_round_room room (m.shufflers m.gameCount) with
      | .error e => (m, .error ⟨500, e⟩)
      | .ok room' =>
        ({ m with rooms := dictSet m.rooms room_id room',
                  gameCount := m.gameCount + 1 }, .ok ())

/-- The `hit`/`stand` branch of `player_action` on seat `i`: a hit draws a
card into that player's hand (recomputing the score), a stand sets the
seat's `stood` flag. -/
def action_step (room : Room) (g : Game) (i : Nat) (action : String) :
    Room × Game :=
  if action = "hit" then
    let (c, gd) := g.draw_card
    let player := gd.players.getD i default
    (room, { gd with players := gd.players.set i (player.add_card c) })
  else
    let seat := room.seats.getD i default
    let seat' := { seat with stood := true }
    ({ room with seats := room.seats.set i seat' }, g)

/-- `if self._is_finished(room, idx): self._advance_after(room, idx)`. -/
def turn_advance (room' : Room) (g' : Game) (i : Nat) : Room :=
  if seatFinishedWith room' g' i then advance_after room' g' i else room'

/-- The mutating tail of `player_action` on one room (after all checks):
apply the normalized action to seat `i`, advance the turn when the seat is
finished, and run dealer resolution when the turn wrapped into
`dealer_turn`; the room's `game` field is the threaded game state. -/
def apply_action_room (room : Room) (g : Game) (i : Nat) (action : String) :
    Room :=
  let step := action_step room g i action
  let room'' := turn_advance step.1 step.2 i
  let final :=
    if room''.phase = "dealer_turn" then run_dealer_and_finalize room'' step.2
    else (room'', step.2)
  { final.1 with game := some final.2 }

/-- `RoomManager.player_action`.  Checks in source order; on an error path
the returned manager is the state at the raise point (all raises precede
any mutation). -/
def RoomManager.player_action (m : RoomManager) (room_id : String)
    (player_id : String) (action : String) :
    RoomManager × Except HTTPException Unit :=
  match dictGet m.rooms room_id with
  | none => (m, .error ⟨404, "Room not found"⟩)
  | some room =>
    if room.phase ≠ "player_turns" then
      (m, .error ⟨400, "Not in player turns"⟩)
    else
      let idx := room.find_player_index player_id
      if idx = -1 then (m, .error ⟨403, "Player not in room"⟩)
      else if idx ≠ (room.current_player_index : Int) then
        (m, .error ⟨400, "Not your turn"⟩)
      else if (room.seats.getD idx.toNat default).resolved then
        (m, .error ⟨400, "Player already resolved"⟩)
      else
        let action := strTrim (strLower action)
        if action ≠ "hit" ∧ action ≠ "stand" then
          (m, .error ⟨400, "Action must be hit or stand"⟩)
        else
          match room.game with
          | none => (m, .error ⟨500, "AttributeError"⟩)
          | some g =>
            let i := idx.toNat
            let room3 := apply_action_room room g i action
            ({ m with rooms := dictSet m.rooms room_id room3 }, .ok ())

/-- One card as rendered by `get_state` (the derived `image_url` is asset
presentation and is omitted). -/
inductive CardView where
  | hidden
  | visible (rank : String) (suit : String)
deriving DecidableEq, Repr

/-- The score field rendered by `get_state`: `None` in the waiting phase,
`"?"` for a hidden hand, or the numeric score. -/
inductive ScoreView where
  | none
  | unknown
  | score (n : Nat)
deriving DecidableEq, Repr

/-- One seat's entry of the `players` list in a `get_state` response.  (In
the waiting phase Python omits the `result` key; here it is `""`.) -/
structure PlayerView where
  name : String
  score : ScoreView
  cards : List CardView
  stood : Bool
  resolved : Bool
  result : String
deriving DecidableEq, Repr

instance : Inhabited PlayerView :=
  ⟨⟨"", ScoreView.none, [], false, false, ""⟩⟩

/-- The `dealer` entry of a `get_state` response. -/
structure DealerView where
  score : ScoreView
  cards : List CardView
deriving DecidableEq, Repr

/-- `RoomStateResponse` from `app/main.py`. -/
structure RoomStateResponse where
  room_id : String
  phase : String
  current_player_index : Nat
  your_player_index : Option Nat
  players : List PlayerView
  dealer : DealerView
  can_start : Bool
  can_act : Bool
  results : List (String × String)
deriving DecidableEq, Repr

/-- The body of `get_state` on a looked-up room: the read-only projection.
(`if player_id` in Python is falsy for both `None` and the empty string;
a non-waiting room always holds a game, so the `none` branch is
unreachable and stands for the `AttributeError` Python would raise.) -/
def room_state_response (room : Room) (player_id : Option String) :
    Except HTTPException RoomStateResponse :=
  let your_idx : Int :=
    match player_id with
    | some pid => if pid = "" then -1 else room.find_player_index pid
    | none => -1
  let your_player_index : Option Nat :=
    if your_idx < 0 then none else some your_idx.toNat
  if room.phase = "waiting" then
    .ok { room_id := room.room_id, phase := room.phase,
          current_player_index := room.current_player_index,
          your_player_index := your_player_index,
          players := room.seats.map fun seat =>
            { name := seat.name, score := ScoreView.none, cards := [],
              stood := seat.stood, resolved := seat.resolved, result := "" },
          dealer := { score := ScoreView.none, cards := [] },
          can_start := decide (player_id = some room.host_id),
          can_act := false, results := [] }
  else
    match room.game with
    | none => .error ⟨500, "AttributeError"⟩
    | some g =>
      let players := room.seats.mapIdx fun idx seat =>
        let player := g.players.getD idx default
        let hide := decide (room.phase = "player_turns") &&
          decide (idx ≠ room.current_player_index) && !seat.resolved
        { name := seat.name,
          score := if hide then ScoreView.unknown
            else ScoreView.score player.score,
          cards := player.hand.map fun card =>
            if hide then CardView.hidden
            else CardView.visible card.rank.value card.suit.value,
          stood := seat.stood, resolved := seat.resolved,
          result := seat.result }
      let hide_dealer := decide (room.phase = "player_turns")
      let dealer_cards := g.dealer.hand.map fun card =>
        if hide_dealer then CardView.hidden
        else CardView.visible card.rank.value card.suit.value
      let results :=
        if room.phase = "results" then
          room.seats.map fun seat => (seat.name, seat.result)
        else []
      .ok { room_id := room.room_id, phase := room.phase,
            current_player_index := room.current_player_index,
            your_player_index := your_player_index,
            players := players,
            dealer := { score := if hide_dealer then ScoreView.unknown
                          else ScoreView.score g.dealer.score,
                        cards := dealer_cards },
            can_start := false,
            can_act := decide (your_player_index
                = some room.current_player_index) &&
              decide (room.phase = "player_turns"),
            results := results }

/-- `RoomManager.get_state`: look the room up, then project. -/
def RoomManager.get_state (m : RoomManager) (room_id : String)
    (player_id : Option String) : Except HTTPException RoomStateResponse :=
  match dictGet m.rooms room_id with
  | none => .error ⟨404, "Room not found"⟩
  | some room => room_state_response room player_id

/-! ### Lemmas: the room table -/

theorem find?_map_replace (k : String) (v : Room) :
    ∀ rs : List (String × Room),
      ((rs.map fun p => if p.1 = k then (k, v) else p).find?
          (fun p => p.1 = k))
        = if rs.any (fun p => p.1 = k) then some (k, v) else none := by
  intro rs
  induction rs with
  | nil => simp
  | cons p rs ih =>
    by_cases hp : p.1 = k
    · simp [List.any_cons, List.find?_cons, hp, ih]
    · simp [List.any_cons, List.find?_cons, hp, ih]
      rw [decide_eq_false hp, Bool.false_or]

theorem find?_map_replace_ne (k k' : String) (v : Room) (h : k' ≠ k) :
    ∀ rs : List (String × Room),
      ((rs.map fun p => if p.1 = k then (k, v) else p).find?
          (fun p => p.1 = k'))
        = rs.find? (fun p => p.1 = k') := by
  intro rs
  induction rs with
  | nil => simp
  | cons p rs ih =>
    by_cases hp : p.1 = k
    · have hne : ¬ (k = k') := fun hk => h hk.symm
      simp [List.find?_cons, hp, hne, ih, hp.symm ▸ hne]
    · by_cases hp' : p.1 = k'
      · simp [List.find?_cons, hp, hp', h, ih]
      · simp [List.find?_cons, hp, hp', ih]

theorem find?_append_single (k : String) (v : Room)
    (rs : List (String × Room)) (hnone : rs.find? (fun p => p.1 = k) = none) :
    (rs ++ [(k, v)]).find? (fun p => p.1 = k) = some (k, v) := by
  induction rs with
  | nil => simp
  | cons p rs ih =>
    cases hcond : (decide (p.1 = k)) with
    | true =>
      simp only [List.find?_cons, hcond] at hnone
      cases hnone
    | false =>
      simp only [List.find?_cons, hcond] at hnone
      simp only [List.cons_append, List.find?_cons, hcond]
      exact ih hnone

theorem find?_append_single_ne (k k' : String) (v : Room) (h : k' ≠ k)
    (rs : List (String × Room)) :
    (rs ++ [(k, v)]).find? (fun p => p.1 = k')
      = rs.find? (fun p => p.1 = k') := by
  have hkk : ¬ (k = k') := fun hk => h hk.symm
  induction rs with
  | nil => simp [hkk]
  | cons p rs ih =>
    cases hcond : (decide (p.1 = k')) with
    | true =>
      simp only [List.cons_append, List.find?_cons, hcond]
    | false =>
      simp only [List.cons_append, List.find?_cons, hcond]
      exact ih

theorem any_iff_find? (k : String) (rs : List (String × Room)) :
    rs.any (fun p => p.1 = k) = false ↔ rs.find? (fun p => p.1 = k) = none := by
  rw [List.find?_eq_none, List.any_eq_false]

theorem dictGet_dictSet_self (rs : List (String × Room)) (k : String)
    (v : Room) : dictGet (dictSet rs k v) k = some v := by
  unfold dictSet dictGet
  by_cases hany : rs.any (fun p => p.1 = k) = true
  · rw [if_pos hany, find?_map_replace]
    simp [hany]
  · have hfalse : rs.any (fun p => p.1 = k) = false :=
      Bool.eq_false_iff.mpr hany
    rw [if_neg hany, find?_append_single k v rs ((any_iff_find? k rs).mp hfalse)]
    rfl

theorem dictGet_dictSet_ne (rs : List (String × Room)) (k k' : String)
    (v : Room) (h : k' ≠ k) :
    dictGet (dictSet rs k v) k' = dictGet rs k' := by
  unfold dictSet dictGet
  by_cases hany : rs.any (fun p => p.1 = k) = true
  · rw [if_pos hany, find?_map_replace_ne k k' v h]
  · rw [if_neg hany, find?_append_single_ne k k' v h]

theorem dictGet_dictSet_cases (rs : List (String × Room)) (k k' : String)
    (v room : Room) (h : dictGet (dictSet rs k v) k' = some room) :
    room = v ∨ dictGet rs k' = some room := by
  by_cases hk : k' = k
  · subst hk
    rw [dictGet_dictSet_self] at h
    exact Or.inl (Option.some.inj h).symm
  · rw [dictGet_dictSet_ne rs k k' v hk] at h
    exact Or.inr h

/-- C4: every failing `join_room`, `start_game` or `player_action` call —
room missing, wrong phase, non-host starter, player not seated, wrong turn,
already-resolved seat, invalid action literal, room full (and the
out-of-range player-count `ValueError`) — raises its error with the
registry, every room, and every seat exactly as before the call; in
particular a start attempt by a non-host fails with 403 Forbidden and
changes nothing, so the phase stays `waiting` if it was. -/
theorem failing_calls_leave_state_unchanged (m : RoomManager)
    (room_id pid name act : String) :
    (∀ e, (m.join_room room_id name).2 = .error e →
      (m.join_room room_id name).1 = m) ∧
    (∀ e, (m.start_game room_id pid).2 = .error e →
      (m.start_game room_id pid).1 = m) ∧
    (∀ e, (m.player_action room_id pid act).2 = .error e →
      (m.player_action room_id pid act).1 = m) ∧
    (∀ room, dictGet m.rooms room_id = some room → room.host_id ≠ pid →
      m.start_game room_id pid
        = (m, .error ⟨403, "Only host can start the game"⟩)) := by
  refine ⟨?_, ?_, ?_, ?_⟩
  · intro e
    unfold RoomManager.join_room
    cases hdg : dictGet m.rooms room_id with
    | none => intro _; rfl
    | some room =>
      dsimp only
      split_ifs with h1 h2 <;> intro he
      · rfl
      · rfl
      · cases he
  · intro e
    unfold RoomManager.start_game
    cases hdg : dictGet m.rooms room_id with
    | none => intro _; rfl
    | some room =>
      dsimp only
      split_ifs with h1 h2 <;> intro he
      · rfl
      · rfl
      · revert he
        cases hsr : start_round_room room (m.shufflers m.gameCount) with
        | error e2 => intro _; rfl
        | ok room' => intro he; cases he
  · intro e
    unfold RoomManager.player_action
    cases hdg : dictGet m.rooms room_id with
    | none => intro _; rfl
    | some room =>
      dsimp only
      by_cases h1 : room.phase ≠ "player_turns"
      · rw [if_pos h1]
        intro _
        rfl
      · rw [if_neg h1]
        by_cases h2 : room.find_player_index pid = -1
        · rw [if_pos h2]
          intro _
          rfl
        · rw [if_neg h2]
          by_cases h3 : room.find_player_index pid
              ≠ (room.current_player_index : Int)
          · rw [if_pos h3]
            intro _
            rfl
          · rw [if_neg h3]
            by_cases h4 : (room.seats.getD (room.find_player_index pid).toNat
                default).resolved = true
            · rw [if_pos h4]
              intro _
              rfl
            · rw [if_neg h4]
              by_cases h5 : strTrim (strLower act) ≠ "hit" ∧
                  strTrim (strLower act) ≠ "stand"
              · rw [if_pos h5]
                intro _
                rfl
              · rw [if_neg h5]
                cases hg : room.game with
                | none =>
                  intro _
                  rfl
                | some g =>
                  intro he
                  cases he
  · intro room hroom hhost
    unfold RoomManager.start_game
    rw [hroom]
    dsimp only
    rw [if_pos hhost]

/-- A concrete single-seat waiting room hosted by `"h"`. -/
def witnessRoom : Room :=
  { room_id := "R", host_id := "h",
    seats := [{ player_id := "h", name := "host" }],
    max_players := 1 }

/-- A concrete registry holding only `witnessRoom` under key `"R"`. -/
def witnessManager : RoomManager :=
  { rooms := [("R", witnessRoom)], uuids := fun _ => "aaaabbbbcccc",
    uuidCount := 0, shufflers := fun _ _ => fullDeck, gameCount := 0 }

/-- Closed witness for C4: a non-host start attempt fails with 403 and
leaves the registry untouched. -/
theorem failing_calls_leave_state_unchanged_witness :
    (witnessManager.start_game "R" "x").1 = witnessManager ∧
    witnessManager.start_game "R" "x"
      = (witnessManager, .error ⟨403, "Only host can start the game"⟩) :=
  ⟨(failing_calls_leave_state_unchanged witnessManager "R" "x" "n" "hit").2.1
      ⟨403, "Only host can start the game"⟩ (by rfl),
   (failing_calls_leave_state_unchanged witnessManager "R" "x" "n" "hit").2.2.2
      witnessRoom (by rfl) (by decide)⟩

theorem dictGet_none_iff (rs : List (String × Room)) (k : String) :
    dictGet rs k = none ↔ rs.find? (fun p => p.1 = k) = none := by
  unfold dictGet
  cases h : rs.find? (fun p => p.1 = k) <;> simp

theorem dictSet_length_fresh (rs : List (String × Room)) (k : String)
    (v : Room) (h : rs.any (fun p => p.1 = k) = false) :
    (dictSet rs k v).length = rs.length + 1 := by
  unfold dictSet
  rw [h]
  simp

/-- A registry whose uuid oracle always returns the same hex string, so the
second room id collides with the first (`uuid4().hex[:6]` can repeat). -/
def collisionManager : RoomManager :=
  { rooms := [], uuids := fun _ => "aaaaaaaaaaaa", uuidCount := 0,
    shufflers := fun _ _ => fullDeck, gameCount := 0 }

/-- Counterexample to C8 as stated: when the truncated uuid repeats, the
second `create_room` returns the same room id as the first and REPLACES the
first room (the table still has one entry and the original host's seat is
gone) instead of adding a new entry. -/
theorem create_room_collision_counterexample :
    ((collisionManager.create_room "alice" 4).1.create_room "bob" 4).2.1
        = (collisionManager.create_room "alice" 4).2.1 ∧
    (collisionManager.create_room "alice" 4).1.rooms.length = 1 ∧
    ((collisionManager.create_room "alice" 4).1.create_room "bob" 4).1.rooms.length
        = 1 ∧
    ((dictGet (collisionManager.create_room "alice" 4).1.rooms
        "AAAAAA").map fun r => (r.seats.getD 0 default).name) = some "alice" ∧
    ((dictGet ((collisionManager.create_room "alice" 4).1.create_room
        "bob" 4).1.rooms "AAAAAA").map fun r => (r.seats.getD 0 default).name)
      = some "bob" :=
  ⟨rfl, rfl, rfl, rfl, rfl⟩

theorem create_room_eq (m : RoomManager) (name : String) (mx : Nat) :
    m.create_room name mx =
      ({ m with
          rooms := dictSet m.rooms (strUpper ((m.uuids m.uuidCount).take 6))
            { room_id := strUpper ((m.uuids m.uuidCount).take 6),
              host_id := (m.uuids (m.uuidCount + 1)).take 12,
              seats := [{ player_id := (m.uuids (m.uuidCount + 1)).take 12,
                          name := strTrim name }],
              max_players := mx },
          uuidCount := m.uuidCount + 2 },
        (strUpper ((m.uuids m.uuidCount).take 6),
          (m.uuids (m.uuidCount + 1)).take 12)) := rfl

/-- C8 as amended: provided the generated room identifier is fresh (not
already a key of the table — what uuid collision-freedom gives), each
`create_room` call appends exactly one entry, leaves every other key's
binding unchanged, stores the new room under the returned id, and a
subsequent call whose generated id is also fresh returns a distinct id. -/
theorem create_room_fresh_frame (m : RoomManager) (name name2 : String)
    (mx mx2 : Nat)
    (hfresh : dictGet m.rooms (strUpper ((m.uuids m.uuidCount).take 6))
      = none) :
    (m.create_room name mx).2.1 = strUpper ((m.uuids m.uuidCount).take 6) ∧
    dictGet m.rooms (m.create_room name mx).2.1 = none ∧
    (m.create_room name mx).1.rooms.length = m.rooms.length + 1 ∧
    (∃ r, dictGet (m.create_room name mx).1.rooms (m.create_room name mx).2.1
        = some r ∧ r.phase = "waiting" ∧ r.max_players = mx ∧
        r.seats = [{ player_id := (m.create_room name mx).2.2,
                     name := strTrim name }]) ∧
    (∀ k, k ≠ (m.create_room name mx).2.1 →
      dictGet (m.create_room name mx).1.rooms k = dictGet m.rooms k) ∧
    (dictGet (m.create_room name mx).1.rooms
        (strUpper (((m.create_room name mx).1.uuids
          ((m.create_room name mx).1.uuidCount)).take 6)) = none →
      ((m.create_room name mx).1.create_room name2 mx2).2.1
        ≠ (m.create_room name mx).2.1) := by
  have hany : m.rooms.any
      (fun p => p.1 = strUpper ((m.uuids m.uuidCount).take 6)) = false := by
    rw [any_iff_find?]
    exact (dictGet_none_iff _ _).mp hfresh
  refine ⟨?_, ?_, ?_, ?_, ?_, ?_⟩
  · simp only [create_room_eq]
  · exact hfresh
  · simp only [create_room_eq]
    exact dictSet_length_fresh _ _ _ hany
  · simp only [create_room_eq]
    exact ⟨_, dictGet_dictSet_self _ _ _, rfl, rfl, rfl⟩
  · intro k hk
    simp only [create_room_eq] at hk ⊢
    exact dictGet_dictSet_ne _ _ _ _ hk
  · intro hfresh2 heq
    simp only [create_room_eq] at hfresh2 heq
    rw [heq, dictGet_dictSet_self] at hfresh2
    cases hfresh2

/-- A registry whose uuid oracle yields distinct hex strings. -/
def freshIdManager : RoomManager :=
  { rooms := [],
    uuids := fun i =>
      if i = 0 then "aaaabbbbcccc"
      else if i = 1 then "111122223333" else "ddddeeeeffff",
    uuidCount := 0, shufflers := fun _ _ => fullDeck, gameCount := 0 }

/-- Closed witness for the amended C8 with fresh generated identifiers. -/
theorem create_room_fresh_frame_witness :
    dictGet freshIdManager.rooms
        (strUpper ((freshIdManager.uuids freshIdManager.uuidCount).take 6))
      = none ∧
    (freshIdManager.create_room "alice" 4).1.rooms.length
      = freshIdManager.rooms.length + 1 ∧
    ((freshIdManager.create_room "alice" 4).1.create_room "bob" 4).2.1
      ≠ (freshIdManager.create_room "alice" 4).2.1 := by
  have h := create_room_fresh_frame freshIdManager "alice" "bob" 4 4 (by rfl)
  exact ⟨by rfl, h.2.2.1, h.2.2.2.2.2 (by rfl)⟩

/-! ### Phases (claim C10) -/

/-- The externally meaningful phases: `dealer_turn` is not among them. -/
def goodPhase (room : Room) : Prop :=
  room.phase = "waiting" ∨ room.phase = "player_turns" ∨
    room.phase = "results"

/-- Every room of the table is in a good phase. -/
def PhaseInv (rs : List (String × Room)) : Prop :=
  ∀ k room, dictGet rs k = some room → goodPhase room

theorem phaseInv_dictSet (rs : List (String × Room)) (k : String) (v : Room)
    (h : PhaseInv rs) (hv : goodPhase v) : PhaseInv (dictSet rs k v) :=
  fun k' r hr =>
    (dictGet_dictSet_cases rs k k' v r hr).elim (fun he => he ▸ hv) (h k' r)

theorem run_dealer_and_finalize_phase (room : Room) (g : Game) :
    (run_dealer_and_finalize room g).1.phase = "results" := by
  unfold run_dealer_and_finalize
  rcases h : finalizeSeats room (dealerPlay g) with ⟨r2, g2⟩
  simp [h]

theorem move_to_next_playable_phase (room : Room) (g : Game) :
    (move_to_next_playable room g).phase = "player_turns" ∨
      (move_to_next_playable room g).phase = "dealer_turn" := by
  unfold move_to_next_playable
  cases firstUnfinishedFrom room g 0 <;> simp

theorem advance_after_phase (room : Room) (g : Game) (i : Nat) :
    (advance_after room g i).phase = room.phase ∨
      (advance_after room g i).phase = "player_turns" ∨
      (advance_after room g i).phase = "dealer_turn" := by
  unfold advance_after
  cases firstUnfinishedFrom room g (i + 1) with
  | some j => exact Or.inl rfl
  | none =>
    rcases move_to_next_playable_phase room g with h | h
    · exact Or.inr (Or.inl h)
    · exact Or.inr (Or.inr h)

theorem action_step_phase (room : Room) (g : Game) (i : Nat) (a : String) :
    (action_step room g i a).1.phase = room.phase := by
  unfold action_step
  rcases hdc : g.draw_card with ⟨c, gd⟩
  by_cases ha : a = "hit" <;> simp [ha, hdc]

theorem turn_advance_phase (room' : Room) (g' : Game) (i : Nat) :
    (turn_advance room' g' i).phase = room'.phase ∨
      (turn_advance room' g' i).phase = "player_turns" ∨
      (turn_advance room' g' i).phase = "dealer_turn" := by
  unfold turn_advance
  by_cases hf : seatFinishedWith room' g' i = true
  · rw [if_pos hf]
    exact advance_after_phase room' g' i
  · rw [if_neg hf]
    exact Or.inl rfl

theorem apply_action_room_phase (room : Room) (g : Game) (i : Nat)
    (a : String) (h : room.phase = "player_turns") :
    (apply_action_room room g i a).phase = "player_turns" ∨
      (apply_action_room room g i a).phase = "results" := by
  unfold apply_action_room
  dsimp only
  by_cases hd : (turn_advance (action_step room g i a).1
      (action_step room g i a).2 i).phase = "dealer_turn"
  · rw [if_pos hd]
    exact Or.inr (run_dealer_and_finalize_phase _ _)
  · rw [if_neg hd]
    rcases turn_advance_phase (action_step room g i a).1
        (action_step room g i a).2 i with h1 | h1 | h1
    · exact Or.inl (by rw [h1, action_step_phase, h])
    · exact Or.inl h1
    · exact absurd h1 hd

theorem start_round_room_phase (room : Room) (sh : Nat → List Card)
    (room' : Room) (h : start_round_room room sh = .ok room') :
    room'.phase = "player_turns" ∨ room'.phase = "results" := by
  unfold start_round_room at h
  cases hinit : Game.init room.seats.length sh with
  | error e =>
    rw [hinit] at h
    cases h
  | ok g0 =>
    rw [hinit] at h
    dsimp only at h
    split at h
    · cases h
      dsimp only
      exact Or.inr (run_dealer_and_finalize_phase _ _)
    · split at h
      · cases h
        dsimp only
        exact Or.inr (run_dealer_and_finalize_phase _ _)
      · cases h
        rename_i hneg
        dsimp only
        rcases move_to_next_playable_phase _ _ with hp | hp
        · exact Or.inl hp
        · exact absurd hp hneg

/-- C10: after any top-level room-manager operation returns or raises,
every room's phase is `waiting`, `player_turns` or `results`: the
`dealer_turn` phase set during turn advancement is always resolved to
`results` by the same call, so `get_state` can never report it. -/
theorem no_observable_dealer_turn (m : RoomManager)
    (hinv : PhaseInv m.rooms) :
    (∀ name mx, PhaseInv (m.create_room name mx).1.rooms) ∧
    (∀ rid name, PhaseInv (m.join_room rid name).1.rooms) ∧
    (∀ rid pid, PhaseInv (m.start_game rid pid).1.rooms) ∧
    (∀ rid pid act, PhaseInv (m.player_action rid pid act).1.rooms) ∧
    (∀ rid pid resp, m.get_state rid pid = .ok resp →
      resp.phase ≠ "dealer_turn") := by
  refine ⟨?_, ?_, ?_, ?_, ?_⟩
  · intro name mx
    simp only [create_room_eq]
    exact phaseInv_dictSet _ _ _ hinv (Or.inl rfl)
  · intro rid name
    unfold RoomManager.join_room
    cases hdg : dictGet m.rooms rid with
    | none => exact hinv
    | some room =>
      dsimp only
      split_ifs with h1 h2
      · exact hinv
      · exact hinv
      · exact phaseInv_dictSet _ _ _ hinv (hinv rid room hdg)
  · intro rid pid
    unfold RoomManager.start_game
    cases hdg : dictGet m.rooms rid with
    | none => exact hinv
    | some room =>
      dsimp only
      split_ifs with h1 h2
      · exact hinv
      · exact hinv
      · cases hsr : start_round_room room (m.shufflers m.gameCount) with
        | error e => exact hinv
        | ok room' =>
          refine phaseInv_dictSet _ _ _ hinv ?_
          rcases start_round_room_phase room _ room' hsr with hp | hp
          · exact Or.inr (Or.inl hp)
          · exact Or.inr (Or.inr hp)
  · intro rid pid act
    unfold RoomManager.player_action
    cases hdg : dictGet m.rooms rid with
    | none => exact hinv
    | some room =>
      dsimp only
      split_ifs with h1 h2 h3 h4 h5
      · exact hinv
      · exact hinv
      · exact hinv
      · exact hinv
      · exact hinv
      · cases hg : room.game with
        | none => exact hinv
        | some g =>
          dsimp only
          refine phaseInv_dictSet _ _ _ hinv ?_
          have hpt : room.phase = "player_turns" := not_not.mp h1
          rcases apply_action_room_phase room g
              (room.find_player_index pid).toNat
              (strTrim (strLower act)) hpt with hp | hp
          · exact Or.inr (Or.inl hp)
          · exact Or.inr (Or.inr hp)
  · intro rid pid resp h
    unfold RoomManager.get_state at h
    cases hdg : dictGet m.rooms rid with
    | none =>
      rw [hdg] at h
      cases h
    | some room =>
      rw [hdg] at h
      dsimp only at h
      have hphase : resp.phase = room.phase := by
        unfold room_state_response at h
        dsimp only at h
        by_cases hw : room.phase = "waiting"
        · rw [if_pos hw] at h
          cases h
          rfl
        · rw [if_neg hw] at h
          cases hg : room.game with
          | none =>
            rw [hg] at h
            cases h
          | some g =>
            rw [hg] at h
            dsimp only at h
            cases h
            rfl
      rw [hphase]
      rcases hinv rid room hdg with h1 | h1 | h1 <;> simp [h1]

/-- Closed witness for C10 on a concrete registry. -/
theorem no_observable_dealer_turn_witness :
    PhaseInv (freshIdManager.create_room "alice" 2).1.rooms :=
  (no_observable_dealer_turn freshIdManager
    (fun _ _ h => by simp [dictGet, freshIdManager, List.find?] at h)).1
    "alice" 2

/-- C9: in any non-waiting room, `get_state` renders a seat's cards hidden
with score `"?"` exactly when the phase is `player_turns` and that seat is
neither the current turn nor resolved; and it hides all dealer cards and
the dealer score exactly when the phase is `player_turns`. -/
theorem get_state_hiding (room : Room) (g : Game) (pid : Option String)
    (resp : RoomStateResponse)
    (hg : room.game = some g) (hph : room.phase ≠ "waiting")
    (hresp : room_state_response room pid = .ok resp) :
    (∀ idx, idx < room.seats.length →
      (((∀ c ∈ (resp.players.getD idx default).cards, c = CardView.hidden) ∧
        (resp.players.getD idx default).score = ScoreView.unknown) ↔
        (room.phase = "player_turns" ∧ idx ≠ room.current_player_index ∧
          (room.seats.getD idx default).resolved = false))) ∧
    (((∀ c ∈ resp.dealer.cards, c = CardView.hidden) ∧
      resp.dealer.score = ScoreView.unknown) ↔
      room.phase = "player_turns") := by
  unfold room_state_response at hresp
  dsimp only at hresp
  rw [if_neg hph, hg] at hresp
  dsimp only at hresp
  cases hresp
  constructor
  · intro idx hidx
    have hplen : idx < (room.seats.mapIdx fun idx seat =>
        ({ name := seat.name,
           score := if (decide (room.phase = "player_turns") &&
               decide (idx ≠ room.current_player_index) && !seat.resolved)
             then ScoreView.unknown
             else ScoreView.score (g.players.getD idx default).score,
           cards := (g.players.getD idx default).hand.map fun card =>
             if (decide (room.phase = "player_turns") &&
                 decide (idx ≠ room.current_player_index) && !seat.resolved)
               then CardView.hidden
               else CardView.visible card.rank.value card.suit.value,
           stood := seat.stood, resolved := seat.resolved,
           result := seat.result } : PlayerView)).length := by
      simpa using hidx
    rw [getD_eq_getElem_of_lt _ _ hplen, List.getElem_mapIdx,
      getD_eq_getElem_of_lt room.seats idx hidx]
    dsimp only
    by_cases hb : (decide (room.phase = "player_turns") &&
        decide (idx ≠ room.current_player_index) &&
          !(room.seats[idx].resolved)) = true
    · simp only [if_pos hb]
      simp only [Bool.and_eq_true, decide_eq_true_eq,
        Bool.not_eq_true'] at hb
      simp [hb.1.1, hb.1.2, hb.2]
    · simp only [if_neg hb]
      have hb2 : (decide (room.phase = "player_turns") &&
          decide (idx ≠ room.current_player_index) &&
            !(room.seats[idx].resolved)) = false := Bool.eq_false_iff.mpr hb
      clear hb
      constructor
      · rintro ⟨-, hsc⟩
        cases hsc
      · rintro ⟨h1, h2, h3⟩
        rw [Bool.and_eq_false_iff, Bool.and_eq_false_iff] at hb2
        rcases hb2 with (hb2 | hb2) | hb2
        · exact absurd h1 (by simpa using hb2)
        · exact absurd h2 (by simpa using hb2)
        · rw [Bool.not_eq_false'] at hb2
          rw [hb2] at h3
          cases h3
  · by_cases hpd : room.phase = "player_turns"
    · simp [hpd]
    · simp [hpd]

/-- A concrete mid-round room over `witnessDealtGame`. -/
def playingRoom : Room :=
  { room_id := "R", host_id := "h",
    seats := [⟨"h", "alice", false, false, ""⟩, ⟨"p", "bob", false, false, ""⟩],
    max_players := 2, phase := "player_turns", current_player_index := 0,
    game := some witnessDealtGame }

/-- The `get_state` projection of `playingRoom` for an anonymous viewer. -/
def playingRoomView : RoomStateResponse :=
  (room_state_response playingRoom none).toOption.getD
    ⟨"", "", 0, none, [], ⟨ScoreView.none, []⟩, false, false, []⟩

/-- Closed witness for C9 at `playingRoom`. -/
theorem get_state_hiding_witness :
    ((∀ c ∈ playingRoomView.dealer.cards, c = CardView.hidden) ∧
      playingRoomView.dealer.score = ScoreView.unknown) ↔
      playingRoom.phase = "player_turns" :=
  (get_state_hiding playingRoom witnessDealtGame none playingRoomView rfl
    (by decide) rfl).2

/-- `List.getD` after `set` at the same (in-range) index. -/
theorem getD_set_self {α : Type _} (l : List α) (i : Nat) (x d : α)
    (h : i < l.length) : (l.set i x).getD i d = x := by
  simp [List.getD_eq_getElem?_getD, List.getElem?_set_self, h]

/-- `List.getD` after `set` at a different index. -/
theorem getD_set_ne {α : Type _} (l : List α) (i j : Nat) (x d : α)
    (h : i ≠ j) : (l.set i x).getD j d = l.getD j d := by
  simp [List.getD_eq_getElem?_getD, List.getElem?_set_ne h]

/-- `_is_finished` only reads the seat and player entries at the index. -/
theorem seatFinishedWith_ext (r1 r2 : Room) (g1 g2 : Game) (j : Nat)
    (hs : r1.seats.getD j default = r2.seats.getD j default)
    (hp : g1.players.getD j default = g2.players.getD j default) :
    seatFinishedWith r1 g1 j = seatFinishedWith r2 g2 j := by
  unfold seatFinishedWith
  rw [hs, hp]

/-- `_is_finished` only reads the room through its seat list. -/
theorem seatFinishedWith_seats_eq (r1 r2 : Room) (g : Game) (j : Nat)
    (hs : r1.seats = r2.seats) :
    seatFinishedWith r1 g j = seatFinishedWith r2 g j :=
  seatFinishedWith_ext r1 r2 g g j (by rw [hs]) rfl

/-- A successful scan returns the first unfinished index at or after the
start: it is in range, unfinished, and everything between is finished. -/
theorem firstUnfinishedAux_some (room : Room) (g : Game) :
    ∀ (fuel i j : Nat), room.seats.length - i ≤ fuel →
      firstUnfinishedAux room g fuel i = some j →
      i ≤ j ∧ j < room.seats.length ∧ seatFinishedWith room g j = false ∧
        ∀ k, i ≤ k → k < j → seatFinishedWith room g k = true := by
  intro fuel
  induction fuel with
  | zero =>
    intro i j hle h
    rw [firstUnfinishedAux] at h
    cases h
  | succ n ih =>
    intro i j hle h
    rw [firstUnfinishedAux] at h
    by_cases hi : i < room.seats.length
    · rw [if_pos hi] at h
      by_cases hf : seatFinishedWith room g i = true
      · rw [if_pos hf] at h
        obtain ⟨h1, h2, h3, h4⟩ := ih (i + 1) j (by omega) h
        refine ⟨by omega, h2, h3, fun k hk1 hk2 => ?_⟩
        rcases Nat.eq_or_lt_of_le hk1 with heq | hgt
        · rw [← heq]; exact hf
        · exact h4 k hgt hk2
      · rw [if_neg hf] at h
        cases h
        exact ⟨Nat.le_refl i, hi, Bool.eq_false_iff.mpr hf,
          fun k hk1 hk2 => absurd (Nat.lt_of_le_of_lt hk1 hk2)
            (Nat.lt_irrefl i)⟩
    · rw [if_neg hi] at h
      cases h

/-- A failed scan means every index from the start on is finished. -/
theorem firstUnfinishedAux_none (room : Room) (g : Game) :
    ∀ (fuel i : Nat), room.seats.length - i ≤ fuel →
      firstUnfinishedAux room g fuel i = none →
      ∀ k, i ≤ k → k < room.seats.length → seatFinishedWith room g k = true := by
  intro fuel
  induction fuel with
  | zero =>
    intro i hle _ k hk1 hk2
    omega
  | succ n ih =>
    intro i hle h k hk1 hk2
    rw [firstUnfinishedAux] at h
    by_cases hi : i < room.seats.length
    · rw [if_pos hi] at h
      by_cases hf : seatFinishedWith room g i = true
      · rw [if_pos hf] at h
        rcases Nat.eq_or_lt_of_le hk1 with heq | hgt
        · rw [← heq]; exact hf
        · exact ih (i + 1) (by omega) h k hgt hk2
      · rw [if_neg hf] at h
        cases h
    · omega

/-- `firstUnfinishedFrom` success, without the explicit bound. -/
theorem firstUnfinishedFrom_some (room : Room) (g : Game) (i j : Nat)
    (h : firstUnfinishedFrom room g i = some j) :
    i ≤ j ∧ j < room.seats.length ∧ seatFinishedWith room g j = false ∧
      ∀ k, i ≤ k → k < j → seatFinishedWith room g k = true :=
  firstUnfinishedAux_some room g (room.seats.length - i) i j (Nat.le_refl _) h

/-- `firstUnfinishedFrom` failure, without the explicit bound. -/
theorem firstUnfinishedFrom_none (room : Room) (g : Game) (i : Nat)
    (h : firstUnfinishedFrom room g i = none) :
    ∀ k, i ≤ k → k < room.seats.length → seatFinishedWith room g k = true :=
  firstUnfinishedAux_none room g (room.seats.length - i) i (Nat.le_refl _) h

/-- The hit/stand step keeps both list lengths, the phase and the turn
index, and only touches the seat and player entries at the acted index. -/
theorem action_step_facts (room : Room) (g : Game) (i : Nat) (a : String) :
    (action_step room g i a).1.seats.length = room.seats.length ∧
    (action_step room g i a).2.players.length = g.players.length ∧
    (action_step room g i a).1.phase = room.phase ∧
    (action_step room g i a).1.current_player_index =
      room.current_player_index ∧
    ∀ j, j ≠ i →
      (action_step room g i a).1.seats.getD j default =
        room.seats.getD j default ∧
      (action_step room g i a).2.players.getD j default =
        g.players.getD j default := by
  unfold action_step
  by_cases h : a = "hit"
  · rw [if_pos h]
    rcases hdc : g.draw_card with ⟨c, gd⟩
    have hps : gd.players = g.players := by
      have h2 := (draw_card_frame g).1
      rw [hdc] at h2
      exact h2
    dsimp only
    refine ⟨rfl, ?_, rfl, rfl, fun j hj => ⟨rfl, ?_⟩⟩
    · rw [List.length_set, hps]
    · rw [getD_set_ne _ _ _ _ _ (Ne.symm hj), hps]
  · rw [if_neg h]
    dsimp only
    refine ⟨?_, rfl, rfl, rfl, fun j hj => ⟨?_, rfl⟩⟩
    · rw [List.length_set]
    · rw [getD_set_ne _ _ _ _ _ (Ne.symm hj)]

/-- `_move_to_next_playable` never touches the seat list. -/
theorem move_to_next_playable_seats (room : Room) (g : Game) :
    (move_to_next_playable room g).seats = room.seats := by
  unfold move_to_next_playable
  cases firstUnfinishedFrom room g 0 <;> rfl

/-- `_advance_after` never touches the seat list. -/
theorem advance_after_seats (room : Room) (g : Game) (i : Nat) :
    (advance_after room g i).seats = room.seats := by
  unfold advance_after
  cases firstUnfinishedFrom room g (i + 1)
  · exact move_to_next_playable_seats room g
  · rfl

/-- `_advance_after` either jumps to the scan's answer or falls back to
`_move_to_next_playable`. -/
theorem advance_after_cases (room : Room) (g : Game) (i : Nat) :
    (∃ k, firstUnfinishedFrom room g (i + 1) = some k ∧
      advance_after room g i = { room with current_player_index := k }) ∨
    (firstUnfinishedFrom room g (i + 1) = none ∧
      advance_after room g i = move_to_next_playable room g) := by
  unfold advance_after
  cases h : firstUnfinishedFrom room g (i + 1) with
  | none => exact Or.inr ⟨rfl, rfl⟩
  | some k => exact Or.inl ⟨k, rfl, rfl⟩

/-- `_move_to_next_playable` either selects the scan's answer (entering
`player_turns`) or hands over to the dealer. -/
theorem move_to_next_playable_cases (room : Room) (g : Game) :
    (∃ k, firstUnfinishedFrom room g 0 = some k ∧
      move_to_next_playable room g =
        { room with current_player_index := k, phase := "player_turns" }) ∨
    (firstUnfinishedFrom room g 0 = none ∧
      move_to_next_playable room g = { room with phase := "dealer_turn" }) := by
  unfold move_to_next_playable
  cases h : firstUnfinishedFrom room g 0 with
  | none => exact Or.inr ⟨rfl, rfl⟩
  | some k => exact Or.inl ⟨k, rfl, rfl⟩

/-- When the acted seat is still unfinished the turn does not move. -/
theorem turn_advance_of_unfinished (room' : Room) (g' : Game) (i : Nat)
    (h : seatFinishedWith room' g' i = false) :
    turn_advance room' g' i = room' := by
  unfold turn_advance
  rw [h]
  rfl

/-- When the acted seat is finished the turn advances past it. -/
theorem turn_advance_of_finished (room' : Room) (g' : Game) (i : Nat)
    (h : seatFinishedWith room' g' i = true) :
    turn_advance room' g' i = advance_after room' g' i := by
  unfold turn_advance
  rw [h]
  rfl

/-- The post-check body of `player_action` either skips dealer resolution
(keeping the stepped-and-advanced room) or finalizes the round. -/
theorem apply_action_room_cases (room : Room) (g : Game) (i : Nat)
    (a : String) :
    ((turn_advance (action_step room g i a).1 (action_step room g i a).2
        i).phase ≠ "dealer_turn" ∧
      apply_action_room room g i a =
        { turn_advance (action_step room g i a).1 (action_step room g i a).2 i
            with game := some (action_step room g i a).2 }) ∨
    ((turn_advance (action_step room g i a).1 (action_step room g i a).2
        i).phase = "dealer_turn" ∧
      apply_action_room room g i a =
        { (run_dealer_and_finalize
            (turn_advance (action_step room g i a).1
              (action_step room g i a).2 i)
            (action_step room g i a).2).1
            with game := some (run_dealer_and_finalize
              (turn_advance (action_step room g i a).1
                (action_step room g i a).2 i)
              (action_step room g i a).2).2 }) := by
  unfold apply_action_room
  dsimp only
  by_cases hd : (turn_advance (action_step room g i a).1
      (action_step room g i a).2 i).phase = "dealer_turn"
  · rw [if_pos hd]
    exact Or.inr ⟨hd, rfl⟩
  · rw [if_neg hd]
    exact Or.inl ⟨hd, rfl⟩

/-- The turn invariant of a room in `player_turns`: an active game of
matching width, an in-range unfinished current seat, and every earlier seat
finished. -/
def RoomInv (room : Room) : Prop :=
  room.phase = "player_turns" →
    ∃ g, room.game = some g ∧ g.players.length = room.seats.length ∧
      room.current_player_index < room.seats.length ∧
      seatFinishedWith room g room.current_player_index = false ∧
      ∀ j, j < room.current_player_index → seatFinishedWith room g j = true

/-- One successful action on the current seat of a `player_turns` room:
the invariant is preserved, the turn index never decreases while the round
stays in `player_turns`, and a seat that was already finished can neither
become the current seat nor become unfinished. -/
theorem apply_action_room_turn (room : Room) (g : Game) (a : String)
    (hphase : room.phase = "player_turns")
    (hlen : g.players.length = room.seats.length)
    (hcur : room.current_player_index < room.seats.length)
    (hunf : seatFinishedWith room g room.current_player_index = false)
    (hprev : ∀ j, j < room.current_player_index →
      seatFinishedWith room g j = true) :
    RoomInv (apply_action_room room g room.current_player_index a) ∧
    ((apply_action_room room g room.current_player_index a).phase =
        "player_turns" →
      room.current_player_index ≤
        (apply_action_room room g
          room.current_player_index a).current_player_index) ∧
    (∀ j, seatFinishedWith room g j = true →
      (apply_action_room room g room.current_player_index a).phase =
        "player_turns" →
      (apply_action_room room g
          room.current_player_index a).current_player_index ≠ j ∧
        seatFinished (apply_action_room room g room.current_player_index a)
          j = true) := by
  have hfacts := action_step_facts room g room.current_player_index a
  have hc := apply_action_room_cases room g room.current_player_index a
  rcases hstep : action_step room g room.current_player_index a with ⟨room1, g1⟩
  rw [hstep] at hfacts hc
  dsimp only at hfacts hc
  obtain ⟨hsl, hpl, hph, hcc, hfr⟩ := hfacts
  have hph1 : room1.phase = "player_turns" := hph.trans hphase
  have hpres : ∀ j, j ≠ room.current_player_index →
      seatFinishedWith room1 g1 j = seatFinishedWith room g j := fun j hj =>
    seatFinishedWith_ext _ _ _ _ j (hfr j hj).1 (hfr j hj).2
  by_cases hfin : seatFinishedWith room1 g1 room.current_player_index = true
  · have hta := turn_advance_of_finished room1 g1 room.current_player_index
      hfin
    rw [hta] at hc
    rcases advance_after_cases room1 g1 room.current_player_index with
      ⟨k, hk, haeq⟩ | ⟨hnone, haeq⟩
    · rw [haeq] at hc
      obtain ⟨hk1, hk2, hk3, hk4⟩ := firstUnfinishedFrom_some room1 g1 _ k hk
      rcases hc with ⟨hnd, heq⟩ | ⟨hd, heq⟩
      · rw [heq]
        refine ⟨?_, ?_, ?_⟩
        · intro _
          refine ⟨g1, rfl, ?_, ?_, ?_, ?_⟩
          · show g1.players.length = room1.seats.length
            rw [hpl, hsl]
            exact hlen
          · show k < room1.seats.length
            exact hk2
          · show seatFinishedWith room1 g1 k = false
            exact hk3
          · intro j hj
            have hj' : j < k := hj
            show seatFinishedWith room1 g1 j = true
            rcases Nat.lt_trichotomy j room.current_player_index with
              h1 | h1 | h1
            · rw [hpres j (by omega)]
              exact hprev j h1
            · rw [h1]
              exact hfin
            · exact hk4 j (by omega) hj'
        · intro _
          show room.current_player_index ≤ k
          omega
        · intro j hjf _
          have hji : j ≠ room.current_player_index := by
            intro he
            rw [he, hunf] at hjf
            cases hjf
          constructor
          · show k ≠ j
            intro he
            have h2 := hpres j hji
            rw [hjf, ← he, hk3] at h2
            cases h2
          · show seatFinishedWith room1 g1 j = true
            rw [hpres j hji]
            exact hjf
      · have hd' : room1.phase = "dealer_turn" := hd
        exact absurd (hph1.symm.trans hd') (by decide)
    · have hall : ∀ k, k < room1.seats.length →
          seatFinishedWith room1 g1 k = true := by
        intro k hklt
        rcases Nat.lt_trichotomy k room.current_player_index with h1 | h1 | h1
        · rw [hpres k (by omega)]
          exact hprev k h1
        · rw [h1]
          exact hfin
        · exact firstUnfinishedFrom_none room1 g1 _ hnone k (by omega) hklt
      rw [haeq] at hc
      rcases move_to_next_playable_cases room1 g1 with
        ⟨k, hk, hmeq⟩ | ⟨hmn, hmeq⟩
      · obtain ⟨_, hk2, hk3, _⟩ := firstUnfinishedFrom_some room1 g1 0 k hk
        rw [hall k hk2] at hk3
        cases hk3
      · rw [hmeq] at hc
        rcases hc with ⟨hnd, heq⟩ | ⟨hd, heq⟩
        · exact absurd rfl hnd
        · rw [heq]
          have hres : (run_dealer_and_finalize
              { room1 with phase := "dealer_turn" } g1).1.phase =
                "results" := run_dealer_and_finalize_phase _ _
          have hnpt : ({ (run_dealer_and_finalize
              { room1 with phase := "dealer_turn" } g1).1 with
                game := some (run_dealer_and_finalize
                  { room1 with phase := "dealer_turn" } g1).2 } : Room).phase ≠
              "player_turns" := by
            show (run_dealer_and_finalize
              { room1 with phase := "dealer_turn" } g1).1.phase ≠ "player_turns"
            rw [hres]
            decide
          exact ⟨fun h => absurd h hnpt, fun h => absurd h hnpt,
            fun j _ h => absurd h hnpt⟩
  · have hta := turn_advance_of_unfinished room1 g1 room.current_player_index
      (Bool.eq_false_iff.mpr hfin)
    rw [hta] at hc
    rcases hc with ⟨hnd, heq⟩ | ⟨hd, heq⟩
    · rw [heq]
      refine ⟨?_, ?_, ?_⟩
      · intro _
        refine ⟨g1, rfl, ?_, ?_, ?_, ?_⟩
        · show g1.players.length = room1.seats.length
          rw [hpl, hsl]
          exact hlen
        · show room1.current_player_index < room1.seats.length
          rw [hcc, hsl]
          exact hcur
        · show seatFinishedWith room1 g1 room1.current_player_index = false
          rw [hcc]
          exact Bool.eq_false_iff.mpr hfin
        · intro j hj
          have hj' : j < room1.current_player_index := hj
          rw [hcc] at hj'
          show seatFinishedWith room1 g1 j = true
          rw [hpres j (by omega)]
          exact hprev j hj'
      · intro _
        show room.current_player_index ≤ room1.current_player_index
        exact Nat.le_of_eq hcc.symm
      · intro j hjf _
        have hji : j ≠ room.current_player_index := by
          intro he
          rw [he, hunf] at hjf
          cases hjf
        constructor
        · show room1.current_player_index ≠ j
          intro he
          exact hji (hcc.symm.trans he).symm
        · show seatFinishedWith room1 g1 j = true
          rw [hpres j hji]
          exact hjf
    · exact absurd (hph1.symm.trans hd) (by decide)

/-- A successful `Game(n)` construction records the count and starts with
no players. -/
theorem Game.init_ok (n : Nat) (sh : Nat → List Card) (g0 : Game)
    (h : Game.init n sh = .ok g0) : g0.n_players = n ∧ g0.players = [] := by
  unfold Game.init at h
  split_ifs at h
  cases h
  exact ⟨rfl, rfl⟩

/-- `add_players` appends exactly `n_players` players. -/
theorem add_players_length (g : Game) :
    g.add_players.players.length = g.players.length + g.n_players := by
  unfold Game.add_players
  simp

/-- `check_player` keeps the player list's length. -/
theorem check_player_players_length (g : Game) (i : Nat) :
    (g.check_player i).players.length = g.players.length := by
  unfold Game.check_player
  split_ifs
  · exact List.length_set _ _ _
  · rfl

/-- The per-player dealing loop returns one updated player per input
player. -/
theorem dealToPlayers_length (ps : List Player) :
    ∀ g : Game, (dealToPlayers g ps).1.length = ps.length := by
  induction ps with
  | nil => intro g; rfl
  | cons p ps ih =>
    intro g
    unfold dealToPlayers
    rcases hdc : g.draw_card with ⟨c, g'⟩
    rcases hrest : dealToPlayers g' ps with ⟨rest, g2⟩
    have h := ih g'
    rw [hrest] at h
    simp [hdc, hrest, h]

/-- One dealing pass keeps the player count. -/
theorem dealPass_players_length (g : Game) :
    g.dealPass.players.length = g.players.length := by
  unfold Game.dealPass
  rcases hdp : dealToPlayers g g.players with ⟨ps, g1⟩
  have h := dealToPlayers_length g.players g
  rw [hdp] at h
  rcases hdc : ({ g1 with players := ps } : Game).draw_card with ⟨c, g3⟩
  have hfr := (draw_card_frame { g1 with players := ps }).1
  rw [hdc] at hfr
  simp only [hdc]
  rw [hfr]
  exact h

/-- The initial deal keeps the player count. -/
theorem deal_initial_cards_players_length (g : Game) :
    g.deal_initial_cards.players.length = g.players.length := by
  unfold Game.deal_initial_cards
  rw [dealPass_players_length, dealPass_players_length]

/-- The dealt engine has the fresh game's declared number of players added
to its (empty) initial list. -/
theorem dealtOf_players_length (room : Room) (g0 : Game) :
    (dealtOf room g0).players.length = g0.players.length + g0.n_players := by
  unfold dealtOf dealtNamed
  rw [deal_initial_cards_players_length]
  simp [add_players_length]

/-- A fold whose step keeps the seat and player counts keeps them
globally. -/
theorem foldl_step_lengths (f : Room × Game → Nat → Room × Game)
    (hf : ∀ acc idx, (f acc idx).1.seats.length = acc.1.seats.length ∧
      (f acc idx).2.players.length = acc.2.players.length) :
    ∀ (l : List Nat) (acc : Room × Game),
      (l.foldl f acc).1.seats.length = acc.1.seats.length ∧
      (l.foldl f acc).2.players.length = acc.2.players.length := by
  intro l
  induction l with
  | nil => intro acc; exact ⟨rfl, rfl⟩
  | cons x xs ih =>
    intro acc
    have h1 := ih (f acc x)
    have h2 := hf acc x
    exact ⟨h1.1.trans h2.1, h1.2.trans h2.2⟩

/-- One natural-resolution step keeps both counts. -/
theorem resolveNaturalStep_lengths (acc : Room × Game) (idx : Nat) :
    (resolveNaturalStep acc idx).1.seats.length = acc.1.seats.length ∧
    (resolveNaturalStep acc idx).2.players.length = acc.2.players.length := by
  unfold resolveNaturalStep
  dsimp only
  split_ifs
  · exact ⟨List.length_set _ _ _, check_player_players_length _ _⟩
  · exact ⟨rfl, rfl⟩

/-- `_resolve_initial_naturals` keeps both counts. -/
theorem resolve_initial_naturals_lengths (room : Room) (g : Game) :
    (resolve_initial_naturals room g).1.seats.length = room.seats.length ∧
    (resolve_initial_naturals room g).2.players.length = g.players.length :=
  foldl_step_lengths resolveNaturalStep resolveNaturalStep_lengths _ (room, g)

/-- One finalization step keeps both counts. -/
theorem finalizeSeatStep_lengths (acc : Room × Game) (idx : Nat) :
    (finalizeSeatStep acc idx).1.seats.length = acc.1.seats.length ∧
    (finalizeSeatStep acc idx).2.players.length = acc.2.players.length := by
  unfold finalizeSeatStep
  exact ⟨List.length_set _ _ _, check_player_players_length _ _⟩

/-- `finalizeSeats` keeps both counts. -/
theorem finalizeSeats_lengths (room : Room) (g : Game) :
    (finalizeSeats room g).1.seats.length = room.seats.length ∧
    (finalizeSeats room g).2.players.length = g.players.length :=
  foldl_step_lengths finalizeSeatStep finalizeSeatStep_lengths _ (room, g)

/-- A finalized pair stored as a room satisfies the turn invariant
vacuously: its phase is `results`. -/
theorem results_roomInv (r : Room × Game) (h : r.1.phase = "results") :
    RoomInv { r.1 with game := some r.2 } := by
  intro hpt
  exact absurd (h.symm.trans hpt) (by decide)

/-- After a `_move_to_next_playable` that did not hand over to the dealer,
the stored room satisfies the turn invariant. -/
theorem postmove_inv (r : Room) (g : Game)
    (hlen : g.players.length = r.seats.length)
    (hm : (move_to_next_playable r g).phase ≠ "dealer_turn") :
    RoomInv { move_to_next_playable r g with game := some g } := by
  rcases move_to_next_playable_cases r g with ⟨k, hk, hmeq⟩ | ⟨hmn, hmeq⟩
  · obtain ⟨_, hk2, hk3, hk4⟩ := firstUnfinishedFrom_some r g 0 k hk
    rw [hmeq]
    intro _
    refine ⟨g, rfl, ?_, ?_, ?_, ?_⟩
    · show g.players.length = r.seats.length
      exact hlen
    · show k < r.seats.length
      exact hk2
    · show seatFinishedWith r g k = false
      exact hk3
    · intro j hj
      have hj' : j < k := hj
      show seatFinishedWith r g j = true
      exact hk4 j (Nat.zero_le j) hj'
  · rw [hmeq] at hm
    exact absurd rfl hm

/-- A successful `start_game` body leaves the stored room satisfying the
turn invariant. -/
theorem start_round_room_inv (room : Room) (sh : Nat → List Card)
    (room' : Room) (h : start_round_room room sh = .ok room') :
    RoomInv room' := by
  unfold start_round_room at h
  cases hinit : Game.init room.seats.length sh with
  | error e =>
    rw [hinit] at h
    cases h
  | ok g0 =>
    obtain ⟨hn, hp⟩ := Game.init_ok _ _ _ hinit
    rw [hinit] at h
    dsimp only at h
    split at h
    · cases h
      exact results_roomInv _ (run_dealer_and_finalize_phase _ _)
    · split at h
      · cases h
        exact results_roomInv _ (run_dealer_and_finalize_phase _ _)
      · cases h
        rename_i hneg
        refine postmove_inv _ _ ?_ hneg
        rw [(resolve_initial_naturals_lengths _ _).1,
          (resolve_initial_naturals_lengths _ _).2,
          dealtOf_players_length]
        simp [hn, hp]

/-- Inversion of a successful `start_game`: the room existed, its round
setup succeeded, and the manager stores the set-up room under the same
key. -/
theorem start_game_ok (m : RoomManager) (rid pid : String)
    (m' : RoomManager) (h : m.start_game rid pid = (m', .ok ())) :
    ∃ room roomS, dictGet m.rooms rid = some room ∧
      start_round_room room (m.shufflers m.gameCount) = .ok roomS ∧
      m' = { m with rooms := dictSet m.rooms rid roomS,
                    gameCount := m.gameCount + 1 } := by
  unfold RoomManager.start_game at h
  cases hdg : dictGet m.rooms rid with
  | none =>
    rw [hdg] at h
    simp at h
  | some room =>
    rw [hdg] at h
    dsimp only at h
    split_ifs at h with h1 h2
    · simp at h
    · simp at h
    · cases hsr : start_round_room room (m.shufflers m.gameCount) with
      | error e =>
        rw [hsr] at h
        simp at h
      | ok roomS =>
        rw [hsr] at h
        have hA := congrArg Prod.fst h
        exact ⟨room, roomS, rfl, hsr, hA.symm⟩

/-- Inversion of a successful `player_action`: every check passed — the
room exists, is in `player_turns` with an active game, the caller sits at
the current unresolved seat — and the manager stores the acted room. -/
theorem player_action_ok (m : RoomManager) (rid pid act : String)
    (m' : RoomManager)
    (h : m.player_action rid pid act = (m', .ok ())) :
    ∃ room g, dictGet m.rooms rid = some room ∧
      room.phase = "player_turns" ∧
      room.game = some g ∧
      (room.seats.getD room.current_player_index default).resolved = false ∧
      m' = { m with rooms := dictSet m.rooms rid
                      (apply_action_room room g room.current_player_index
                        (strTrim (strLower act))) } := by
  unfold RoomManager.player_action at h
  cases hdg : dictGet m.rooms rid with
  | none =>
    rw [hdg] at h
    simp at h
  | some room =>
    rw [hdg] at h
    dsimp only at h
    by_cases h1 : room.phase ≠ "player_turns"
    · rw [if_pos h1] at h
      simp at h
    · rw [if_neg h1] at h
      by_cases h2 : room.find_player_index pid = -1
      · rw [if_pos h2] at h
        simp at h
      · rw [if_neg h2] at h
        by_cases h3 : room.find_player_index pid ≠
            (room.current_player_index : Int)
        · rw [if_pos h3] at h
          simp at h
        · rw [if_neg h3] at h
          by_cases h4 : (room.seats.getD (room.find_player_index pid).toNat
              default).resolved = true
          · rw [if_pos h4] at h
            simp at h
          · rw [if_neg h4] at h
            by_cases h5 : strTrim (strLower act) ≠ "hit" ∧
                strTrim (strLower act) ≠ "stand"
            · rw [if_pos h5] at h
              simp at h
            · rw [if_neg h5] at h
              cases hg : room.game with
              | none =>
                rw [hg] at h
                simp at h
              | some g =>
                rw [hg] at h
                dsimp only at h
                have hidx : (room.find_player_index pid).toNat =
                    room.current_player_index := by
                  rw [not_not.mp h3]
                  exact Int.toNat_natCast _
                refine ⟨room, g, rfl, not_not.mp h1, hg, ?_, ?_⟩
                · rw [← hidx]
                  exact Bool.eq_false_iff.mpr h4
                · have hA := congrArg Prod.fst h
                  dsimp only at hA
                  rw [← hA, hidx]

/-- C3: within a round, every room stored by a successful `start_game`
satisfies the turn invariant, and every successful `player_action` preserves
it while never moving `current_player_index` to a smaller index during
`player_turns`; a seat that was already finished (resolved, stood, over 21,
or holding 5 cards) is never selected as the current turn again and stays
finished. -/
theorem turn_index_monotone :
    (∀ (m : RoomManager) (rid pid : String) (m' : RoomManager)
        (room' : Room),
        m.start_game rid pid = (m', .ok ()) →
        dictGet m'.rooms rid = some room' →
        RoomInv room') ∧
    (∀ (m : RoomManager) (rid pid act : String) (room : Room)
        (m' : RoomManager) (room' : Room),
        dictGet m.rooms rid = some room →
        RoomInv room →
        m.player_action rid pid act = (m', .ok ()) →
        dictGet m'.rooms rid = some room' →
        RoomInv room' ∧
        (room'.phase = "player_turns" →
          room.current_player_index ≤ room'.current_player_index) ∧
        (∀ j, seatFinished room j = true →
          room'.phase = "player_turns" →
          room'.current_player_index ≠ j ∧ seatFinished room' j = true)) := by
  constructor
  · intro m rid pid m' room' hstart hget
    obtain ⟨room, roomS, hdg, hsr, hm'⟩ := start_game_ok m rid pid m' hstart
    rw [hm'] at hget
    dsimp only at hget
    rw [dictGet_dictSet_self] at hget
    have hr' := Option.some.inj hget
    rw [← hr']
    exact start_round_room_inv room _ _ hsr
  · intro m rid pid act room m' room' hdg hInv hact hget
    obtain ⟨room0, g, hdg0, hph, hg, hres, hm'⟩ :=
      player_action_ok m rid pid act m' hact
    have hroom : room0 = room := by
      rw [hdg0] at hdg
      exact Option.some.inj hdg
    subst hroom
    obtain ⟨g', hg', hlen, hcur, hunf, hprev⟩ := hInv hph
    have hgg : g' = g := by
      rw [hg] at hg'
      exact (Option.some.inj hg').symm
    subst hgg
    rw [hm'] at hget
    dsimp only at hget
    rw [dictGet_dictSet_self] at hget
    have hr' := Option.some.inj hget
    rw [← hr']
    have hmain := apply_action_room_turn room0 g' (strTrim (strLower act))
      hph hlen hcur hunf hprev
    refine ⟨hmain.1, hmain.2.1, ?_⟩
    intro j hjf hph'
    have hjf' : seatFinishedWith room0 g' j = true := by
      unfold seatFinished at hjf
      rw [hg] at hjf
      exact hjf
    exact hmain.2.2 j hjf' hph'

/-- A concrete registry holding `playingRoom` mid-round. -/
def actionManager : RoomManager :=
  { rooms := [("R", playingRoom)], uuids := fun _ => "aaaabbbbcccc",
    uuidCount := 0, shufflers := fun _ _ => fullDeck, gameCount := 0 }

/-- The room stored after seat 0 (`"h"`) stands in `playingRoom`. -/
def actedRoom : Room :=
  (dictGet (actionManager.player_action "R" "h" "stand").1.rooms "R").getD
    default

/-- Closed witness for C3: after the current seat stands, the round is still
in `player_turns`, the turn index did not decrease, and the invariant
holds. -/
theorem turn_index_monotone_witness :
    actedRoom.phase = "player_turns" ∧
    playingRoom.current_player_index ≤ actedRoom.current_player_index ∧
    RoomInv actedRoom := by
  have h := turn_index_monotone.2 actionManager "R" "h" "stand" playingRoom
    (actionManager.player_action "R" "h" "stand").1 actedRoom rfl
    (fun _ => ⟨witnessDealtGame, rfl, by decide, by decide, by decide,
      fun j hj => absurd hj (Nat.not_lt_zero j)⟩)
    rfl rfl
  have hph : actedRoom.phase = "player_turns" := by decide
  exact ⟨hph, h.2.1 hph, h.1⟩

/-- The part of a player record that `evaluate_winner` and the natural
tests read: the hand and the stored score. -/
def pcore (p : Player) : List Card × Nat := (p.hand, p.score)

/-- Two game states agreeing on everything the winner evaluation reads:
player count, the dealer record, and every player's hand and score. -/
def gameCoreEq (g g' : Game) : Prop :=
  g.players.length = g'.players.length ∧ g.dealer = g'.dealer ∧
  ∀ k, pcore (g.players.getD k default) = pcore (g'.players.getD k default)

theorem gameCoreEq_refl (g : Game) : gameCoreEq g g :=
  ⟨rfl, rfl, fun _ => rfl⟩

theorem gameCoreEq_trans {a b c : Game} (h1 : gameCoreEq a b)
    (h2 : gameCoreEq b c) : gameCoreEq a c :=
  ⟨h1.1.trans h2.1, h1.2.1.trans h2.2.1,
    fun k => (h1.2.2 k).trans (h2.2.2 k)⟩

/-- The three hand-shape tests of `evaluate_winner` and the stored score
are functions of the player's core. -/
theorem flags_of_pcore (p q : Player) (h : pcore p = pcore q) :
    is_blackjack_p p = is_blackjack_p q ∧
    is_golden_blackjack_p p = is_golden_blackjack_p q ∧
    is_spirit p = is_spirit q ∧ p.score = q.score := by
  have h1 : p.hand = q.hand := congrArg Prod.fst h
  have h2 : p.score = q.score := congrArg Prod.snd h
  unfold is_blackjack_p is_golden_blackjack_p is_spirit
  rw [h1, h2]
  exact ⟨rfl, rfl, rfl, rfl⟩

/-- The two natural tests of `app/main.py` are functions of the player's
core. -/
theorem app_flags_of_pcore (p q : Player) (h : pcore p = pcore q) :
    appIsBlackjack p = appIsBlackjack q ∧
    appIsGoldenBlackjack p = appIsGoldenBlackjack q := by
  have h1 : p.hand = q.hand := congrArg Prod.fst h
  have h2 : p.score = q.score := congrArg Prod.snd h
  unfold appIsBlackjack appIsGoldenBlackjack
  rw [h1, h2]
  exact ⟨rfl, rfl⟩

/-- `evaluate_winner` reads only the examined player's core and the
dealer's core. -/
theorem evaluate_winner_core_congr (g g' : Game) (i i' : Nat)
    (hp : pcore (g.players.getD i default) =
      pcore (g'.players.getD i' default))
    (hd : pcore g.dealer = pcore g'.dealer) :
    g.evaluate_winner i = g'.evaluate_winner i' := by
  obtain ⟨hb, hg, hs, hsc⟩ := flags_of_pcore _ _ hp
  obtain ⟨hb', hg', hs', hsc'⟩ := flags_of_pcore _ _ hd
  unfold Game.evaluate_winner
  dsimp only
  rw [hb, hg, hs, hsc, hb', hg', hs', hsc']

/-- `check_player` changes only the examined player's result string. -/
theorem check_player_coreEq (g : Game) (i : Nat) :
    gameCoreEq (g.check_player i) g := by
  refine ⟨check_player_players_length g i, ?_, ?_⟩
  · unfold Game.check_player
    split_ifs <;> rfl
  · intro k
    unfold Game.check_player
    split_ifs with h
    · dsimp only
      by_cases hk : i = k
      · subst hk
        rw [getD_set_self _ _ _ _ h]
        rfl
      · rw [getD_set_ne _ _ _ _ _ hk]
    · rfl

/-- The result stored by an in-range `check_player`. -/
theorem check_player_result (g : Game) (i : Nat) (h : i < g.players.length) :
    ((g.check_player i).players.getD i default).result =
      g.evaluate_winner i := by
  unfold Game.check_player
  rw [if_pos h]
  dsimp only
  rw [getD_set_self _ _ _ _ h]

/-- A fold whose step keeps the game's core keeps it globally. -/
theorem foldl_coreEq (f : Room × Game → Nat → Room × Game)
    (hf : ∀ acc x, gameCoreEq (f acc x).2 acc.2) :
    ∀ (l : List Nat) (acc : Room × Game),
      gameCoreEq (l.foldl f acc).2 acc.2 := by
  intro l
  induction l with
  | nil => intro acc; exact gameCoreEq_refl _
  | cons x xs ih =>
    intro acc
    exact gameCoreEq_trans (ih (f acc x)) (hf acc x)

/-- One natural-resolution step keeps the game's core. -/
theorem resolveNaturalStep_coreEq (acc : Room × Game) (x : Nat) :
    gameCoreEq (resolveNaturalStep acc x).2 acc.2 := by
  unfold resolveNaturalStep
  dsimp only
  split_ifs
  · exact check_player_coreEq _ _
  · exact gameCoreEq_refl _

/-- `_resolve_initial_naturals` keeps the game's core (it only writes
result strings). -/
theorem resolve_initial_naturals_coreEq (r : Room) (g : Game) :
    gameCoreEq (resolve_initial_naturals r g).2 g :=
  foldl_coreEq resolveNaturalStep resolveNaturalStep_coreEq _ (r, g)

/-- `_resolve_initial_naturals` never touches the dealer. -/
theorem resolve_initial_naturals_dealer (r : Room) (g : Game) :
    (resolve_initial_naturals r g).2.dealer = g.dealer :=
  (resolve_initial_naturals_coreEq r g).2.1

/-- The per-player dealing loop never touches the dealer. -/
theorem dealToPlayers_dealer (ps : List Player) :
    ∀ g : Game, (dealToPlayers g ps).2.dealer = g.dealer := by
  induction ps with
  | nil => intro g; rfl
  | cons p ps ih =>
    intro g
    unfold dealToPlayers
    rcases hdc : g.draw_card with ⟨c, g'⟩
    have hfr := (draw_card_frame g).2.1
    rw [hdc] at hfr
    rcases hrest : dealToPlayers g' ps with ⟨rest, g2⟩
    have h := ih g'
    rw [hrest] at h
    dsimp only at h hfr
    simp only [hdc, hrest]
    exact h.trans hfr

/-- One dealing pass gives the dealer exactly one more card. -/
theorem dealPass_dealer (g : Game) :
    ∃ c, g.dealPass.dealer = g.dealer.add_card c := by
  unfold Game.dealPass
  rcases hdp : dealToPlayers g g.players with ⟨ps, g1⟩
  have h1 : g1.dealer = g.dealer := by
    have h := dealToPlayers_dealer g.players g
    rw [hdp] at h
    exact h
  rcases hdc : ({ g1 with players := ps } : Game).draw_card with ⟨c, g3⟩
  have h2 : g3.dealer = g1.dealer := by
    have h := (draw_card_frame { g1 with players := ps }).2.1
    rw [hdc] at h
    exact h
  refine ⟨c, ?_⟩
  simp only [hdc]
  rw [h2, h1]

/-- The initial deal gives the dealer exactly two cards (on top of its
starting hand). -/
theorem deal_initial_cards_dealer (g : Game) :
    ∃ c1 c2,
      g.deal_initial_cards.dealer = (g.dealer.add_card c1).add_card c2 := by
  unfold Game.deal_initial_cards
  obtain ⟨c1, hc1⟩ := dealPass_dealer g
  obtain ⟨c2, hc2⟩ := dealPass_dealer g.dealPass
  exact ⟨c1, c2, by rw [hc2, hc1]⟩

/-- Only the ace's enum value prints as `"A"`. -/
theorem rank_value_A (r : Rank) (h : r.value = "A") : r = Rank.ace := by
  cases r <;> revert h <;> decide

/-- The engine's golden-blackjack test agrees with the app layer's (rank
equality against the ace versus rank value against `"A"`). -/
theorem golden_eq (p : Player) :
    is_golden_blackjack_p p = appIsGoldenBlackjack p := by
  unfold is_golden_blackjack_p appIsGoldenBlackjack
  have h : (fun card : Card => decide (card.rank = Rank.ace)) =
      fun card : Card => decide (card.rank.value = "A") := by
    funext c
    rcases c with ⟨s, r⟩
    cases r <;> rfl
  rw [h]

/-- Any two aces score 21 for the dealer (base 0, candidates
`{2, 11, 12, 20, 21, 22}`, maximum valid candidate 21). -/
theorem two_ace_score (a b : Card) (ha : a.rank = Rank.ace)
    (hb : b.rank = Rank.ace) : calculate_score [a, b] true = 21 := by
  have h1 : specBase [a, b] = 0 := by
    simp [specBase, List.filter_cons, ha, hb]
  have h2 : countAces [a, b] = 2 := by
    simp [countAces, List.filter_cons, ha, hb]
  simp only [calculate_score, scoreCounts_eq, h1, h2]
  decide

/-- A dealer whose stored score matches its hand and who holds a natural
stores the score 21 (a blackjack by definition; a golden blackjack because
two aces score 21). -/
theorem dealer_natural_21 (d : Player)
    (hs : d.score = calculate_score d.hand d.is_dealer)
    (hd : d.is_dealer = true)
    (hnat : (appIsBlackjack d || appIsGoldenBlackjack d) = true) :
    d.score = 21 := by
  rw [Bool.or_eq_true] at hnat
  rcases hnat with h | h
  · unfold appIsBlackjack at h
    rw [Bool.and_eq_true] at h
    exact of_decide_eq_true h.2
  · unfold appIsGoldenBlackjack at h
    rw [Bool.and_eq_true] at h
    obtain ⟨hl, hall⟩ := h
    obtain ⟨a, b, hab⟩ := List.length_eq_two.mp (of_decide_eq_true hl)
    rw [hab] at hall
    simp only [List.all_cons, List.all_nil, Bool.and_true,
      Bool.and_eq_true, decide_eq_true_eq] at hall
    rw [hs, hd, hab,
      two_ace_score a b (rank_value_A _ hall.1) (rank_value_A _ hall.2)]

/-- The dealer loop never touches the player list. -/
theorem dealerPlayAux_players (fuel : Nat) :
    ∀ g : Game, (dealerPlayAux fuel g).players = g.players := by
  induction fuel with
  | zero => intro g; rfl
  | succ n ih =>
    intro g
    rw [dealerPlayAux]
    split_ifs
    · rw [ih]
      unfold dealerHit
      rcases hdc : g.draw_card with ⟨c, g'⟩
      have h := (draw_card_frame g).1
      rw [hdc] at h
      exact h
    · rfl

/-- The dealer loop never touches the player list. -/
theorem dealerPlay_players (g : Game) :
    (dealerPlay g).players = g.players :=
  dealerPlayAux_players _ g

/-- A dealer already at score 15 or more draws nothing. -/
theorem dealerPlay_id_of_high_score (g : Game) (h : 15 ≤ g.dealer.score) :
    dealerPlay g = g := by
  rw [dealerPlay_eq, if_neg]
  intro hc
  exact absurd hc.2 (Nat.not_lt.mpr h)

/-- Acting on a room that is not in `player_turns` raises 400 and leaves
the manager unchanged. -/
theorem player_action_wrong_phase (m : RoomManager) (rid pid act : String)
    (room : Room) (hdg : dictGet m.rooms rid = some room)
    (h : room.phase ≠ "player_turns") :
    m.player_action rid pid act =
      (m, .error ⟨400, "Not in player turns"⟩) := by
  unfold RoomManager.player_action
  rw [hdg]
  dsimp only
  rw [if_pos h]

theorem finalizeSeatStep_seats (acc : Room × Game) (x : Nat) :
    (finalizeSeatStep acc x).1.seats = acc.1.seats.set x
      { acc.1.seats.getD x default with
          resolved := true,
          result := ((acc.2.check_player x).players.getD x default).result } :=
  rfl

theorem finalizeSeatStep_game (acc : Room × Game) (x : Nat) :
    (finalizeSeatStep acc x).2 = acc.2.check_player x :=
  rfl

/-- The finalization fold: the game's core is kept, untouched seats are
kept, and every processed (in-range, distinct) seat ends resolved with the
winner evaluation of the game the fold started from. -/
theorem finalize_fold (l : List Nat) :
    ∀ acc : Room × Game, l.Nodup →
      (∀ j ∈ l, j < acc.2.players.length) →
      gameCoreEq (l.foldl finalizeSeatStep acc).2 acc.2 ∧
      (l.foldl finalizeSeatStep acc).1.seats.length = acc.1.seats.length ∧
      (∀ j, j ∉ l →
        (l.foldl finalizeSeatStep acc).1.seats.getD j default =
          acc.1.seats.getD j default) ∧
      (∀ j ∈ l, j < acc.1.seats.length →
        (l.foldl finalizeSeatStep acc).1.seats.getD j default =
          { acc.1.seats.getD j default with
              resolved := true,
              result := acc.2.evaluate_winner j }) := by
  induction l with
  | nil =>
    intro acc _ _
    exact ⟨gameCoreEq_refl _, rfl, fun j _ => rfl,
      fun j hj => absurd hj (List.not_mem_nil j)⟩
  | cons x xs ih =>
    intro acc hnd hbound
    obtain ⟨hnx, hndxs⟩ := List.nodup_cons.mp hnd
    have hxb : x < acc.2.players.length := hbound x (List.mem_cons_self x xs)
    have hplen : (finalizeSeatStep acc x).2.players.length =
        acc.2.players.length := by
      rw [finalizeSeatStep_game]
      exact check_player_players_length _ _
    have ihh := ih (finalizeSeatStep acc x) hndxs (fun j hj => by
      rw [hplen]
      exact hbound j (List.mem_cons_of_mem x hj))
    have hcore : gameCoreEq (finalizeSeatStep acc x).2 acc.2 := by
      rw [finalizeSeatStep_game]
      exact check_player_coreEq _ _
    rw [List.foldl_cons]
    refine ⟨gameCoreEq_trans ihh.1 hcore, ?_, ?_, ?_⟩
    · rw [ihh.2.1, finalizeSeatStep_seats, List.length_set]
    · intro j hj
      have hjx : j ≠ x := fun he => hj (he ▸ List.mem_cons_self x xs)
      have hjxs : j ∉ xs := fun he => hj (List.mem_cons_of_mem x he)
      rw [ihh.2.2.1 j hjxs, finalizeSeatStep_seats,
        getD_set_ne _ _ _ _ _ (Ne.symm hjx)]
    · intro j hjmem hjlt
      rcases List.mem_cons.mp hjmem with rfl | hjxs
      · rw [ihh.2.2.1 j hnx, finalizeSeatStep_seats,
          getD_set_self _ _ _ _ hjlt, check_player_result _ _ hxb]
      · have hxj : x ≠ j := fun he => hnx (he ▸ hjxs)
        have hjlt' : j < (finalizeSeatStep acc x).1.seats.length := by
          rw [finalizeSeatStep_seats, List.length_set]
          exact hjlt
        rw [ihh.2.2.2 j hjxs hjlt', finalizeSeatStep_seats,
          getD_set_ne _ _ _ _ _ hxj,
          evaluate_winner_core_congr (finalizeSeatStep acc x).2 acc.2 j j
            (hcore.2.2 j) (congrArg pcore hcore.2.1)]

/-- `finalizeSeats` resolves every seat with the evaluation of the game it
was given. -/
theorem finalizeSeats_spec (room : Room) (g : Game)
    (hlen : g.players.length = room.seats.length) :
    (finalizeSeats room g).1.seats.length = room.seats.length ∧
    ∀ j, j < room.seats.length →
      (finalizeSeats room g).1.seats.getD j default =
        { room.seats.getD j default with
            resolved := true,
            result := g.evaluate_winner j } := by
  have h := finalize_fold (List.range room.seats.length) (room, g)
    (List.nodup_range _)
    (fun j hj => by
      rw [hlen]
      exact List.mem_range.mp hj)
  exact ⟨h.2.1, fun j hj => h.2.2.2 j (List.mem_range.mpr hj) hj⟩

/-- `_run_dealer_and_finalize`: the phase becomes `results` and every seat
is resolved with the evaluation against the dealer's finished hand. -/
theorem run_dealer_and_finalize_spec (room : Room) (g : Game)
    (hlen : g.players.length = room.seats.length) :
    (run_dealer_and_finalize room g).1.phase = "results" ∧
    (run_dealer_and_finalize room g).1.seats.length = room.seats.length ∧
    ∀ j, j < room.seats.length →
      (run_dealer_and_finalize room g).1.seats.getD j default =
        { room.seats.getD j default with
            resolved := true,
            result := (dealerPlay g).evaluate_winner j } := by
  have hlen' : (dealerPlay g).players.length = room.seats.length := by
    rw [dealerPlay_players]
    exact hlen
  have h := finalizeSeats_spec room (dealerPlay g) hlen'
  unfold run_dealer_and_finalize
  dsimp only
  rcases hf : finalizeSeats room (dealerPlay g) with ⟨room2, g2⟩
  rw [hf] at h
  dsimp only
  exact ⟨rfl, h.1, h.2⟩

/-- A successful `Game(n)` construction creates the standard dealer. -/
theorem Game.init_dealer (n : Nat) (sh : Nat → List Card) (g0 : Game)
    (h : Game.init n sh = .ok g0) :
    g0.dealer = Player.init "Dealer" true := by
  unfold Game.init at h
  split_ifs at h
  cases h
  rfl

/-- The dealt engine's dealer is the fresh dealer with exactly two cards
added. -/
theorem dealtOf_dealer (room : Room) (g0 : Game) :
    ∃ c1 c2,
      (dealtOf room g0).dealer = (g0.dealer.add_card c1).add_card c2 := by
  unfold dealtOf
  exact deal_initial_cards_dealer _

/-- With a 21-scoring dealer, the round built on the resolved pair
finalizes every seat with the evaluation of the dealt game: the dealer
draws nothing. -/
theorem natural_dealer_finalize (room1 : Room) (g3 : Game)
    (hlen : g3.players.length = room1.seats.length)
    (hs21 : g3.dealer.score = 21) :
    ∀ j, j < room1.seats.length →
      ((run_dealer_and_finalize (resolve_initial_naturals room1 g3).1
          (resolve_initial_naturals room1 g3).2).1.seats.getD j
            default).resolved = true ∧
      ((run_dealer_and_finalize (resolve_initial_naturals room1 g3).1
          (resolve_initial_naturals room1 g3).2).1.seats.getD j
            default).result = g3.evaluate_winner j := by
  intro j hj
  have hcore := resolve_initial_naturals_coreEq room1 g3
  have hlens := resolve_initial_naturals_lengths room1 g3
  have hlen2 : (resolve_initial_naturals room1 g3).2.players.length =
      (resolve_initial_naturals room1 g3).1.seats.length := by
    rw [hcore.1, hlens.1]
    exact hlen
  have hdpl : dealerPlay (resolve_initial_naturals room1 g3).2 =
      (resolve_initial_naturals room1 g3).2 := by
    apply dealerPlay_id_of_high_score
    rw [resolve_initial_naturals_dealer room1 g3, hs21]
    decide
  have hspec := run_dealer_and_finalize_spec
    (resolve_initial_naturals room1 g3).1
    (resolve_initial_naturals room1 g3).2 hlen2
  have hj1 : j < (resolve_initial_naturals room1 g3).1.seats.length := by
    rw [hlens.1]
    exact hj
  have hseat := hspec.2.2 j hj1
  rw [hseat]
  refine ⟨rfl, ?_⟩
  dsimp only
  rw [hdpl]
  exact evaluate_winner_core_congr _ _ j j (hcore.2.2 j)
    (congrArg pcore hcore.2.1)

/-- `_run_dealer_and_finalize` keeps the number of seats. -/
theorem run_dealer_and_finalize_seats_length (room : Room) (g : Game) :
    (run_dealer_and_finalize room g).1.seats.length = room.seats.length := by
  unfold run_dealer_and_finalize
  dsimp only
  rcases hf : finalizeSeats room (dealerPlay g) with ⟨r2, g2⟩
  have h := (finalizeSeats_lengths room (dealerPlay g)).1
  rw [hf] at h
  exact h

/-- C5: when the dealt dealer hand is a blackjack or golden blackjack,
`start_game` finalizes the round before returning: the phase is `results`,
every seat is resolved and carries the evaluation of the dealt game (the
dealer draws no further card), no player action can ever run in that round,
and a non-natural seat 0 against a golden-blackjack dealer gets
`"Dealer wins with Golden Blackjack"`. -/
theorem dealer_natural_short_circuit (room : Room) (sh : Nat → List Card)
    (g0 : Game) (room' : Room)
    (hinit : Game.init room.seats.length sh = .ok g0)
    (hnat : (appIsBlackjack (dealtOf room g0).dealer ||
      appIsGoldenBlackjack (dealtOf room g0).dealer) = true)
    (hstart : start_round_room room sh = .ok room') :
    room'.phase = "results" ∧
    room'.seats.length = room.seats.length ∧
    (∀ j, j < room.seats.length →
      (room'.seats.getD j default).resolved = true ∧
      (room'.seats.getD j default).result =
        (dealtOf room g0).evaluate_winner j) ∧
    (∀ (m : RoomManager) (rid pid act : String),
      dictGet m.rooms rid = some room' →
      m.player_action rid pid act =
        (m, .error ⟨400, "Not in player turns"⟩)) ∧
    (appIsGoldenBlackjack (dealtOf room g0).dealer = true →
      appIsBlackjack ((dealtOf room g0).players.getD 0 default) = false →
      appIsGoldenBlackjack ((dealtOf room g0).players.getD 0 default) =
        false →
      0 < room.seats.length →
      (room'.seats.getD 0 default).result =
        "Dealer wins with Golden Blackjack") := by
  obtain ⟨hn, hp⟩ := Game.init_ok _ _ _ hinit
  have hd0 := Game.init_dealer _ _ _ hinit
  obtain ⟨c1, c2, hd3⟩ := dealtOf_dealer room g0
  rw [hd0] at hd3
  have hs21 : (dealtOf room g0).dealer.score = 21 := by
    refine dealer_natural_21 _ ?_ ?_ hnat
    · rw [hd3]
      rfl
    · rw [hd3]
      rfl
  unfold start_round_room at hstart
  rw [hinit] at hstart
  dsimp only at hstart
  rw [resolve_initial_naturals_dealer] at hstart
  rw [if_pos hnat] at hstart
  have hx := Except.ok.inj hstart
  subst hx
  set R1 : Room :=
    { room with
        phase := "player_turns",
        current_player_index := 0,
        seats := room.seats.map fun seat =>
          { seat with stood := false, resolved := false, result := "" } }
    with hR1
  have hlenG : (dealtOf room g0).players.length = R1.seats.length := by
    rw [hR1, dealtOf_players_length]
    simp [hn, hp]
  have hlseats : R1.seats.length = room.seats.length := by
    rw [hR1]
    simp
  have hall := natural_dealer_finalize R1 (dealtOf room g0) hlenG hs21
  refine ⟨run_dealer_and_finalize_phase
      (resolve_initial_naturals R1 (dealtOf room g0)).1
      (resolve_initial_naturals R1 (dealtOf room g0)).2, ?_, ?_, ?_, ?_⟩
  · exact (run_dealer_and_finalize_seats_length
        (resolve_initial_naturals R1 (dealtOf room g0)).1
        (resolve_initial_naturals R1 (dealtOf room g0)).2).trans
      ((resolve_initial_naturals_lengths R1 (dealtOf room g0)).1.trans
        hlseats)
  · intro j hj
    exact hall j (by rw [hlseats]; exact hj)
  · intro m rid pid act hdg
    refine player_action_wrong_phase m rid pid act _ hdg ?_
    intro hc
    exact absurd ((run_dealer_and_finalize_phase
        (resolve_initial_naturals R1 (dealtOf room g0)).1
        (resolve_initial_naturals R1 (dealtOf room g0)).2).symm.trans hc)
      (by decide)
  · intro hg hb0 hg0 h0
    have heval : (dealtOf room g0).evaluate_winner 0 =
        "Dealer wins with Golden Blackjack" := by
      unfold Game.evaluate_winner
      dsimp only
      have h1 : is_golden_blackjack_p
          ((dealtOf room g0).players.getD 0 default) = false := by
        rw [golden_eq]
        exact hg0
      have h2 : is_golden_blackjack_p (dealtOf room g0).dealer = true := by
        rw [golden_eq]
        exact hg
      rw [h1, h2]
      simp
    exact (hall 0 (by rw [hlseats]; exact h0)).2.trans heval

/-- A concrete one-seat waiting room. -/
def goldenRoom : Room :=
  { room_id := "G", host_id := "h",
    seats := [⟨"h", "ann", false, false, ""⟩],
    max_players := 1 }

/-- A four-card deck whose pop order deals king/queen to the player and the
two aces to the dealer. -/
def goldenShuffle : Nat → List Card := fun _ =>
  [⟨Suit.diamonds, Rank.ace⟩, ⟨Suit.hearts, Rank.queen⟩,
    ⟨Suit.spades, Rank.ace⟩, ⟨Suit.hearts, Rank.king⟩]

/-- The fresh engine of the golden-dealer round. -/
def goldenG0 : Game := (Game.init 1 goldenShuffle).toOption.getD default

/-- The room stored by the golden-dealer `start_game`. -/
def goldenRoom' : Room :=
  (start_round_room goldenRoom goldenShuffle).toOption.getD default

/-- Closed witness for C5: with the dealer dealt two aces against one
20-scoring player, the start call returns a `results` room whose only seat
is resolved with `"Dealer wins with Golden Blackjack"`. -/
theorem dealer_natural_short_circuit_witness :
    goldenRoom'.phase = "results" ∧
    (goldenRoom'.seats.getD 0 default).resolved = true ∧
    (goldenRoom'.seats.getD 0 default).result =
      "Dealer wins with Golden Blackjack" := by
  have h := dealer_natural_short_circuit goldenRoom goldenShuffle goldenG0
    goldenRoom' rfl (by decide) rfl
  exact ⟨h.1, (h.2.2.1 0 (by decide)).1,
    h.2.2.2.2 (by decide) (by decide) (by decide) (by decide)⟩

/-- The dealer loop never shrinks the dealer's hand. -/
theorem dealerPlayAux_hand_le (fuel : Nat) :
    ∀ g : Game, g.dealer.hand.length ≤
      (dealerPlayAux fuel g).dealer.hand.length := by
  induction fuel with
  | zero => intro g; exact Nat.le_refl _
  | succ n ih =>
    intro g
    rw [dealerPlayAux]
    split_ifs
    · have h := ih (dealerHit g)
      rw [dealerHit_hand_length] at h
      omega
    · exact Nat.le_refl _

/-- A golden blackjack with a consistent stored score scores 21. -/
theorem golden_score (p : Player)
    (hs : p.score = calculate_score p.hand p.is_dealer)
    (hd : p.is_dealer = true) (hg : is_golden_blackjack_p p = true) :
    p.score = 21 := by
  rw [golden_eq] at hg
  exact dealer_natural_21 p hs hd (by rw [hg, Bool.or_true])

/-- The dealer loop either draws nothing, or it leaves a hand of three or
more cards having started below 15: in the latter case the dealer holds a
natural neither before nor after. -/
theorem dealerPlay_flags (g : Game)
    (hdok : g.dealer.score = calculate_score g.dealer.hand g.dealer.is_dealer)
    (hdd : g.dealer.is_dealer = true)
    (hlen2 : g.dealer.hand.length = 2) :
    dealerPlay g = g ∨
    (is_golden_blackjack_p (dealerPlay g).dealer = false ∧
     is_blackjack_p (dealerPlay g).dealer = false ∧
     is_golden_blackjack_p g.dealer = false ∧
     is_blackjack_p g.dealer = false) := by
  by_cases hc : g.dealer.hand.length < 5 ∧ g.dealer.score < 15
  · right
    have hb : is_blackjack_p g.dealer = false := by
      unfold is_blackjack_p
      have h : ¬ g.dealer.score = 21 := by omega
      simp [h]
    have hg1 : is_golden_blackjack_p g.dealer = false := by
      by_cases h : is_golden_blackjack_p g.dealer = true
      · have := golden_score g.dealer hdok hdd h
        omega
      · exact Bool.eq_false_iff.mpr h
    have h3 : 3 ≤ (dealerPlay g).dealer.hand.length := by
      rw [dealerPlay_eq, if_pos hc]
      have h := dealerPlayAux_hand_le
        (5 - (dealerHit g).dealer.hand.length) (dealerHit g)
      have h2 : (dealerHit g).dealer.hand.length = 3 := by
        rw [dealerHit_hand_length, hlen2]
      unfold dealerPlay
      omega
    have hb' : is_blackjack_p (dealerPlay g).dealer = false := by
      unfold is_blackjack_p
      have h : ¬ (dealerPlay g).dealer.hand.length = 2 := by omega
      simp [h]
    have hg' : is_golden_blackjack_p (dealerPlay g).dealer = false := by
      unfold is_golden_blackjack_p
      have h : ¬ (dealerPlay g).dealer.hand.length = 2 := by omega
      simp [h]
    exact ⟨hg', hb', hg1, hb⟩
  · left
    rw [dealerPlay_eq, if_neg hc]

/-- For a natural player the winner string is a function of the four
natural flags alone: the ladder never reaches the spirit or score
comparisons. -/
theorem eval_natural_congr (g g' : Game) (j j' : Nat)
    (hp : pcore (g.players.getD j default) =
      pcore (g'.players.getD j' default))
    (hnat : (appIsBlackjack (g.players.getD j default) ||
      appIsGoldenBlackjack (g.players.getD j default)) = true)
    (hg : is_golden_blackjack_p g.dealer = is_golden_blackjack_p g'.dealer)
    (hb : is_blackjack_p g.dealer = is_blackjack_p g'.dealer) :
    g.evaluate_winner j = g'.evaluate_winner j' := by
  obtain ⟨hbp, hgp, _, _⟩ := flags_of_pcore _ _ hp
  have hnat' : (is_blackjack_p (g.players.getD j default) ||
      is_golden_blackjack_p (g.players.getD j default)) = true := by
    rw [golden_eq]
    exact hnat
  unfold Game.evaluate_winner
  dsimp only
  set P := g.players.getD j default with hPd
  set Q := g'.players.getD j' default with hQd
  set D := g.dealer with hDd
  set E := g'.dealer with hEd
  rw [← hbp, ← hgp, ← hg, ← hb]
  rw [Bool.or_eq_true] at hnat'
  by_cases hpg : is_golden_blackjack_p P = true
  · by_cases hdg : is_golden_blackjack_p D = true
    · simp [hpg, hdg]
    · simp [hpg, hdg]
  · have hpb : is_blackjack_p P = true := by
      rcases hnat' with h | h
      · exact h
      · exact absurd h hpg
    by_cases hdg : is_golden_blackjack_p D = true
    · simp [hpg, hdg]
    · by_cases hdb : is_blackjack_p D = true
      · simp [hpg, hdg, hpb, hdb]
      · simp [hpg, hdg, hpb, hdb]

/-- Dealer auto-play does not change a natural player's winner string. -/
theorem eval_stable_dealerPlay (g : Game) (j : Nat)
    (hdok : g.dealer.score = calculate_score g.dealer.hand g.dealer.is_dealer)
    (hdd : g.dealer.is_dealer = true)
    (hlen2 : g.dealer.hand.length = 2)
    (hnat : (appIsBlackjack (g.players.getD j default) ||
      appIsGoldenBlackjack (g.players.getD j default)) = true) :
    (dealerPlay g).evaluate_winner j = g.evaluate_winner j := by
  rcases dealerPlay_flags g hdok hdd hlen2 with h | ⟨hg', hb', hg1, hb1⟩
  · rw [h]
  · refine eval_natural_congr (dealerPlay g) g j j ?_ ?_
      (hg'.trans hg1.symm) (hb'.trans hb1.symm)
    · rw [dealerPlay_players]
    · rw [dealerPlay_players]
      exact hnat

/-- The hit/stand step never touches the dealer. -/
theorem action_step_dealer (room : Room) (g : Game) (i : Nat) (a : String) :
    (action_step room g i a).2.dealer = g.dealer := by
  unfold action_step
  by_cases h : a = "hit"
  · rw [if_pos h]
    rcases hdc : g.draw_card with ⟨c, gd⟩
    have hfr := (draw_card_frame g).2.1
    rw [hdc] at hfr
    exact hfr
  · rw [if_neg h]

/-- The acted player either draws exactly one more card (hit) or is left
unchanged (stand, or an out-of-range index). -/
theorem action_step_entry_i (room : Room) (g : Game) (i : Nat) (a : String) :
    (∃ c, (action_step room g i a).2.players.getD i default =
      (g.players.getD i default).add_card c) ∨
    (action_step room g i a).2.players.getD i default =
      g.players.getD i default := by
  unfold action_step
  by_cases h : a = "hit"
  · rw [if_pos h]
    rcases hdc : g.draw_card with ⟨c, gd⟩
    have hps : gd.players = g.players := by
      have h2 := (draw_card_frame g).1
      rw [hdc] at h2
      exact h2
    dsimp only
    by_cases hi : i < gd.players.length
    · left
      exact ⟨c, by rw [getD_set_self _ _ _ _ hi, hps]⟩
    · right
      have h1 : (gd.players.set i
          ((gd.players.getD i default).add_card c)).length ≤ i := by
        rw [List.length_set]
        omega
      have h2 : g.players.length ≤ i := by
        rw [← hps]
        omega
      generalize hL : gd.players.set i
          ((gd.players.getD i default).add_card c) = L at h1 ⊢
      rw [List.getD_eq_getElem?_getD, List.getD_eq_getElem?_getD,
        List.getElem?_eq_none h1, List.getElem?_eq_none h2]
  · rw [if_neg h]
    right
    rfl

/-- Adding a card to a dealt (two-or-more card) hand cannot create a
natural. -/
theorem add_card_not_natural (p : Player) (c : Card)
    (h : 2 ≤ p.hand.length) :
    (appIsBlackjack (p.add_card c) ||
      appIsGoldenBlackjack (p.add_card c)) = false := by
  unfold appIsBlackjack appIsGoldenBlackjack Player.add_card
  dsimp only
  have hl : ¬ (p.hand ++ [c]).length = 2 := by
    rw [List.length_append]
    simp
    omega
  simp [hl]
  refine ⟨fun h1 => absurd h1 (by omega), fun h1 _ => absurd h1 (by omega)⟩

/-- Turn advancement never touches the seat list. -/
theorem turn_advance_seats (room' : Room) (g' : Game) (i : Nat) :
    (turn_advance room' g' i).seats = room'.seats := by
  unfold turn_advance
  split_ifs
  · exact advance_after_seats room' g' i
  · rfl

/-- `finalizeSeats` keeps the game's core. -/
theorem finalizeSeats_coreEq (room : Room) (g : Game) :
    gameCoreEq (finalizeSeats room g).2 g :=
  foldl_coreEq finalizeSeatStep
    (fun acc x => by
      rw [finalizeSeatStep_game]
      exact check_player_coreEq _ _) _ (room, g)

/-- The game stored by `_run_dealer_and_finalize` has the core of the
dealer's finished game. -/
theorem run_dealer_and_finalize_coreEq (room : Room) (g : Game) :
    gameCoreEq (run_dealer_and_finalize room g).2 (dealerPlay g) := by
  have h := finalizeSeats_coreEq room (dealerPlay g)
  unfold run_dealer_and_finalize
  dsimp only
  rcases hf : finalizeSeats room (dealerPlay g) with ⟨r2, g2⟩
  rw [hf] at h
  exact h

/-- The natural-snapshot invariant of a room holding a game: widths match,
every hand has been dealt at least two cards, during `player_turns` the
dealer still holds the dealt two-card hand with its computed score, and
every natural player's seat is resolved and carries exactly the winner
string of the stored game. -/
def SnapInv (room : Room) : Prop :=
  ∀ g, room.game = some g →
    g.players.length = room.seats.length ∧
    (∀ j, j < room.seats.length →
      2 ≤ (g.players.getD j default).hand.length) ∧
    (room.phase = "player_turns" →
      g.dealer.score = calculate_score g.dealer.hand g.dealer.is_dealer ∧
      g.dealer.is_dealer = true ∧ g.dealer.hand.length = 2) ∧
    (∀ j, j < room.seats.length →
      (appIsBlackjack (g.players.getD j default) ||
        appIsGoldenBlackjack (g.players.getD j default)) = true →
      (room.seats.getD j default).resolved = true ∧
      (room.seats.getD j default).result = g.evaluate_winner j)

/-- A room finalized by `_run_dealer_and_finalize` satisfies the
natural-snapshot invariant. -/
theorem finalized_room_snap (roomX : Room) (gX : Game)
    (hlen : gX.players.length = roomX.seats.length)
    (hh2 : ∀ j, j < roomX.seats.length →
      2 ≤ (gX.players.getD j default).hand.length) :
    SnapInv { (run_dealer_and_finalize roomX gX).1 with
        game := some (run_dealer_and_finalize roomX gX).2 } := by
  intro g hgeq
  have hg2 := Option.some.inj hgeq
  subst hg2
  have hcore := run_dealer_and_finalize_coreEq roomX gX
  have hspec := run_dealer_and_finalize_spec roomX gX hlen
  refine ⟨?_, ?_, ?_, ?_⟩
  · show (run_dealer_and_finalize roomX gX).2.players.length =
      (run_dealer_and_finalize roomX gX).1.seats.length
    rw [hcore.1, dealerPlay_players, hspec.2.1]
    exact hlen
  · intro j hj
    have hpc := hcore.2.2 j
    have hh : ((run_dealer_and_finalize roomX gX).2.players.getD j
        default).hand = ((dealerPlay gX).players.getD j default).hand :=
      congrArg Prod.fst hpc
    show 2 ≤ ((run_dealer_and_finalize roomX gX).2.players.getD j
      default).hand.length
    rw [hh, dealerPlay_players]
    apply hh2
    have hj' : j < (run_dealer_and_finalize roomX gX).1.seats.length := hj
    rw [hspec.2.1] at hj'
    exact hj'
  · intro hpt
    exact absurd ((run_dealer_and_finalize_phase roomX gX).symm.trans hpt)
      (by decide)
  · intro j hj hnat
    have hj' : j < roomX.seats.length := by
      have h : j < (run_dealer_and_finalize roomX gX).1.seats.length := hj
      rw [hspec.2.1] at h
      exact h
    have hseat := hspec.2.2 j hj'
    constructor
    · show ((run_dealer_and_finalize roomX gX).1.seats.getD j
        default).resolved = true
      rw [hseat]
    · show ((run_dealer_and_finalize roomX gX).1.seats.getD j
        default).result = (run_dealer_and_finalize roomX gX).2.evaluate_winner j
      rw [hseat]
      dsimp only
      exact (evaluate_winner_core_congr _ _ j j (hcore.2.2 j)
        (congrArg pcore hcore.2.1)).symm

/-- One action on the current (unresolved) seat preserves the
natural-snapshot invariant and leaves every natural seat's stored result
string untouched — including through dealer resolution, which re-evaluates
the seat but computes the same string. -/
theorem apply_action_room_snap (room : Room) (g : Game) (a : String)
    (hphase : room.phase = "player_turns")
    (hicur : room.current_player_index < room.seats.length)
    (hires : (room.seats.getD room.current_player_index default).resolved =
      false)
    (hlen : g.players.length = room.seats.length)
    (hh2 : ∀ j, j < room.seats.length →
      2 ≤ (g.players.getD j default).hand.length)
    (hdok : g.dealer.score = calculate_score g.dealer.hand g.dealer.is_dealer)
    (hdd : g.dealer.is_dealer = true)
    (hdl2 : g.dealer.hand.length = 2)
    (hseat : ∀ j, j < room.seats.length →
      (appIsBlackjack (g.players.getD j default) ||
        appIsGoldenBlackjack (g.players.getD j default)) = true →
      (room.seats.getD j default).resolved = true ∧
      (room.seats.getD j default).result = g.evaluate_winner j) :
    SnapInv (apply_action_room room g room.current_player_index a) ∧
    (apply_action_room room g room.current_player_index a).seats.length =
      room.seats.length ∧
    (∀ j, j < room.seats.length →
      (appIsBlackjack (g.players.getD j default) ||
        appIsGoldenBlackjack (g.players.getD j default)) = true →
      ((apply_action_room room g room.current_player_index a).seats.getD j
        default).resolved = true ∧
      ((apply_action_room room g room.current_player_index a).seats.getD j
        default).result = (room.seats.getD j default).result) := by
  have hfacts := action_step_facts room g room.current_player_index a
  have hdl := action_step_dealer room g room.current_player_index a
  have hei := action_step_entry_i room g room.current_player_index a
  have hc := apply_action_room_cases room g room.current_player_index a
  rcases hstep : action_step room g room.current_player_index a with
    ⟨room1, g1⟩
  rw [hstep] at hfacts hdl hei hc
  dsimp only at hfacts hdl hei hc
  obtain ⟨hsl, hpl, hph, hcc, hfr⟩ := hfacts
  have hpentry : ∀ j, j ≠ room.current_player_index →
      g1.players.getD j default = g.players.getD j default :=
    fun j hj => (hfr j hj).2
  have hsentry : ∀ j, j ≠ room.current_player_index →
      room1.seats.getD j default = room.seats.getD j default :=
    fun j hj => (hfr j hj).1
  have hh2' : ∀ j, j < room.seats.length →
      2 ≤ (g1.players.getD j default).hand.length := by
    intro j hj
    by_cases hji : j = room.current_player_index
    · rw [hji]
      rcases hei with ⟨c, he⟩ | he
      · rw [he]
        have h2 := hh2 _ hicur
        simp only [Player.add_card, List.length_append, List.length_cons,
          List.length_nil]
        omega
      · rw [he]
        exact hh2 _ hicur
    · rw [hpentry j hji]
      exact hh2 j hj
  have hnoti : (appIsBlackjack
      (g1.players.getD room.current_player_index default) ||
      appIsGoldenBlackjack
        (g1.players.getD room.current_player_index default)) = false := by
    rcases hei with ⟨c, he⟩ | he
    · rw [he]
      exact add_card_not_natural _ c (hh2 _ hicur)
    · rw [he]
      by_cases hn : (appIsBlackjack
          (g.players.getD room.current_player_index default) ||
          appIsGoldenBlackjack
            (g.players.getD room.current_player_index default)) = true
      · have h2 := (hseat _ hicur hn).1
        rw [h2] at hires
        cases hires
      · exact Bool.eq_false_iff.mpr hn
  have hnne : ∀ j, (appIsBlackjack (g.players.getD j default) ||
      appIsGoldenBlackjack (g.players.getD j default)) = true →
      j < room.seats.length → j ≠ room.current_player_index := by
    intro j hn hj he
    have h2 := (hseat j hj hn).1
    rw [he] at h2
    rw [h2] at hires
    cases hires
  have heval_pres : ∀ j, j ≠ room.current_player_index →
      g1.evaluate_winner j = g.evaluate_winner j := by
    intro j hj
    exact evaluate_winner_core_congr _ _ j j (by rw [hpentry j hj])
      (by rw [hdl])
  rcases hc with ⟨hnd, heq⟩ | ⟨hd, heq⟩
  · rw [heq]
    refine ⟨?_, ?_, ?_⟩
    · intro g2 hg2
      have hg2' := Option.some.inj hg2
      subst hg2'
      refine ⟨?_, ?_, ?_, ?_⟩
      · show g1.players.length =
          (turn_advance room1 g1 room.current_player_index).seats.length
        rw [turn_advance_seats, hsl]
        exact hpl.trans hlen
      · intro j hj
        have hjx : j <
            (turn_advance room1 g1 room.current_player_index).seats.length :=
          hj
        rw [turn_advance_seats, hsl] at hjx
        exact hh2' j hjx
      · intro _
        refine ⟨?_, ?_, ?_⟩
        · rw [hdl]
          exact hdok
        · rw [hdl]
          exact hdd
        · rw [hdl]
          exact hdl2
      · intro j hj hn
        have hjx : j <
            (turn_advance room1 g1 room.current_player_index).seats.length :=
          hj
        rw [turn_advance_seats, hsl] at hjx
        by_cases hji : j = room.current_player_index
        · subst hji
          rw [hnoti] at hn
          cases hn
        · have hng : (appIsBlackjack (g.players.getD j default) ||
              appIsGoldenBlackjack (g.players.getD j default)) = true := by
            rw [← hpentry j hji]
            exact hn
          obtain ⟨hr1, hr2⟩ := hseat j hjx hng
          constructor
          · show ((turn_advance room1 g1
                room.current_player_index).seats.getD j default).resolved =
              true
            rw [turn_advance_seats, hsentry j hji]
            exact hr1
          · show ((turn_advance room1 g1
                room.current_player_index).seats.getD j default).result =
              g1.evaluate_winner j
            rw [turn_advance_seats, hsentry j hji, hr2, heval_pres j hji]
    · show (turn_advance room1 g1
        room.current_player_index).seats.length = room.seats.length
      rw [turn_advance_seats, hsl]
    · intro j hj hn
      have hji := hnne j hn hj
      obtain ⟨hr1, hr2⟩ := hseat j hj hn
      constructor
      · show ((turn_advance room1 g1
            room.current_player_index).seats.getD j default).resolved = true
        rw [turn_advance_seats, hsentry j hji]
        exact hr1
      · show ((turn_advance room1 g1
            room.current_player_index).seats.getD j default).result =
          (room.seats.getD j default).result
        rw [turn_advance_seats, hsentry j hji]
  · rw [heq]
    have hlenTA : g1.players.length =
        (turn_advance room1 g1 room.current_player_index).seats.length := by
      rw [turn_advance_seats, hsl]
      exact hpl.trans hlen
    have hh2TA : ∀ j, j <
        (turn_advance room1 g1 room.current_player_index).seats.length →
        2 ≤ (g1.players.getD j default).hand.length := by
      intro j hj
      rw [turn_advance_seats, hsl] at hj
      exact hh2' j hj
    refine ⟨finalized_room_snap _ _ hlenTA hh2TA, ?_, ?_⟩
    · exact (run_dealer_and_finalize_seats_length _ _).trans
        (by rw [turn_advance_seats, hsl])
    · intro j hj hn
      have hji := hnne j hn hj
      have hj1 : j <
          (turn_advance room1 g1 room.current_player_index).seats.length := by
        rw [turn_advance_seats, hsl]
        exact hj
      have hspec := run_dealer_and_finalize_spec
        (turn_advance room1 g1 room.current_player_index) g1 hlenTA
      have hseatj := hspec.2.2 j hj1
      constructor
      · show ((run_dealer_and_finalize
            (turn_advance room1 g1 room.current_player_index)
            g1).1.seats.getD j default).resolved = true
        rw [hseatj]
      · show ((run_dealer_and_finalize
            (turn_advance room1 g1 room.current_player_index)
            g1).1.seats.getD j default).result =
          (room.seats.getD j default).result
        rw [hseatj]
        dsimp only
        have hst := eval_stable_dealerPlay g1 j
          (by rw [hdl]; exact hdok) (by rw [hdl]; exact hdd)
          (by rw [hdl]; exact hdl2)
          (by rw [hpentry j hji]; exact hn)
        rw [hst, heval_pres j hji, (hseat j hj hn).2]

theorem resolveNaturalStep_eq (acc : Room × Game) (x : Nat) :
    resolveNaturalStep acc x =
      if (appIsBlackjack (acc.2.players.getD x default) ||
          appIsGoldenBlackjack (acc.2.players.getD x default)) = true
      then
        ({ acc.1 with
            seats := acc.1.seats.set x
              { acc.1.seats.getD x default with
                  resolved := true,
                  result := ((acc.2.check_player x).players.getD x
                    default).result } },
          acc.2.check_player x)
      else acc := by
  unfold resolveNaturalStep
  dsimp only

/-- The natural-resolution fold: untouched seats are kept, and every
processed (in-range, distinct) seat is resolved with the winner string
exactly when its player holds a natural. -/
theorem resolve_fold (l : List Nat) :
    ∀ acc : Room × Game, l.Nodup →
      (∀ j ∈ l, j < acc.2.players.length) →
      (l.foldl resolveNaturalStep acc).1.seats.length =
        acc.1.seats.length ∧
      (∀ j, j ∉ l →
        (l.foldl resolveNaturalStep acc).1.seats.getD j default =
          acc.1.seats.getD j default) ∧
      (∀ j ∈ l, j < acc.1.seats.length →
        (l.foldl resolveNaturalStep acc).1.seats.getD j default =
          (if (appIsBlackjack (acc.2.players.getD j default) ||
              appIsGoldenBlackjack (acc.2.players.getD j default)) = true
          then { acc.1.seats.getD j default with
                   resolved := true,
                   result := acc.2.evaluate_winner j }
          else acc.1.seats.getD j default)) := by
  induction l with
  | nil =>
    intro acc _ _
    exact ⟨rfl, fun j _ => rfl, fun j hj => absurd hj (List.not_mem_nil j)⟩
  | cons x xs ih =>
    intro acc hnd hbound
    obtain ⟨hnx, hndxs⟩ := List.nodup_cons.mp hnd
    have hxb : x < acc.2.players.length := hbound x (List.mem_cons_self x xs)
    have hcore : gameCoreEq (resolveNaturalStep acc x).2 acc.2 :=
      resolveNaturalStep_coreEq acc x
    have hplen : (resolveNaturalStep acc x).2.players.length =
        acc.2.players.length := hcore.1
    have ihh := ih (resolveNaturalStep acc x) hndxs (fun j hj => by
      rw [hplen]
      exact hbound j (List.mem_cons_of_mem x hj))
    have hslen : (resolveNaturalStep acc x).1.seats.length =
        acc.1.seats.length := (resolveNaturalStep_lengths acc x).1
    have hoff : ∀ j, j ≠ x →
        (resolveNaturalStep acc x).1.seats.getD j default =
          acc.1.seats.getD j default := by
      intro j hj
      rw [resolveNaturalStep_eq]
      split_ifs
      · dsimp only
        rw [getD_set_ne _ _ _ _ _ (Ne.symm hj)]
      · rfl
    rw [List.foldl_cons]
    refine ⟨ihh.1.trans hslen, ?_, ?_⟩
    · intro j hj
      have hjx : j ≠ x := fun he => hj (he ▸ List.mem_cons_self x xs)
      have hjxs : j ∉ xs := fun he => hj (List.mem_cons_of_mem x he)
      rw [ihh.2.1 j hjxs, hoff j hjx]
    · intro j hjmem hjlt
      rcases List.mem_cons.mp hjmem with rfl | hjxs
      · rw [ihh.2.1 j hnx, resolveNaturalStep_eq]
        split_ifs with h
        · dsimp only
          rw [getD_set_self _ _ _ _ hjlt, check_player_result _ _ hxb]
        · rfl
      · have hxj : x ≠ j := fun he => hnx (he ▸ hjxs)
        have hjlt' : j < (resolveNaturalStep acc x).1.seats.length := by
          rw [hslen]
          exact hjlt
        have hflags : (appIsBlackjack
            ((resolveNaturalStep acc x).2.players.getD j default) ||
            appIsGoldenBlackjack
              ((resolveNaturalStep acc x).2.players.getD j default)) =
            (appIsBlackjack (acc.2.players.getD j default) ||
              appIsGoldenBlackjack (acc.2.players.getD j default)) := by
          obtain ⟨h1, h2⟩ := app_flags_of_pcore _ _ (hcore.2.2 j)
          rw [h1, h2]
        have hev : (resolveNaturalStep acc x).2.evaluate_winner j =
            acc.2.evaluate_winner j :=
          evaluate_winner_core_congr _ _ j j (hcore.2.2 j)
            (congrArg pcore hcore.2.1)
        rw [ihh.2.2 j hjxs hjlt', hflags, hev, hoff j (Ne.symm hxj)]

/-- The per-player dealing loop gives each player exactly one card. -/
theorem dealToPlayers_entry (ps : List Player) :
    ∀ (g : Game) (k : Nat), k < ps.length →
      ∃ c, (dealToPlayers g ps).1.getD k default =
        (ps.getD k default).add_card c := by
  induction ps with
  | nil =>
    intro g k hk
    exact absurd hk (by simp)
  | cons p ps ih =>
    intro g k hk
    unfold dealToPlayers
    rcases hdc : g.draw_card with ⟨c, g'⟩
    dsimp only
    rcases hrest : dealToPlayers g' ps with ⟨rest, g2⟩
    dsimp only
    cases k with
    | zero => exact ⟨c, rfl⟩
    | succ k =>
      obtain ⟨c2, hc2⟩ := ih g' k (by simpa using hk)
      rw [hrest] at hc2
      dsimp only at hc2
      refine ⟨c2, ?_⟩
      simp only [List.getD_cons_succ]
      exact hc2

/-- One dealing pass gives each player exactly one card. -/
theorem dealPass_entry (g : Game) (k : Nat) (hk : k < g.players.length) :
    ∃ c, g.dealPass.players.getD k default =
      (g.players.getD k default).add_card c := by
  unfold Game.dealPass
  rcases hdp : dealToPlayers g g.players with ⟨ps, g1⟩
  obtain ⟨c, hc⟩ := dealToPlayers_entry g.players g k hk
  rw [hdp] at hc
  rcases hdc : ({ g1 with players := ps } : Game).draw_card with ⟨c2, g3⟩
  have hfr := (draw_card_frame { g1 with players := ps }).1
  rw [hdc] at hfr
  refine ⟨c, ?_⟩
  simp only [hdp, hdc]
  rw [hfr]
  exact hc

/-- The initial deal gives each player exactly two cards. -/
theorem deal_initial_cards_entry (g : Game) (k : Nat)
    (hk : k < g.players.length) :
    ∃ c c', g.deal_initial_cards.players.getD k default =
      ((g.players.getD k default).add_card c).add_card c' := by
  unfold Game.deal_initial_cards
  obtain ⟨c, hc⟩ := dealPass_entry g k hk
  obtain ⟨c', hc'⟩ := dealPass_entry g.dealPass k
    (by rw [dealPass_players_length]; exact hk)
  exact ⟨c, c', by rw [hc', hc]⟩

/-- Before dealing, every (renamed) player of the fresh engine has an empty
hand. -/
theorem dealtNamed_entry_hand (room : Room) (g0 : Game)
    (hp : g0.players = []) (k : Nat) (hk : k < g0.n_players) :
    ((dealtNamed room g0).players.getD k default).hand = [] := by
  unfold dealtNamed
  dsimp only
  have hl : k < (g0.add_players.players.mapIdx (fun idx p =>
      { p with name := (room.seats.getD idx default).name })).length := by
    rw [List.length_mapIdx, add_players_length, hp]
    simpa using hk
  rw [getD_eq_getElem_of_lt _ _ hl, List.getElem_mapIdx]
  dsimp only
  unfold Game.add_players
  dsimp only
  simp [hp, Player.init]

/-- After the deal every player holds exactly two cards. -/
theorem dealtOf_hand_two (room : Room) (g0 : Game) (hp : g0.players = [])
    (k : Nat) (hk : k < g0.n_players) :
    ((dealtOf room g0).players.getD k default).hand.length = 2 := by
  unfold dealtOf
  have hkl : k < (dealtNamed room g0).players.length := by
    unfold dealtNamed
    dsimp only
    rw [List.length_mapIdx, add_players_length, hp]
    simpa using hk
  obtain ⟨c, c', he⟩ := deal_initial_cards_entry (dealtNamed room g0) k hkl
  rw [he]
  simp only [Player.add_card]
  rw [List.length_append, List.length_append,
    dealtNamed_entry_hand room g0 hp k hk]
  rfl

/-- `_resolve_initial_naturals` seat characterization: a natural player's
seat is resolved with the winner string, any other seat is untouched. -/
theorem resolve_initial_naturals_spec (r : Room) (g : Game)
    (hlen : g.players.length = r.seats.length) :
    ∀ j, j < r.seats.length →
      (resolve_initial_naturals r g).1.seats.getD j default =
        (if (appIsBlackjack (g.players.getD j default) ||
            appIsGoldenBlackjack (g.players.getD j default)) = true
        then { r.seats.getD j default with
                 resolved := true,
                 result := g.evaluate_winner j }
        else r.seats.getD j default) := by
  intro j hj
  have h := resolve_fold (List.range r.seats.length) (r, g)
    (List.nodup_range _)
    (fun k hk => by rw [hlen]; exact List.mem_range.mp hk)
  exact h.2.2 j (List.mem_range.mpr hj) hj

/-- A finalized stored room: each in-range seat is resolved with the
evaluation against the finished dealer, which for a natural player equals
the evaluation against the pre-loop game. -/
theorem finalized_room_snapshot_seat (roomX : Room) (gX : Game) (j : Nat)
    (hlen : gX.players.length = roomX.seats.length)
    (hj : j < roomX.seats.length)
    (hdok : gX.dealer.score = calculate_score gX.dealer.hand
      gX.dealer.is_dealer)
    (hdd : gX.dealer.is_dealer = true)
    (hdl2 : gX.dealer.hand.length = 2)
    (hnat : (appIsBlackjack (gX.players.getD j default) ||
      appIsGoldenBlackjack (gX.players.getD j default)) = true) :
    (({ (run_dealer_and_finalize roomX gX).1 with
        game := some (run_dealer_and_finalize roomX gX).2 } :
          Room).seats.getD j default).resolved = true ∧
    (({ (run_dealer_and_finalize roomX gX).1 with
        game := some (run_dealer_and_finalize roomX gX).2 } :
          Room).seats.getD j default).result = gX.evaluate_winner j := by
  have h := (run_dealer_and_finalize_spec roomX gX hlen).2.2 j hj
  have hst := eval_stable_dealerPlay gX j hdok hdd hdl2 hnat
  constructor
  · show ((run_dealer_and_finalize roomX gX).1.seats.getD j
      default).resolved = true
    rw [h]
  · show ((run_dealer_and_finalize roomX gX).1.seats.getD j
      default).result = gX.evaluate_winner j
    rw [h]
    dsimp only
    exact hst

/-- A stored `player_turns` room right after natural resolution satisfies
the natural-snapshot invariant. -/
theorem moved_room_snap (r : Room) (g : Game)
    (hlen : g.players.length = r.seats.length)
    (hh2 : ∀ j, j < r.seats.length →
      2 ≤ (g.players.getD j default).hand.length)
    (hdok : g.dealer.score = calculate_score g.dealer.hand g.dealer.is_dealer)
    (hdd : g.dealer.is_dealer = true)
    (hdl2 : g.dealer.hand.length = 2) :
    SnapInv { move_to_next_playable (resolve_initial_naturals r g).1
        (resolve_initial_naturals r g).2 with
        game := some (resolve_initial_naturals r g).2 } := by
  intro g2 hg2
  have hg2' := Option.some.inj hg2
  subst hg2'
  have hcore := resolve_initial_naturals_coreEq r g
  have hlens := resolve_initial_naturals_lengths r g
  have hdlr := resolve_initial_naturals_dealer r g
  have hs : ({ move_to_next_playable (resolve_initial_naturals r g).1
      (resolve_initial_naturals r g).2 with
      game := some (resolve_initial_naturals r g).2 } : Room).seats =
      (resolve_initial_naturals r g).1.seats :=
    move_to_next_playable_seats _ _
  refine ⟨?_, ?_, ?_, ?_⟩
  · rw [hs, hlens.1, hcore.1]
    exact hlen
  · intro j hj
    rw [hs, hlens.1] at hj
    have hh : ((resolve_initial_naturals r g).2.players.getD j
        default).hand = (g.players.getD j default).hand :=
      congrArg Prod.fst (hcore.2.2 j)
    show 2 ≤ ((resolve_initial_naturals r g).2.players.getD j
      default).hand.length
    rw [hh]
    exact hh2 j hj
  · intro _
    refine ⟨?_, ?_, ?_⟩
    · rw [hdlr]
      exact hdok
    · rw [hdlr]
      exact hdd
    · rw [hdlr]
      exact hdl2
  · intro j hj hn
    rw [hs, hlens.1] at hj
    have hfl : (appIsBlackjack
        ((resolve_initial_naturals r g).2.players.getD j default) ||
        appIsGoldenBlackjack
          ((resolve_initial_naturals r g).2.players.getD j default)) =
        (appIsBlackjack (g.players.getD j default) ||
          appIsGoldenBlackjack (g.players.getD j default)) := by
      obtain ⟨h1, h2⟩ := app_flags_of_pcore _ _ (hcore.2.2 j)
      rw [h1, h2]
    rw [hfl] at hn
    have hseatj := resolve_initial_naturals_spec r g hlen j hj
    rw [if_pos hn] at hseatj
    constructor
    · rw [hs, hseatj]
    · rw [hs, hseatj]
      dsimp only
      exact (evaluate_winner_core_congr _ _ j j (hcore.2.2 j)
        (congrArg pcore hcore.2.1)).symm

/-- A stored `player_turns` room right after natural resolution: each
natural seat is resolved and carries the dealt game's winner string. -/
theorem moved_room_snapshot_seat (r : Room) (g : Game) (j : Nat)
    (hlen : g.players.length = r.seats.length)
    (hj : j < r.seats.length)
    (hnat : (appIsBlackjack (g.players.getD j default) ||
      appIsGoldenBlackjack (g.players.getD j default)) = true) :
    (({ move_to_next_playable (resolve_initial_naturals r g).1
        (resolve_initial_naturals r g).2 with
        game := some (resolve_initial_naturals r g).2 } :
          Room).seats.getD j default).resolved = true ∧
    (({ move_to_next_playable (resolve_initial_naturals r g).1
        (resolve_initial_naturals r g).2 with
        game := some (resolve_initial_naturals r g).2 } :
          Room).seats.getD j default).result = g.evaluate_winner j := by
  have hs : ({ move_to_next_playable (resolve_initial_naturals r g).1
      (resolve_initial_naturals r g).2 with
      game := some (resolve_initial_naturals r g).2 } : Room).seats =
      (resolve_initial_naturals r g).1.seats :=
    move_to_next_playable_seats _ _
  have hj1 : j < (resolve_initial_naturals r g).1.seats.length := by
    rw [(resolve_initial_naturals_lengths r g).1]
    exact hj
  have hseatj := resolve_initial_naturals_spec r g hlen j hj
  rw [if_pos hnat] at hseatj
  constructor
  · rw [hs, hseatj]
  · rw [hs, hseatj]

/-- A successful `start_game` body stores a room satisfying the
natural-snapshot invariant, and every seat whose player was dealt a natural
is resolved with the dealt game's winner string — the deal-time snapshot. -/
theorem start_round_room_snap (room : Room) (sh : Nat → List Card)
    (g0 : Game) (room' : Room)
    (hinit : Game.init room.seats.length sh = .ok g0)
    (hstart : start_round_room room sh = .ok room') :
    SnapInv room' ∧
    room'.seats.length = room.seats.length ∧
    (∀ j, j < room.seats.length →
      (appIsBlackjack ((dealtOf room g0).players.getD j default) ||
        appIsGoldenBlackjack ((dealtOf room g0).players.getD j default)) =
        true →
      (room'.seats.getD j default).resolved = true ∧
      (room'.seats.getD j default).result =
        (dealtOf room g0).evaluate_winner j) := by
  obtain ⟨hn, hp⟩ := Game.init_ok _ _ _ hinit
  have hd0 := Game.init_dealer _ _ _ hinit
  obtain ⟨c1, c2, hd3⟩ := dealtOf_dealer room g0
  rw [hd0] at hd3
  have hdokD : (dealtOf room g0).dealer.score = calculate_score
      (dealtOf room g0).dealer.hand (dealtOf room g0).dealer.is_dealer := by
    rw [hd3]
    rfl
  have hddD : (dealtOf room g0).dealer.is_dealer = true := by
    rw [hd3]
    rfl
  have hdl2D : (dealtOf room g0).dealer.hand.length = 2 := by
    rw [hd3]
    rfl
  have hh2D : ∀ j, j < room.seats.length →
      ((dealtOf room g0).players.getD j default).hand.length = 2 :=
    fun j hj => dealtOf_hand_two room g0 hp j (by rw [hn]; exact hj)
  have hplenD : (dealtOf room g0).players.length = room.seats.length := by
    rw [dealtOf_players_length, hp, hn]
    simp
  unfold start_round_room at hstart
  rw [hinit] at hstart
  dsimp only at hstart
  rw [resolve_initial_naturals_dealer] at hstart
  set R1 : Room :=
    { room with
        phase := "player_turns",
        current_player_index := 0,
        seats := room.seats.map fun seat =>
          { seat with stood := false, resolved := false, result := "" } }
    with hR1
  have hR1len : R1.seats.length = room.seats.length := by
    rw [hR1]
    simp
  have hR1lenG : (dealtOf room g0).players.length = R1.seats.length := by
    rw [hR1len]
    exact hplenD
  have hh2R1 : ∀ j, j < R1.seats.length →
      2 ≤ ((dealtOf room g0).players.getD j default).hand.length := by
    intro j hj
    rw [hR1len] at hj
    exact Nat.le_of_eq (hh2D j hj).symm
  have hcore := resolve_initial_naturals_coreEq R1 (dealtOf room g0)
  have hlens := resolve_initial_naturals_lengths R1 (dealtOf room g0)
  have hdlr := resolve_initial_naturals_dealer R1 (dealtOf room g0)
  have hlenRG2 : (resolve_initial_naturals R1
      (dealtOf room g0)).2.players.length = room.seats.length := by
    rw [hcore.1]
    exact hplenD
  have hRGseatlen : (resolve_initial_naturals R1
      (dealtOf room g0)).1.seats.length = room.seats.length :=
    hlens.1.trans hR1len
  have hh2RG : ∀ j, j < room.seats.length →
      2 ≤ ((resolve_initial_naturals R1
        (dealtOf room g0)).2.players.getD j default).hand.length := by
    intro j hj
    have hh : ((resolve_initial_naturals R1
        (dealtOf room g0)).2.players.getD j default).hand =
        ((dealtOf room g0).players.getD j default).hand :=
      congrArg Prod.fst (hcore.2.2 j)
    rw [hh]
    exact Nat.le_of_eq (hh2D j hj).symm
  have hdokRG : (resolve_initial_naturals R1
      (dealtOf room g0)).2.dealer.score = calculate_score
      (resolve_initial_naturals R1 (dealtOf room g0)).2.dealer.hand
      (resolve_initial_naturals R1 (dealtOf room g0)).2.dealer.is_dealer := by
    rw [hdlr]
    exact hdokD
  have hddRG : (resolve_initial_naturals R1
      (dealtOf room g0)).2.dealer.is_dealer = true := by
    rw [hdlr]
    exact hddD
  have hdl2RG : (resolve_initial_naturals R1
      (dealtOf room g0)).2.dealer.hand.length = 2 := by
    rw [hdlr]
    exact hdl2D
  have hflagsRG : ∀ j, (appIsBlackjack ((resolve_initial_naturals R1
      (dealtOf room g0)).2.players.getD j default) ||
      appIsGoldenBlackjack ((resolve_initial_naturals R1
        (dealtOf room g0)).2.players.getD j default)) =
      (appIsBlackjack ((dealtOf room g0).players.getD j default) ||
        appIsGoldenBlackjack ((dealtOf room g0).players.getD j default)) := by
    intro j
    obtain ⟨h1, h2⟩ := app_flags_of_pcore _ _ (hcore.2.2 j)
    rw [h1, h2]
  have hevRG : ∀ j, (resolve_initial_naturals R1
      (dealtOf room g0)).2.evaluate_winner j =
      (dealtOf room g0).evaluate_winner j :=
    fun j => evaluate_winner_core_congr _ _ j j (hcore.2.2 j)
      (congrArg pcore hcore.2.1)
  by_cases hnat : (appIsBlackjack (dealtOf room g0).dealer ||
      appIsGoldenBlackjack (dealtOf room g0).dealer) = true
  · rw [if_pos hnat] at hstart
    have hx := Except.ok.inj hstart
    subst hx
    have hs21 : (dealtOf room g0).dealer.score = 21 :=
      dealer_natural_21 _ hdokD hddD hnat
    refine ⟨?_, ?_, ?_⟩
    · refine finalized_room_snap _ _ ?_ ?_
      · rw [hlenRG2, hRGseatlen]
      · intro j hj
        rw [hRGseatlen] at hj
        exact hh2RG j hj
    · exact (run_dealer_and_finalize_seats_length _ _).trans hRGseatlen
    · intro j hj hnatj
      exact natural_dealer_finalize R1 (dealtOf room g0) hR1lenG hs21 j
        (by rw [hR1len]; exact hj)
  · rw [if_neg hnat] at hstart
    split at hstart
    · rename_i hdt
      have hx := Except.ok.inj hstart
      subst hx
      have hMVseats := move_to_next_playable_seats
        (resolve_initial_naturals R1 (dealtOf room g0)).1
        (resolve_initial_naturals R1 (dealtOf room g0)).2
      have hlenMV : (resolve_initial_naturals R1
          (dealtOf room g0)).2.players.length =
          (move_to_next_playable
            (resolve_initial_naturals R1 (dealtOf room g0)).1
            (resolve_initial_naturals R1 (dealtOf room g0)).2).seats.length := by
        rw [hMVseats, hlenRG2, hRGseatlen]
      refine ⟨?_, ?_, ?_⟩
      · refine finalized_room_snap _ _ hlenMV ?_
        intro j hj
        rw [hMVseats, hRGseatlen] at hj
        exact hh2RG j hj
      · exact (run_dealer_and_finalize_seats_length _ _).trans
          ((congrArg List.length hMVseats).trans hRGseatlen)
      · intro j hj hnatj
        have hj1 : j < (move_to_next_playable
            (resolve_initial_naturals R1 (dealtOf room g0)).1
            (resolve_initial_naturals R1
              (dealtOf room g0)).2).seats.length := by
          rw [hMVseats, hRGseatlen]
          exact hj
        have hnatj' : (appIsBlackjack ((resolve_initial_naturals R1
            (dealtOf room g0)).2.players.getD j default) ||
            appIsGoldenBlackjack ((resolve_initial_naturals R1
              (dealtOf room g0)).2.players.getD j default)) = true := by
          rw [hflagsRG j]
          exact hnatj
        obtain ⟨hr1, hr2⟩ := finalized_room_snapshot_seat
          (move_to_next_playable
            (resolve_initial_naturals R1 (dealtOf room g0)).1
            (resolve_initial_naturals R1 (dealtOf room g0)).2)
          (resolve_initial_naturals R1 (dealtOf room g0)).2 j hlenMV hj1
          hdokRG hddRG hdl2RG hnatj'
        exact ⟨hr1, hr2.trans (hevRG j)⟩
    · rename_i hndt
      have hx := Except.ok.inj hstart
      subst hx
      refine ⟨moved_room_snap R1 (dealtOf room g0) hR1lenG hh2R1 hdokD hddD
        hdl2D, ?_, ?_⟩
      · have hMVseats := move_to_next_playable_seats
          (resolve_initial_naturals R1 (dealtOf room g0)).1
          (resolve_initial_naturals R1 (dealtOf room g0)).2
        exact (congrArg List.length hMVseats).trans hRGseatlen
      · intro j hj hnatj
        exact moved_room_snapshot_seat R1 (dealtOf room g0) j hR1lenG
          (by rw [hR1len]; exact hj) hnatj

/-- C7: a seat resolved as a natural at deal time keeps its snapshotted
result string for the whole round.  `start_game` stores each dealt
natural's evaluation on its seat and establishes the snapshot invariant;
every successful `player_action` preserves the invariant and leaves every
natural seat's resolved flag and result string verbatim — in particular the
final dealer resolution re-evaluates the seat but computes the same
string. -/
theorem natural_snapshot_stable :
    (∀ (m : RoomManager) (rid pid : String) (m' : RoomManager)
        (room room' : Room) (g0 : Game),
        dictGet m.rooms rid = some room →
        Game.init room.seats.length (m.shufflers m.gameCount) = .ok g0 →
        m.start_game rid pid = (m', .ok ()) →
        dictGet m'.rooms rid = some room' →
        SnapInv room' ∧
        (∀ j, j < room.seats.length →
          (appIsBlackjack ((dealtOf room g0).players.getD j default) ||
            appIsGoldenBlackjack
              ((dealtOf room g0).players.getD j default)) = true →
          (room'.seats.getD j default).resolved = true ∧
          (room'.seats.getD j default).result =
            (dealtOf room g0).evaluate_winner j)) ∧
    (∀ (m : RoomManager) (rid pid act : String) (room : Room)
        (m' : RoomManager) (room' : Room),
        dictGet m.rooms rid = some room →
        RoomInv room →
        SnapInv room →
        m.player_action rid pid act = (m', .ok ()) →
        dictGet m'.rooms rid = some room' →
        SnapInv room' ∧
        room'.seats.length = room.seats.length ∧
        (∀ g, room.game = some g →
          ∀ j, j < room.seats.length →
          (appIsBlackjack (g.players.getD j default) ||
            appIsGoldenBlackjack (g.players.getD j default)) = true →
          (room'.seats.getD j default).resolved = true ∧
          (room'.seats.getD j default).result =
            (room.seats.getD j default).result)) := by
  constructor
  · intro m rid pid m' room room' g0 hdg hinit hstart hget
    obtain ⟨room0, roomS, hdg0, hsr, hm'⟩ := start_game_ok m rid pid m' hstart
    have hroom : room0 = room := by
      rw [hdg0] at hdg
      exact Option.some.inj hdg
    subst hroom
    rw [hm'] at hget
    dsimp only at hget
    rw [dictGet_dictSet_self] at hget
    have hr' := Option.some.inj hget
    rw [← hr']
    have h := start_round_room_snap room0 (m.shufflers m.gameCount) g0 roomS
      hinit hsr
    exact ⟨h.1, h.2.2⟩
  · intro m rid pid act room m' room' hdg hrinv hsinv hact hget
    obtain ⟨room0, g, hdg0, hph, hg, hres, hm'⟩ :=
      player_action_ok m rid pid act m' hact
    have hroom : room0 = room := by
      rw [hdg0] at hdg
      exact Option.some.inj hdg
    subst hroom
    obtain ⟨g', hg', hlen', hcur, hunf, hprev⟩ := hrinv hph
    have hgg : g' = g := by
      rw [hg] at hg'
      exact (Option.some.inj hg').symm
    subst hgg
    obtain ⟨hslen, hh2, hdok3, hseat⟩ := hsinv g' hg
    obtain ⟨hdok, hdd, hdl2⟩ := hdok3 hph
    rw [hm'] at hget
    dsimp only at hget
    rw [dictGet_dictSet_self] at hget
    have hr' := Option.some.inj hget
    rw [← hr']
    have hmain := apply_action_room_snap room0 g' (strTrim (strLower act))
      hph hcur hres hslen hh2 hdok hdd hdl2 hseat
    refine ⟨hmain.1, hmain.2.1, ?_⟩
    intro g2 hg2 j hj hn
    have hg2' : g2 = g' := by
      rw [hg] at hg2
      exact (Option.some.inj hg2).symm
    subst hg2'
    exact hmain.2.2 j hj hn

/-- A two-seat waiting room for the snapshot round. -/
def snapRoom : Room :=
  { room_id := "S", host_id := "h",
    seats := [⟨"h", "ann", false, false, ""⟩, ⟨"p", "bob", false, false, ""⟩],
    max_players := 2 }

/-- A six-card deck dealing ace+king to seat 0 (a blackjack), 5+9 to
seat 1, and king+9 (score 19, no further draw) to the dealer. -/
def snapDeck : List Card :=
  [⟨Suit.clubs, Rank.nine⟩, ⟨Suit.hearts, Rank.nine⟩,
    ⟨Suit.spades, Rank.king⟩, ⟨Suit.hearts, Rank.king⟩,
    ⟨Suit.spades, Rank.five⟩, ⟨Suit.spades, Rank.ace⟩]

/-- The registry holding `snapRoom`. -/
def snapManager : RoomManager :=
  { rooms := [("S", snapRoom)], uuids := fun _ => "aaaabbbbcccc",
    uuidCount := 0, shufflers := fun _ _ => snapDeck, gameCount := 0 }

/-- The registry after the host starts the round. -/
def snapM1 : RoomManager := (snapManager.start_game "S" "h").1

/-- The started room: seat 0 is already resolved as a natural. -/
def snapRoom1 : Room := (dictGet snapM1.rooms "S").getD default

/-- The fresh engine of the snapshot round. -/
def snapG0 : Game :=
  (Game.init 2 (snapManager.shufflers snapManager.gameCount)).toOption.getD
    default

/-- The game stored in the started room. -/
def snapG1 : Game := snapRoom1.game.getD default

/-- The registry after seat 1 stands, which ends the round. -/
def snapM2 : RoomManager := (snapM1.player_action "S" "p" "stand").1

/-- The finished room. -/
def snapRoom2 : Room := (dictGet snapM2.rooms "S").getD default

/-- Closed witness for C7: the natural seat 0 is resolved at deal time with
`"Player wins with Blackjack"`, and after seat 1's stand finishes the round
(dealer resolution re-evaluates every seat) its result string is
unchanged. -/
theorem natural_snapshot_stable_witness :
    (snapRoom1.seats.getD 0 default).resolved = true ∧
    (snapRoom1.seats.getD 0 default).result = "Player wins with Blackjack" ∧
    snapRoom2.phase = "results" ∧
    (snapRoom2.seats.getD 0 default).result =
      (snapRoom1.seats.getD 0 default).result := by
  have h1 := natural_snapshot_stable.1 snapManager "S" "h" snapM1 snapRoom
    snapRoom1 snapG0 rfl rfl rfl rfl
  have h2 := natural_snapshot_stable.2 snapM1 "S" "p" "stand" snapRoom1
    snapM2 snapRoom2 rfl
    (fun _ => ⟨snapG1, rfl, by decide, by decide, by decide, fun j hj => by
      have hc : snapRoom1.current_player_index = 1 := by decide
      rw [hc] at hj
      have hj0 : j = 0 := by omega
      subst hj0
      decide⟩)
    h1.1 rfl rfl
  obtain ⟨hr1, hr2⟩ := h1.2 0 (by decide) (by decide)
  refine ⟨hr1, hr2.trans (by decide), by decide, ?_⟩
  exact (h2.2.2 snapG1 rfl 0 (by decide) (by decide)).2
